import Mathlib

/-!
# A verification development for the polaris `rj` announcement engine

This file gives a shallow embedding, in Lean 4, of the announcement-generation
engine found in `src/app/rj` of the polaris repository: the compile-time
fragment resolver (`parse.rs`), the script cache and runtime rendering engine
(`script.rs`), and the settings manager (`mod.rs`).  Rust strings are modelled
as `List Char` (`Str`), `BTreeMap<String, _>` as association lists sorted by
the lexicographic character order (UTF-8 byte order and code-point order agree,
so this matches Rust's `Ord for String`), the `FieldSet` bit-set as a `Nat`
holding the same 16 bits, and the `rand` calls as an explicit oracle that is
threaded through the computation.  Rust panics (`unwrap` on `None`/`Err`,
`% 0`) are modelled as a distinguished `Failure.panics` outcome, and the
render loop (a `while` loop in Rust that can genuinely diverge) takes an
explicit fuel parameter whose exhaustion is the distinguished outcome
`Failure.fuelOut`.
-/

namespace Rj

/-- Rust `&str` contents, modelled as the list of its characters. -/
abbrev Str := List Char

/-- Characters with the Unicode `White_Space` property, as used by Rust's
`str::split_whitespace` and `str::trim` (`char::is_whitespace`). -/
def isWS (c : Char) : Bool :=
  c.val == 0x09 || c.val == 0x0A || c.val == 0x0B || c.val == 0x0C ||
  c.val == 0x0D || c.val == 0x20 || c.val == 0x85 || c.val == 0xA0 ||
  c.val == 0x1680 || (0x2000 ≤ c.val && c.val ≤ 0x200A) ||
  c.val == 0x2028 || c.val == 0x2029 || c.val == 0x202F ||
  c.val == 0x205F || c.val == 0x3000

/-- Helper for `splitWS`: `cur` is the current word accumulated in reverse. -/
def splitWSAux : Str → Str → List Str
  | [], cur => if cur.isEmpty then [] else [cur.reverse]
  | c :: t, cur =>
    if isWS c then
      if cur.isEmpty then splitWSAux t [] else cur.reverse :: splitWSAux t []
    else splitWSAux t (c :: cur)

/-- Rust `str::split_whitespace`: the maximal non-whitespace runs, in order. -/
def splitWS (s : Str) : List Str := splitWSAux s []

/-- Rust `str::trim`. -/
def trimStr (s : Str) : Str :=
  (s.dropWhile isWS).reverse.dropWhile isWS |>.reverse

/-- Rust `str::contains::<&str>`: substring occurrence. -/
def occurs (pat : Str) : Str → Bool
  | [] => pat.isEmpty
  | c :: t => pat.isPrefixOf (c :: t) || occurs pat t

/-- The scan of `replaceStr`: a left-to-right pass; `skip` counts characters
of a just-matched occurrence still to be consumed (during which no new match
starts, giving the leftmost non-overlapping semantics). -/
def replaceSk (pat sub : Str) : Str → Nat → Str
  | [], _ => []
  | c :: t, skip =>
    match skip with
    | n + 1 => replaceSk pat sub t n
    | 0 =>
      if pat.isEmpty then c :: t
      else if pat.isPrefixOf (c :: t) then
        sub ++ replaceSk pat sub t (pat.length - 1)
      else c :: replaceSk pat sub t 0

/-- Rust `str::replace`: replace every (leftmost, non-overlapping) occurrence
of `pat` by `sub`.  All call sites in the source use a non-empty pattern, so
the empty pattern (where Rust would match at every boundary) is mapped to the
identity. -/
def replaceStr (s pat sub : Str) : Str := replaceSk pat sub s 0

/-- Lexicographic order on `Str` by code point; agrees with Rust's
`Ord for String` (byte-wise order of the UTF-8 encodings). -/
def strLt : Str → Str → Bool
  | [], [] => false
  | [], _ :: _ => true
  | _ :: _, [] => false
  | a :: as, b :: bs => a < b || (a == b && strLt as bs)

/-- A `BTreeMap<String, α>`: an association list kept sorted by `strLt`. -/
abbrev AList (α : Type) := List (Str × α)

/-- `BTreeMap::insert` (replaces the value if the key is present). -/
def minsert (k : Str) (v : α) : AList α → AList α
  | [] => [(k, v)]
  | (k', v') :: t =>
    if strLt k k' then (k, v) :: (k', v') :: t
    else if k == k' then (k, v) :: t
    else (k', v') :: minsert k v t

/-- `BTreeMap::get`. -/
def mget? (k : Str) : AList α → Option α
  | [] => none
  | (k', v') :: t => if k == k' then some v' else mget? k t

/-- `BTreeMap::contains_key`. -/
def mcontains (k : Str) (m : AList α) : Bool := (mget? k m).isSome

/-- `BTreeMap::remove` (the maps here never hold duplicate keys). -/
def mremove (k : Str) : AList α → AList α
  | [] => []
  | (k', v') :: t => if k == k' then t else (k', v') :: mremove k t

/-- The keys of a map, in iteration order. -/
def mkeys (m : List (Str × α)) : List Str := m.map (fun p => p.1)

/-! ## `parse.rs`: reserved vocabulary and word shape -/

/-- `FIELD_DELIMITER`. -/
def FIELD_DELIMITER : Char := '^'

/-- `RESERVED_FIELD_NAMES`. -/
def RESERVED_FIELD_NAMES : List Str :=
  ["id".data, "path".data, "parent".data, "track_number".data,
   "disc_number".data, "title".data, "artist".data, "album_artist".data,
   "year".data, "album".data, "artwork".data, "duration".data,
   "lyricist".data, "composer".data, "genre".data, "label".data]

/-- `get_delimited_name`. -/
def get_delimited_name (name : Str) : Str :=
  FIELD_DELIMITER :: name ++ [FIELD_DELIMITER]

/-- `strip_delimiters` (`name.replace('^', "")`, i.e. every delimiter
character is removed). -/
def strip_delimiters (name : Str) : Str :=
  name.filter (fun c => c ≠ FIELD_DELIMITER)

/-- `is_reserved`. -/
def is_reserved (name : Str) : Bool :=
  RESERVED_FIELD_NAMES.any (fun r => r == name)

/-- The Rust byte length of a word (`str::len`), recovered from the characters
via their UTF-8 sizes. -/
def byteLen (w : Str) : Nat := (w.map Char.utf8Size).sum

/-- `count_delimiters`: the number of delimiter characters and the *character*
indices (Rust iterates `chars().enumerate()`) of the first and last
occurrence (`0` if there is none). -/
def count_delimiters (w : Str) : Nat × (Nat × Nat) :=
  let rec go : List Char → Nat → Nat × Nat × Nat
    | [], _ => (0, 0, 0)
    | c :: t, i =>
      let (count, first, last) := go t (i + 1)
      if c == FIELD_DELIMITER then
        (count + 1, i, if count == 0 then i else last)
      else (count, first, last)
  let (count, first, last) := go w 0
  (count, (first, last))

/-- `is_field_name`.  Note the Rust source compares the *character* index of
the last delimiter with `word.len() - 1`, which is the *byte* length: a word
such as `^é^` (delimiters first and last, but a multi-byte character inside)
is reported as malformed. -/
def is_field_name (word : Str) : Except Nat Bool :=
  let (count, first, last) := count_delimiters word
  if count == 0 then .ok false
  else if count ≠ 2 then .error count
  else if first > 0 || last < byteLen word - 1 then .error count
  else .ok true

/-! ## `parse.rs`: data model -/

/-- `error::ParseError`.  The `reserved` payload of
`FragmentUsesReservedName` (a `format!("{:?}", ...)` rendering of the constant
name table) is omitted as derived data. -/
inductive ParseError where
  | SelfRecursion (name fragment : Str)
  | OddNumberOfDelimiters (count : Nat) (delimiter : Char) (name fragment word : Str)
  | InterleavedDelimiter (delimiter : Char) (name fragment word : Str)
  | DuplicateFragment (name : Str)
  | FragmentUsesReservedName (name : Str)
  | RecursiveDependency (name fragment : Str)
  | ExpansionFailed (name field fragment : Str)
  | TooDeep (depth : Nat) (name fragment : Str)
  | FailedToDeserialize (msg : Str)
  | FailedToBuild (msg : Str)
  | FailedToTTS (msg : Str)
  | RjServiceDisabled
  | InvalidInput (msg : Str)
  | DelimiterNotAllowed (delimiter : Char) (conjunction : Str)
  deriving DecidableEq, Repr

/-- How an execution of the Rust code can fail to produce a value: a returned
`Err(ParseError)`, a panic (`unwrap` on `None`/`Err`, `% 0`), or — for the
render loop only — exhaustion of the explicit fuel that stands in for a
diverging `while` loop. -/
inductive Failure where
  | err (e : ParseError)
  | panics
  | fuelOut
  deriving DecidableEq, Repr

abbrev Res (α : Type) := Except Failure α

/-- `user_opts::Inclusion`. -/
inductive Inclusion where
  | Required
  | Optional
  | Exclude
  deriving DecidableEq, Repr

/-- `user_opts::FieldsToAnnounce`. -/
structure FieldsToAnnounce where
  track_number : Inclusion
  disc_number : Inclusion
  title : Inclusion
  artist : Inclusion
  album_artist : Inclusion
  year : Inclusion
  album : Inclusion
  duration : Inclusion
  lyricist : Inclusion
  composer : Inclusion
  genre : Inclusion
  label : Inclusion
  deriving DecidableEq, Repr

/-- `Default for FieldsToAnnounce`. -/
def FieldsToAnnounce.default : FieldsToAnnounce :=
  { track_number := .Exclude, disc_number := .Exclude, title := .Required,
    artist := .Required, album_artist := .Optional, year := .Optional,
    album := .Required, duration := .Exclude, lyricist := .Required,
    composer := .Required, genre := .Optional, label := .Exclude }

/-- `user_opts::UserField`. -/
structure UserField where
  name : Str
  whole : Bool
  fragments : List Str
  deriving DecidableEq, Repr

/-- `user_opts::TensedUserField`. -/
structure TensedUserField where
  name : Str
  past : Str
  present : Str
  deriving DecidableEq, Repr

/-- `user_opts::UserAnnouncementOptions`. -/
structure UserAnnouncementOptions where
  patterns : List UserField
  tense_patterns : Option (List TensedUserField)
  conjunctions : Option (List Str)
  tags_to_announce : Option FieldsToAnnounce
  deriving DecidableEq, Repr

/-- `parse::Field`: the compiled form of a user field.  `fragments` is a
`BTreeMap<String, bool>` from fragment text to its "used" flag. -/
structure Field where
  delimited_name : Str
  whole : Bool
  fragments : AList Bool
  deriving DecidableEq, Repr

/-- `Field::has_self_dependency`: the first fragment (in map order) containing
the field's own delimited name as a substring. -/
def Field.has_self_dependency (f : Field) : Option Str :=
  match f.fragments.find? (fun p => occurs f.delimited_name p.1) with
  | some p => some p.1
  | none => none

/-- `Field::replace_and_keep`.  Iterates over the (pre-call) fragment map; for
every fragment containing `fm`, inserts the replaced text with that fragment's
*original* flag and then marks the source fragment used. -/
def Field.replace_and_keep (f : Field) (fm sub : Str) : Res Field :=
  match f.has_self_dependency with
  | some fragment => .error (.err (.RecursiveDependency f.delimited_name fragment))
  | none =>
    let newFragments := f.fragments.foldl
      (fun acc (p : Str × Bool) =>
        if occurs fm p.1 then
          minsert p.1 true (minsert (replaceStr p.1 fm sub) p.2 acc)
        else acc)
      f.fragments
    .ok { f with fragments := newFragments }

/-- One word of `Field::each_fragment_is_resolved_once`: `true` when the word
is a field-name reference that resolves against neither the given map keys
nor the reserved names.  `is_field_name(word).unwrap()` panics on a malformed
word; this surfaces as `Failure.panics`. -/
def word_unresolved_against (keys : List Str) (word : Str) : Res Bool :=
  match is_field_name word with
  | .error _ => .error .panics
  | .ok b =>
    let stripped := strip_delimiters word
    .ok (b && !(keys.any (fun k => k == stripped) || is_reserved stripped))

/-- The inner word loop of `Field::each_fragment_is_resolved_once`: a fragment
is resolved when no word is unresolved against the map. -/
def fragment_resolved_against (keys : List Str) : List Str → Res Bool
  | [] => .ok true
  | w :: ws => do
    let bad ← word_unresolved_against keys w
    let rest ← fragment_resolved_against keys ws
    pure (!bad && rest)

/-- The fragment loop of `Field::each_fragment_is_resolved_once`. -/
def frags_resolved_once (keys : List Str) : List (Str × Bool) → Bool → Res Bool
  | [], acc => .ok acc
  | (frag, _) :: t, acc => do
    let resolved ← fragment_resolved_against keys (splitWS frag)
    frags_resolved_once keys t (acc || resolved)

/-- `Field::each_fragment_is_resolved_once` (the `map` argument is always the
tense map, passed here as its key list). -/
def Field.each_fragment_is_resolved_once (f : Field) (keys : List Str) :
    Res Bool :=
  frags_resolved_once keys f.fragments false

/-! ## `parse.rs`: the compiled options and the compilation pipeline -/

/-- `parse::AnnouncementOptions`.  The `conjunctions` field is required by
`script.rs` (`ScriptCache::from` reads `opts.conjunctions`) but its
declaration/initialisation is not part of the sources under `src/`; it is
modelled from the spec ("optional conjunction list" of the user model,
carried through compilation unchanged) as the user's list defaulted to `[]`. -/
structure AnnouncementOptions where
  present : AList Field
  past : AList Field
  neutral : AList Field
  tense : AList TensedUserField
  tags_to_announce : FieldsToAnnounce
  conjunctions : List Str
  deriving DecidableEq, Repr

namespace AnnouncementOptions

/-- The `patterns` loop of `build_map`. -/
def build_patterns : List UserField → AList Field → Res (AList Field)
  | [], m => .ok m
  | uf :: t, m =>
    if mcontains uf.name m then .error (.err (.DuplicateFragment uf.name))
    else
      build_patterns t
        (minsert uf.name
          { delimited_name := get_delimited_name uf.name,
            whole := uf.whole,
            fragments := uf.fragments.foldl (fun s f => minsert f false s) [] }
          m)

/-- The `tense_patterns` loop of `build_map`. -/
def build_tense (neutral : AList Field) :
    List TensedUserField → AList TensedUserField → Res (AList TensedUserField)
  | [], tm => .ok tm
  | f :: t, tm =>
    if mcontains f.name neutral || mcontains f.name tm then
      .error (.err (.DuplicateFragment f.name))
    else build_tense neutral t (minsert f.name f tm)

/-- The `(name, fragment, used, word)` tuples visited, in order, by
`iterate_all_words` over a field map. -/
def allWords (m : AList Field) : List (Str × Str × Bool × Str) :=
  m.flatMap (fun nf =>
    nf.2.fragments.flatMap (fun fr =>
      (splitWS fr.1).map (fun w => (nf.1, fr.1, fr.2, w))))

/-- `has_self_dependency` (the `AnnouncementOptions` method). -/
def self_dep_check : List (Str × Field) → Res Unit
  | [] => .ok ()
  | (name, fld) :: t =>
    match fld.has_self_dependency with
    | some fragment => .error (.err (.SelfRecursion name fragment))
    | none => self_dep_check t

/-- `uses_reserved_name_internal` on a key list. -/
def reserved_check : List Str → Res Unit
  | [] => .ok ()
  | k :: t =>
    if is_reserved k then .error (.err (.FragmentUsesReservedName k))
    else reserved_check t

/-- `has_delimiter_only_at_start_end`, as a scan over the visited words. -/
def delimiter_check : List (Str × Str × Bool × Str) → Res Unit
  | [] => .ok ()
  | (name, frag, _, w) :: t =>
    match is_field_name w with
    | .error c =>
      if c ≠ 2 then
        .error (.err (.OddNumberOfDelimiters c FIELD_DELIMITER name frag w))
      else .error (.err (.InterleavedDelimiter FIELD_DELIMITER name frag w))
    | .ok _ => delimiter_check t

/-- `verify_missing_name`, as a scan over the visited words. -/
def missing_check (neutral : AList Field) (tense : AList TensedUserField) :
    List (Str × Str × Bool × Str) → Res Unit
  | [] => .ok ()
  | (name, frag, _, w) :: t =>
    match is_field_name w with
    | .error _ => .error .panics
    | .ok b =>
      if b then
        let fieldName := strip_delimiters w
        if !mcontains fieldName neutral && !mcontains fieldName tense &&
            !is_reserved fieldName then
          .error (.err (.ExpansionFailed name fieldName frag))
        else missing_check neutral tense t
      else missing_check neutral tense t

/-- `has_unresolved`, as a scan over the visited words. -/
def unresolved_scan : List (Str × Str × Bool × Str) → Res Bool
  | [] => .ok false
  | (_, _, _, w) :: t =>
    match is_field_name w with
    | .error _ => .error .panics
    | .ok b =>
      if b && !is_reserved (strip_delimiters w) then .ok true
      else unresolved_scan t

/-- The innermost loop of `deflate`: apply
`replace_and_keep(tmp_delimited_name, tmp_fragment)` to every field except
the one named `tmpName`. -/
def rak_all (tmpName fm sub : Str) : AList Field → Res (AList Field)
  | [] => .ok []
  | (n, fld) :: t =>
    match (if n == tmpName then .ok fld else fld.replace_and_keep fm sub :
        Res Field) with
    | .error e => .error e
    | .ok fld' =>
      match rak_all tmpName fm sub t with
      | .error e => .error e
      | .ok rest => .ok ((n, fld') :: rest)

/-- The middle loop of `deflate`: one snapshot field's fragments in order. -/
def deflate_frags (tmpName fm : Str) : List Str → AList Field → Res (AList Field)
  | [], m => .ok m
  | fr :: frs, m => do
    let m' ← rak_all tmpName fm fr m
    deflate_frags tmpName fm frs m'

/-- The outer loop of `deflate`: the snapshot (`temp`) fields in order. -/
def deflate_tmps : List (Str × Field) → AList Field → Res (AList Field)
  | [], m => .ok m
  | (tmpName, tmpFld) :: rest, m => do
    let m' ← deflate_frags tmpName tmpFld.delimited_name
      (tmpFld.fragments.map (fun p => p.1)) m
    deflate_tmps rest m'

/-- `deflate`: up to `depth` iterations, stopping early when no unresolved
reference remains. -/
def deflate (depth : Nat) (m : AList Field) : Res (AList Field) :=
  match depth with
  | 0 => .ok m
  | d + 1 => do
    let u ← unresolved_scan (allWords m)
    if !u then .ok m
    else do
      let m' ← deflate_tmps m m
      deflate d m'

/-- The inner tense loop of `deflate_tense` for one neutral fragment: fold the
tense fields (in map order) over the accumulating past/present texts.  The
containment test is against the *original* fragment, as in the source; the
returned flag records whether any tense field matched (the source pushes one
`used` entry per match; re-marking the same pair is idempotent). -/
def tense_sub (fragment : Str) :
    List (Str × TensedUserField) → Str → Str → Bool → (Str × Str × Bool)
  | [], pa, pr, u => (pa, pr, u)
  | (fieldName, tf) :: t, pa, pr, u =>
    let dn := get_delimited_name fieldName
    if !occurs dn fragment then tense_sub fragment t pa pr u
    else
      tense_sub fragment t (replaceStr pa dn tf.past) (replaceStr pr dn tf.present) true

/-- The collection phase of `deflate_tense`, over the `(name, fragment)`
pairs of the neutral map in iteration order: produces `tmp_past`,
`tmp_present` and the `used` list. -/
def tense_collect (tense : List (Str × TensedUserField)) :
    List (Str × Str) → (List (Str × Str) × List (Str × Str) × List (Str × Str))
  | [] => ([], [], [])
  | (name, fragment) :: t =>
    let (pa, pr, u) := tense_sub fragment tense fragment fragment false
    let (pas, prs, us) := tense_collect tense t
    ((name, pa) :: pas, (name, pr) :: prs,
      if u then (name, fragment) :: us else us)

/-- The `(name, fragment)` pairs visited by `iterate_all_fragments`. -/
def allFrags (m : AList Field) : List (Str × Str) :=
  m.flatMap (fun nf => nf.2.fragments.map (fun fr => (nf.1, fr.1)))

/-- Overwrite the entry at an existing key. -/
def mset (k : Str) (v : Field) : AList Field → AList Field
  | [] => []
  | nf :: t => if nf.1 == k then (nf.1, v) :: mset k v t else nf :: mset k v t

/-- The `used` application loop of `deflate_tense` (`get_mut(..).unwrap()`
twice; a missing key would panic). -/
def mark_used : List (Str × Str) → AList Field → Res (AList Field)
  | [], m => .ok m
  | (n, fr) :: t, m =>
    match mget? n m with
    | none => .error .panics
    | some fld =>
      match mget? fr fld.fragments with
      | none => .error .panics
      | some _ =>
        mark_used t (mset n { fld with fragments := minsert fr true fld.fragments } m)

/-- `add_and_insert`. -/
def add_and_insert (m : AList Field) (name fragment : Str) (fld : Field) :
    AList Field :=
  let m' :=
    if mcontains name m then m
    else
      minsert name
        { delimited_name := fld.delimited_name, whole := fld.whole, fragments := [] } m
  m'.map (fun nf =>
    if nf.1 == name then
      (nf.1, { nf.2 with fragments := minsert fragment false nf.2.fragments })
    else nf)

/-- The `tmp_past`/`tmp_present` insertion loops of `deflate_tense`
(`self.neutral.get(&name).unwrap()` panics on a missing name). -/
def add_all (neutral : AList Field) :
    List (Str × Str) → AList Field → Res (AList Field)
  | [], m => .ok m
  | (name, fragment) :: t, m =>
    match mget? name neutral with
    | none => .error .panics
    | some fld => add_all neutral t (add_and_insert m name fragment fld)

/-- The per-field loop of `each_field_is_resolved_once`. -/
def each_field_check (keys : List Str) (depth : Nat) :
    List (Str × Field) → Res Unit
  | [] => .ok ()
  | (n, fld) :: t => do
    let r ← fld.each_fragment_is_resolved_once keys
    if !r then .error (.err (.TooDeep depth n [])) else each_field_check keys depth t

/-- The collection scan of `remove_unresolved` over the neutral words: an
unresolved word in a fragment never marked used is `TooDeep`; otherwise the
`(name, fragment)` pair is recorded for removal. -/
def collect_unresolved (depth : Nat) :
    List (Str × Str × Bool × Str) → Res (List (Str × Str))
  | [] => .ok []
  | (name, frag, used, w) :: t =>
    match is_field_name w with
    | .error _ => .error .panics
    | .ok b =>
      if b && !is_reserved (strip_delimiters w) then
        if !used then .error (.err (.TooDeep depth name frag))
        else do
          let rest ← collect_unresolved depth t
          pure ((name, frag) :: rest)
      else collect_unresolved depth t

/-- The removal loop of `remove_unresolved` over the neutral map. -/
def apply_removals (toRemove : List (Str × Str)) (m : AList Field) : AList Field :=
  m.map (fun nf =>
    (nf.1,
      { nf.2 with
        fragments :=
          toRemove.foldl
            (fun fr p => if p.1 == nf.1 then mremove p.2 fr else fr)
            nf.2.fragments }))

/-- The word scan of `get_unresolved` for one fragment (stops at the first
unresolved word). -/
def frag_has_unresolved : List Str → Res Bool
  | [] => .ok false
  | w :: ws =>
    match is_field_name w with
    | .error _ => .error .panics
    | .ok b =>
      if b && !is_reserved (strip_delimiters w) then .ok true
      else frag_has_unresolved ws

/-- The fragment loop of `get_unresolved` for one field. -/
def frags_unresolved (name : Str) : List (Str × Bool) → Res (List (Str × Str))
  | [] => .ok []
  | (frag, _) :: frs => do
    let u ← frag_has_unresolved (splitWS frag)
    let rest ← frags_unresolved name frs
    pure (if u then (name, frag) :: rest else rest)

/-- `get_unresolved` over a (past or present) field map. -/
def get_unresolved : List (Str × Field) → Res (List (Str × Str))
  | [] => .ok []
  | (name, fld) :: t => do
    let here ← frags_unresolved name fld.fragments
    let rest ← get_unresolved t
    pure (here ++ rest)

/-- `remove_unresolved_internal` (`get_mut(name).unwrap()` panics on a
missing key). -/
def remove_internal : List (Str × Str) → AList Field → Res (AList Field)
  | [], m => .ok m
  | (name, frag) :: t, m =>
    match mget? name m with
    | none => .error .panics
    | some fld =>
      remove_internal t (mset name { fld with fragments := mremove frag fld.fragments } m)

/-- `build_map`. -/
def build_map (u : UserAnnouncementOptions) (st : AnnouncementOptions) :
    Res AnnouncementOptions := do
  let neutral ← build_patterns u.patterns st.neutral
  match u.tense_patterns with
  | none => pure { st with neutral := neutral }
  | some tps => do
    let tense ← build_tense neutral tps st.tense
    pure { st with neutral := neutral, tense := tense }

/-- `deflate_tense`. -/
def deflate_tense (st : AnnouncementOptions) : Res AnnouncementOptions := do
  let (pas, prs, used) := tense_collect st.tense (allFrags st.neutral)
  let n' ← mark_used used st.neutral
  let past' ← add_all n' pas st.past
  let present' ← add_all n' prs st.present
  pure { st with neutral := n', past := past', present := present' }

/-- `remove_unresolved`. -/
def remove_unresolved (depth : Nat) (st : AnnouncementOptions) :
    Res AnnouncementOptions := do
  let toRemove ← collect_unresolved depth (allWords st.neutral)
  let n' := apply_removals toRemove st.neutral
  let pastRm ← get_unresolved st.past
  let past' ← remove_internal pastRm st.past
  let presentRm ← get_unresolved st.present
  let present' ← remove_internal presentRm st.present
  pure { st with neutral := n', past := past', present := present' }

/-- The freshly initialised `AnnouncementOptions` of `from_user`. -/
def init_state (u : UserAnnouncementOptions) : AnnouncementOptions :=
  { present := [], past := [], neutral := [], tense := [],
    tags_to_announce := u.tags_to_announce.getD FieldsToAnnounce.default,
    conjunctions := u.conjunctions.getD [] }

/-- `AnnouncementOptions::from_user`: the full compilation pipeline. -/
def from_user (u : UserAnnouncementOptions) (depth_limit : Nat) :
    Res AnnouncementOptions := do
  let st1 ← build_map u (init_state u)
  let _ ← self_dep_check st1.neutral
  let _ ← reserved_check (mkeys st1.neutral)
  let _ ← reserved_check (mkeys st1.tense)
  let _ ← delimiter_check (allWords st1.neutral)
  let _ ← missing_check st1.neutral st1.tense (allWords st1.neutral)
  let n2 ← deflate depth_limit st1.neutral
  let st2 := { st1 with neutral := n2 }
  let st3 ← deflate_tense st2
  let _ ← each_field_check (mkeys st3.tense) depth_limit st3.neutral
  remove_unresolved depth_limit st3

end AnnouncementOptions

/-- `DEFAULT_DEPTH_LIMIT`. -/
def DEFAULT_DEPTH_LIMIT : Nat := 5

/-! ## `script.rs`: the `FieldSet` bit-set -/

/-- `script::FieldSet`: a `u32` bit-set with one bit per reserved field.  All
values constructed by the program have only the low 16 bits set, so plain
`Nat` bitwise operations coincide with the `u32` ones. -/
abbrev FieldSet := Nat

namespace FieldSet

def ID : FieldSet := 0x0001
def PATH : FieldSet := 0x0002
def PARENT : FieldSet := 0x0004
def TRACK_NUMBER : FieldSet := 0x0008
def DISC_NUMBER : FieldSet := 0x0010
def TITLE : FieldSet := 0x0020
def ARTIST : FieldSet := 0x0040
def ALBUM_ARTIST : FieldSet := 0x0080
def YEAR : FieldSet := 0x0100
def ALBUM : FieldSet := 0x0200
def ARTWORK : FieldSet := 0x0400
def DURATION : FieldSet := 0x0800
def LYRICIST : FieldSet := 0x1000
def COMPOSER : FieldSet := 0x2000
def GENRE : FieldSet := 0x4000
def LABEL : FieldSet := 0x8000

/-- `FieldSet::iter_flags`. -/
def iter_flags : List FieldSet :=
  [ID, PATH, PARENT, TRACK_NUMBER, DISC_NUMBER, TITLE, ARTIST, ALBUM_ARTIST,
   YEAR, ALBUM, ARTWORK, DURATION, LYRICIST, COMPOSER, GENRE, LABEL]

/-- `bitflags` `union`. -/
def un (a b : FieldSet) : FieldSet := a ||| b

/-- `bitflags` `intersection`. -/
def inter (a b : FieldSet) : FieldSet := a &&& b

/-- `bitflags` `difference` (`self.bits & !other.bits`; all constructed values
fit in 16 bits, so the 16-bit mask matches the `u32` complement). -/
def fsdiff (a b : FieldSet) : FieldSet := a &&& (0xFFFF ^^^ b)

/-- `bitflags` `contains`. -/
def fscontains (a b : FieldSet) : Bool := a &&& b == b

/-- `bitflags` `toggle`. -/
def fstoggle (a b : FieldSet) : FieldSet := a ^^^ b

/-- `FieldSet::from_word` via `DELIMITED_FIELD_TO_FIELDSET` (the empty set for
an unrecognised word). -/
def from_word (w : Str) : FieldSet :=
  if w = "^id^".data then ID
  else if w = "^path^".data then PATH
  else if w = "^parent^".data then PARENT
  else if w = "^track_number^".data then TRACK_NUMBER
  else if w = "^disc_number^".data then DISC_NUMBER
  else if w = "^title^".data then TITLE
  else if w = "^artist^".data then ARTIST
  else if w = "^album_artist^".data then ALBUM_ARTIST
  else if w = "^year^".data then YEAR
  else if w = "^album^".data then ALBUM
  else if w = "^artwork^".data then ARTWORK
  else if w = "^duration^".data then DURATION
  else if w = "^lyricist^".data then LYRICIST
  else if w = "^composer^".data then COMPOSER
  else if w = "^genre^".data then GENRE
  else if w = "^label^".data then LABEL
  else 0

/-- `From<&str> for FieldSet`: union of `from_word` over the words. -/
def ofFragment (s : Str) : FieldSet :=
  (splitWS s).foldl (fun acc w => un acc (from_word w)) 0

/-- `FieldSet::update_from_tags`. -/
def update_from_tags (acc : FieldSet × FieldSet × FieldSet) (inclusion : Inclusion)
    (tag : FieldSet) : FieldSet × FieldSet × FieldSet :=
  match inclusion with
  | .Required => (un acc.1 tag, acc.2.1, acc.2.2)
  | .Optional => (acc.1, un acc.2.1 tag, acc.2.2)
  | .Exclude => (acc.1, acc.2.1, un acc.2.2 tag)

/-- `FieldSet::from_tags_to_announce`: `(include, optional, exclude)`. -/
def from_tags_to_announce (tags : FieldsToAnnounce) :
    FieldSet × FieldSet × FieldSet :=
  let acc := ((0 : FieldSet), (0 : FieldSet), (0 : FieldSet))
  let acc := update_from_tags acc tags.track_number TRACK_NUMBER
  let acc := update_from_tags acc tags.disc_number DISC_NUMBER
  let acc := update_from_tags acc tags.title TITLE
  let acc := update_from_tags acc tags.artist ARTIST
  let acc := update_from_tags acc tags.album_artist ALBUM_ARTIST
  let acc := update_from_tags acc tags.year YEAR
  let acc := update_from_tags acc tags.album ALBUM
  let acc := update_from_tags acc tags.duration DURATION
  let acc := update_from_tags acc tags.lyricist LYRICIST
  let acc := update_from_tags acc tags.composer COMPOSER
  let acc := update_from_tags acc tags.genre GENRE
  let acc := update_from_tags acc tags.label LABEL
  acc

end FieldSet

/-! ## `script.rs`: songs, extraction and the script cache -/

/-- `index::Song` (the engine only reads it). -/
structure Song where
  id : Int := 0
  path : Str := []
  parent : Str := []
  track_number : Option Int := none
  disc_number : Option Int := none
  title : Option Str := none
  artist : Option Str := none
  album_artist : Option Str := none
  year : Option Int := none
  album : Option Str := none
  artwork : Option Str := none
  duration : Option Int := none
  lyricist : Option Str := none
  composer : Option Str := none
  genre : Option Str := none
  label : Option Str := none
  deriving DecidableEq, Repr

/-- `wrap_name`. -/
def wrap_name (name : Str) (ssml : Bool) : Str :=
  if !ssml then name
  else "<say-as interpret-as=\"name\">".data ++ name ++ "</say-as>".data

/-- `wrap_year`. -/
def wrap_year (year : Int) (ssml : Bool) : Str :=
  if !ssml then (toString year).data
  else "<say-as interpret-as=\"date\">".data ++ (toString year).data ++ "</say-as>".data

/-- `wrap_number`. -/
def wrap_number (number : Int) (ssml : Bool) : Str :=
  if !ssml then (toString number).data
  else "<say-as interpret-as=\"cardinal\">".data ++ (toString number).data ++ "</say-as>".data

/-- One step of `extract_map_and_fieldset`. -/
def extStep (acc : List (FieldSet × Str) × FieldSet) (flag : FieldSet)
    (val : Option Str) : List (FieldSet × Str) × FieldSet :=
  match val with
  | none => acc
  | some v => (acc.1 ++ [(flag, v)], FieldSet.un acc.2 flag)

/-- `extract_map_and_fieldset`: the per-field text map (a `HashMap` in Rust,
used only through `get`, modelled as an association list) and the `FieldSet`
of populated fields. -/
def extract_map_and_fieldset (song : Song) (ssml : Bool) :
    List (FieldSet × Str) × FieldSet :=
  let acc : List (FieldSet × Str) × FieldSet := ([], 0)
  let acc := extStep acc FieldSet.TRACK_NUMBER (song.track_number.map (wrap_number · ssml))
  let acc := extStep acc FieldSet.DISC_NUMBER (song.disc_number.map (wrap_number · ssml))
  let acc := extStep acc FieldSet.TITLE (song.title.map (wrap_name · ssml))
  let acc := extStep acc FieldSet.ARTIST (song.artist.map (wrap_name · ssml))
  let acc := extStep acc FieldSet.ALBUM_ARTIST (song.album_artist.map (wrap_name · ssml))
  let acc := extStep acc FieldSet.YEAR (song.year.map (wrap_year · ssml))
  let acc := extStep acc FieldSet.ALBUM (song.album.map (wrap_name · ssml))
  let acc := extStep acc FieldSet.DURATION (song.duration.map (wrap_number · ssml))
  let acc := extStep acc FieldSet.LYRICIST (song.lyricist.map (wrap_name · ssml))
  let acc := extStep acc FieldSet.COMPOSER (song.composer.map (wrap_name · ssml))
  let acc := extStep acc FieldSet.GENRE (song.genre.map (wrap_name · ssml))
  let acc := extStep acc FieldSet.LABEL (song.label.map (wrap_name · ssml))
  acc

/-- Lookup in the extracted field map (`HashMap::get`). -/
def fmapGet (k : FieldSet) : List (FieldSet × Str) → Option Str
  | [] => none
  | (k', v) :: t => if k == k' then some v else fmapGet k t

/-- A `BTreeMap<FieldSet, BTreeSet<String>>`: an association list sorted by
the numeric key, each bucket a sorted duplicate-free list. -/
abbrev Buckets := List (FieldSet × List Str)

/-- `BTreeSet<String>::insert`. -/
def sinsert (s : Str) : List Str → List Str
  | [] => [s]
  | x :: t =>
    if strLt s x then s :: x :: t
    else if s == x then x :: t
    else x :: sinsert s t

/-- `BTreeMap<FieldSet, _>::insert` on a fresh key (sorted by bit value). -/
def binsertNew (k : FieldSet) (v : List Str) : Buckets → Buckets
  | [] => [(k, v)]
  | (k', v') :: t =>
    if k < k' then (k, v) :: (k', v') :: t
    else if k == k' then (k, v) :: t
    else (k', v') :: binsertNew k v t

/-- `BTreeMap<FieldSet, _>::get`. -/
def bget? (k : FieldSet) : Buckets → Option (List Str)
  | [] => none
  | (k', v) :: t => if k == k' then some v else bget? k t

/-- Insert one fragment under its signature (the `get_mut`/`insert` branch of
`walk_map`). -/
def bucket_insert (k : FieldSet) (frag : Str) (m : Buckets) : Buckets :=
  match bget? k m with
  | some _ =>
    m.map (fun p => if p.1 == k then (p.1, sinsert frag p.2) else p)
  | none => binsertNew k [frag] m

/-- `walk_map`: bucket every *whole* field's fragments by their reserved
`FieldSet` signature. -/
def walk_map (acc : Buckets) (m : AList Field) : Buckets :=
  m.foldl
    (fun acc nf =>
      if !nf.2.whole then acc
      else
        nf.2.fragments.foldl
          (fun acc fr => bucket_insert (FieldSet.ofFragment fr.1) fr.1 acc)
          acc)
    acc

/-- `script::ScriptCache`.  (`include`/`optional`/`exclude` get an `FS`
suffix; `include` is a Lean keyword.) -/
structure ScriptCache where
  past : Buckets
  present : Buckets
  conjunctions : List Str
  includeFS : FieldSet
  optionalFS : FieldSet
  excludeFS : FieldSet
  deriving DecidableEq, Repr

/-- `From<&AnnouncementOptions> for ScriptCache`. -/
def ScriptCache.fromOpts (opts : AnnouncementOptions) : ScriptCache :=
  let (inc, opt, exc) := FieldSet.from_tags_to_announce opts.tags_to_announce
  let past := walk_map (walk_map [] opts.past) opts.neutral
  let present := walk_map (walk_map [] opts.present) opts.neutral
  let conjunctions :=
    if opts.conjunctions.isEmpty then [([] : Str)] else opts.conjunctions
  { past := past, present := present, conjunctions := conjunctions,
    includeFS := inc, optionalFS := opt, excludeFS := exc }

/-! ## `script.rs`: the rendering engine

`rand::random::<usize>()` and `rand::random::<bool>()` are modelled by an
explicit oracle carrying the values the generator will produce (defaulting to
`0`/`false` once exhausted); "for every outcome of the random choices" becomes
universal quantification over oracles. -/

/-- The stream of values produced by `rand`. -/
structure Oracle where
  nats : List Nat
  bools : List Bool
  deriving DecidableEq, Repr

/-- `rand::random::<usize>()`. -/
def Oracle.nextNat : Oracle → Nat × Oracle
  | ⟨[], bs⟩ => (0, ⟨[], bs⟩)
  | ⟨n :: ns, bs⟩ => (n, ⟨ns, bs⟩)

/-- `rand::random::<bool>()`. -/
def Oracle.nextBool : Oracle → Bool × Oracle
  | ⟨ns, []⟩ => (false, ⟨ns, []⟩)
  | ⟨ns, b :: bs⟩ => (b, ⟨ns, bs⟩)

namespace ScriptCache

/-- The scan of `get_subset_tags` from `start` with the remembered fallback.
Choosing within a bucket draws one random index (`% 0` on an empty bucket
would panic; `walk_map` only creates non-empty buckets). -/
def subset_scan (set : FieldSet) (start : Nat) :
    List (FieldSet × List Str) → Nat → Option (FieldSet × Str) → Oracle →
    Res (Option (FieldSet × Str) × Oracle)
  | [], _, found, o => .ok (found, o)
  | (tag, tset) :: t, idx, found, o =>
    if !FieldSet.fscontains set tag then subset_scan set start t (idx + 1) found o
    else if idx ≥ start then
      let (r, o') := o.nextNat
      if tset.length == 0 then .error .panics
      else
        match tset.get? (r % tset.length) with
        | some s => .ok (some (tag, s), o')
        | none => .error .panics
    else if found.isNone then
      let (r, o') := o.nextNat
      if tset.length == 0 then .error .panics
      else
        match tset.get? (r % tset.length) with
        | some s => subset_scan set start t (idx + 1) (some (tag, s)) o'
        | none => .error .panics
    else subset_scan set start t (idx + 1) found o

/-- `ScriptCache::get_subset_tags`.  `rand::random::<usize>() % map.len()`
panics (division by zero) when the bucket map is empty. -/
def get_subset_tags (map : Buckets) (set : FieldSet) (o : Oracle) :
    Res (Option (FieldSet × Str) × Oracle) :=
  let (r, o') := o.nextNat
  if map.length == 0 then .error .panics
  else subset_scan set (r % map.length) map 0 none o'

/-- The `while` loop of `ScriptCache::get_tag_announcement`.  The loop can
genuinely diverge (an empty-signature bucket never shrinks `need`), so it
takes explicit fuel; running out is the distinguished outcome
`Failure.fuelOut`.  (The loop's `have` accumulator is dead and omitted.) -/
def tag_loop (map : Buckets) : Nat → FieldSet → Str → Oracle → Res (Str × Oracle)
  | fuel, need, ann, o =>
    if need == 0 then .ok (ann, o)
    else
      match fuel with
      | 0 => .error .fuelOut
      | f + 1 => do
        let (res, o') ← get_subset_tags map need o
        match res with
        | some (foundSet, foundStr) =>
          tag_loop map f (FieldSet.fsdiff need foundSet)
            (ann ++ (' ' :: foundStr)) o'
        | none => .ok (ann, o')

/-- `ScriptCache::get_tag_announcement`. -/
def get_tag_announcement (map : Buckets) (fuel : Nat) (set : FieldSet)
    (o : Oracle) : Res (Str × Oracle) :=
  tag_loop map fuel set [] o

/-- The per-flag coin flips over the optional fields (the random bool is only
drawn when the flag is present, matching `&&` short-circuiting). -/
def coin_flips : List FieldSet → FieldSet → Oracle → FieldSet × Oracle
  | [], fo, o => (fo, o)
  | flag :: t, fo, o =>
    if FieldSet.inter fo flag == flag then
      let (b, o') := o.nextBool
      if !b then coin_flips t (FieldSet.fstoggle fo flag) o'
      else coin_flips t fo o'
    else coin_flips t fo o

/-- The word-substitution pass of `get_announcement`: for every
whitespace-delimited token of the trimmed announcement that is a delimited
reserved reference, `str::replace` it by the extracted field text
(`field_song.get(..).unwrap()` panics when the field is absent). -/
def subst_pass (fieldSong : List (FieldSet × Str)) :
    List Str → Str → Res Str
  | [], ann => .ok ann
  | w :: ws, ann =>
    let field := FieldSet.from_word w
    if field ≠ 0 then
      match fmapGet field fieldSong with
      | some v => subst_pass fieldSong ws (replaceStr ann w v)
      | none => .error .panics
    else subst_pass fieldSong ws ann

/-- `ScriptCache::get_announcement`. -/
def get_announcement (c : ScriptCache) (song : Song) (present ssml : Bool)
    (fuel : Nat) (o : Oracle) : Res (Option Str) := do
  let (fieldSong, have0) := extract_map_and_fieldset song ssml
  let have1 := FieldSet.fsdiff have0 c.excludeFS
  let filteredInclude := FieldSet.inter have1 c.includeFS
  let filteredOptional := FieldSet.inter have1 c.optionalFS
  let (fOpt, o1) := coin_flips FieldSet.iter_flags filteredOptional o
  let (ann0, _) ←
    get_tag_announcement (if present then c.present else c.past) fuel
      (FieldSet.un filteredInclude fOpt) o1
  let ann1 := trimStr ann0
  let ann2 ← subst_pass fieldSong (splitWS ann1) ann1
  pure (if ann2.isEmpty then none else some ann2)

/-- `ScriptCache::get_conjunction` (`% 0` panics on an empty list; the
constructor guarantees non-emptiness). -/
def get_conjunction (c : ScriptCache) (o : Oracle) : Res (Str × Oracle) :=
  let (r, o') := o.nextNat
  if c.conjunctions.length == 0 then .error .panics
  else
    match c.conjunctions.get? (r % c.conjunctions.length) with
    | some s => .ok (s, o')
    | none => .error .panics

/-- `ScriptCache::create`.  The `toml` deserializer is external to the
embedded sources and is passed in as a function; `None` stands for a parse
failure (whose message is external). -/
def create (deser : Str → Option UserAnnouncementOptions) (s : Str) :
    Res ScriptCache := do
  match deser s with
  | none => .error (.err (.FailedToDeserialize []))
  | some u => do
    let opts ← AnnouncementOptions.from_user u DEFAULT_DEPTH_LIMIT
    pure (ScriptCache.fromOpts opts)

end ScriptCache

/-! ## `mod.rs`: the settings manager -/

/-- `rj::Person`. -/
structure Person where
  name : Str
  voice_model : Str
  language : Str
  deriving DecidableEq, Repr

/-- `rj::UserSettings`. -/
structure UserSettings where
  scripts : Option Str
  enable_by_default : Option Bool
  tts_people : List Person
  deriving DecidableEq, Repr

/-- `UserSettings::is_valid`. -/
def UserSettings.is_valid (us : UserSettings) : Bool :=
  us.scripts.isSome && us.enable_by_default.isSome

/-- `rj::RestorableUserSettings`. -/
structure RestorableUserSettings where
  cache : Option ScriptCache
  enable_by_default : Bool
  tts_people : List Person
  deriving DecidableEq, Repr

/-- `rj::Manager` (the fields driving announcements and user settings). -/
structure Manager where
  enabled : Bool
  cache : Option ScriptCache
  url : Str
  tts_key : Str
  enable_by_default : Bool
  enable_ssml : Bool
  tts_people : List Person
  deriving DecidableEq, Repr

namespace Manager

/-- `Manager::update_user_settings`.  Returns the Rust return value together
with the manager state after the call (`&mut self`); on any error the state
is the unchanged input, as in the source, where both error returns happen
before the first mutation. -/
def update_user_settings (deser : Str → Option UserAnnouncementOptions)
    (m : Manager) (us : UserSettings) :
    Res RestorableUserSettings × Manager :=
  if !us.is_valid then
    (.error (.err (.InvalidInput "arguments cannot be null".data)), m)
  else
    match us.scripts, us.enable_by_default with
    | some s, some ebd =>
      match ScriptCache.create deser s with
      | .error e => (.error e, m)
      | .ok cache =>
        (.ok ⟨m.cache, m.enable_by_default, m.tts_people⟩,
          { m with
            cache := some cache, enable_by_default := ebd,
            tts_people := us.tts_people })
    | _, _ => (.error .panics, m)

/-- `Manager::restore_user_settings`. -/
def restore_user_settings (m : Manager) (r : RestorableUserSettings) : Manager :=
  { m with
    cache := r.cache, enable_by_default := r.enable_by_default,
    tts_people := r.tts_people }

end Manager

/-! ## Specification predicates -/

/-- A word is *fully resolved*: either a literal (no delimiter at all, i.e.
`is_field_name` says "not a field name") or a well-formed delimited reference
whose stripped name is reserved. -/
def ResolvedWord (w : Str) : Prop :=
  is_field_name w = .ok false ∨
    (is_field_name w = .ok true ∧ is_reserved (strip_delimiters w) = true)

/-- Every word of every fragment of every field of the map is resolved. -/
def MapResolved (m : AList Field) : Prop :=
  ∀ nf ∈ m, ∀ fr ∈ nf.2.fragments, ∀ w ∈ splitWS fr.1, ResolvedWord w

/-- No fragment word of the map is a delimited reference to one of the given
names (used with the user-defined neutral and tense names). -/
def NoRefTo (names : List Str) (m : AList Field) : Prop :=
  ∀ nf ∈ m, ∀ fr ∈ nf.2.fragments, ∀ w ∈ splitWS fr.1,
    strip_delimiters w ∉ names ∨ is_field_name w = .ok false

/-- How one field can change across the deflation loops: metadata is
preserved, fragment keys only grow, and an empty fragment map stays empty. -/
def FieldEvolves (f f' : Field) : Prop :=
  f'.delimited_name = f.delimited_name ∧ f'.whole = f.whole ∧
  (∀ w, mcontains w f.fragments = true → mcontains w f'.fragments = true) ∧
  (f.fragments = [] → f'.fragments = [])

/-- How a neutral map can change across the deflation loops. -/
def MapEvolves (m m' : AList Field) : Prop :=
  mkeys m' = mkeys m ∧
  ∀ k f, mget? k m = some f → ∃ f', mget? k m' = some f' ∧ FieldEvolves f f'

/-- The `BTreeMap` shape invariant: entries strictly sorted by `strLt` on the
keys.  Every map the program builds (by repeated `insert`) satisfies it. -/
def msorted (m : AList α) : Prop :=
  List.Pairwise (fun a b => strLt a.1 b.1 = true) m

/-- Every field of the map has a `BTreeMap`-shaped fragment map. -/
def FragsSorted (m : AList Field) : Prop :=
  ∀ nf ∈ m, msorted nf.2.fragments

/-- A closed reference component of a field map: fields carry their delimited
name and hygienic keys, and every field named in `C` has a non-empty fragment
map whose fragment texts are all delimited references to names in `C`. -/
def GoodMap (C : List Str) (m : AList Field) : Prop :=
  ∀ nf ∈ m, nf.2.delimited_name = get_delimited_name nf.1 ∧
    FIELD_DELIMITER ∉ nf.1 ∧ byteLen nf.1 = nf.1.length ∧
    (nf.1 ∈ C → nf.2.fragments ≠ [] ∧
      ∀ fr ∈ nf.2.fragments, ∃ z ∈ C, fr.1 = get_delimited_name z)

/-- The computation failed: it returned `Err` or ended in a modelled panic. -/
def failed : Res α → Bool
  | .ok _ => false
  | .error _ => true

/-- The canonical acyclic-chain input family of the claim: each field
references the next by delimited name and the last bottoms out in the
literal fragment `lit`. -/
def chain_fields (lit : Str) : List Str → List UserField
  | [] => []
  | n :: t =>
    ⟨n, true,
      [match t with
       | [] => lit
       | n2 :: _ => get_delimited_name n2]⟩ :: chain_fields lit t

/-- The user model holding exactly a chain of fields. -/
def chain_model (lit : Str) (ns : List Str) : UserAnnouncementOptions :=
  ⟨chain_fields lit ns, none, none, none⟩

/-- The effect of `replace_and_keep` on one field whose fragments are whole
delimited tokens or delimiter-free literals: the matched fragment (if any) is
marked used and the substituted text is inserted with the matched fragment's
old flag. -/
def rk_chain (fm sub : Str) (f : Field) : Field :=
  match mget? fm f.fragments with
  | none => f
  | some b0 =>
    { f with fragments := minsert fm true (minsert sub b0 f.fragments) }

/-- A fragment text a chain field at position `i` may hold: the literal, or a
delimited reference to a strictly later chain name. -/
def ChainFrag (ns : List Str) (lit : Str) (i : Nat) (fr : Str) : Prop :=
  fr = lit ∨ ∃ j n, i < j ∧ ns.get? j = some n ∧ fr = get_delimited_name n

/-- The structural invariant of the neutral map throughout the deflation of a
chain model: sorted maps, every entry is a chain field with forward-pointing
fragments, and every chain position is present and still holds its original
reference to the next name. -/
def ChainInv (ns : List Str) (lit : Str) (m : AList Field) : Prop :=
  msorted m ∧ FragsSorted m ∧
  (∀ nf ∈ m, ∃ i, ns.get? i = some nf.1 ∧
    nf.2.delimited_name = get_delimited_name nf.1 ∧
    nf.2.fragments ≠ [] ∧
    ∀ p ∈ nf.2.fragments, ChainFrag ns lit i p.1) ∧
  (∀ i n, ns.get? i = some n → ∃ f, mget? n m = some f ∧
    ∀ n2, ns.get? (i+1) = some n2 →
      mcontains (get_delimited_name n2) f.fragments = true)

/-- Between deflation passes: every unused reference fragment points at chain
position `q` or later. -/
def FlagBound (ns : List Str) (lit : Str) (q : Nat) (m : AList Field) : Prop :=
  ∀ nf ∈ m, ∀ p ∈ nf.2.fragments, p.2 = false →
    p.1 = lit ∨ ∃ j n, q ≤ j ∧ ns.get? j = some n ∧ p.1 = get_delimited_name n

/-- During a deflation pass with the temp fields `todo` still unprocessed:
every unused reference fragment points at position `q` or later, and at
`q + 1` or later once its own temp field has been processed. -/
def FlagMid (ns : List Str) (lit : Str) (q : Nat) (todo : List Str)
    (m : AList Field) : Prop :=
  ∀ nf ∈ m, ∀ p ∈ nf.2.fragments, p.2 = false →
    p.1 = lit ∨ ∃ j n, q ≤ j ∧ ns.get? j = some n ∧
      p.1 = get_delimited_name n ∧ (n ∈ todo ∨ q + 1 ≤ j)

/-- Every chain field from position `t` on already holds the literal. -/
def LitFrom (ns : List Str) (lit : Str) (t : Nat) (m : AList Field) : Prop :=
  ∀ i n, ns.get? i = some n → t ≤ i →
    ∀ f, mget? n m = some f → mcontains lit f.fragments = true

end Rj

/-! # Theorems -/

namespace Rj

theorem beq_str_iff {a b : Str} : (a == b) = true ↔ a = b := beq_iff_eq

theorem replaceSk_skip (pat sub t : Str) (n : Nat) :
    replaceSk pat sub t n = replaceSk pat sub (t.drop n) 0 := by
  induction t generalizing n with
  | nil => cases n <;> rfl
  | cons c t ih =>
    cases n with
    | zero => rfl
    | succ n =>
      simp only [replaceSk, List.drop_succ_cons]
      exact ih n

theorem replaceStr_nil (pat sub : Str) : replaceStr [] pat sub = [] := rfl

theorem replaceStr_cons (c : Char) (t pat sub : Str) :
    replaceStr (c :: t) pat sub =
      (if pat.isEmpty then c :: t
       else if pat.isPrefixOf (c :: t) then
         sub ++ replaceStr ((c :: t).drop pat.length) pat sub
       else c :: replaceStr t pat sub) := by
  show replaceSk pat sub (c :: t) 0 = _
  by_cases he : pat.isEmpty
  · simp [replaceSk, he]
  · by_cases hp : pat.isPrefixOf (c :: t)
    · simp only [replaceSk, he, Bool.false_eq_true, if_false, hp, if_true]
      cases pat with
      | nil => simp at he
      | cons p ps =>
        show sub ++ replaceSk (p :: ps) sub t ps.length = _
        rw [replaceSk_skip]
        simp [replaceStr]
    · simp only [replaceSk, he, Bool.false_eq_true, if_false, hp]
      rfl

theorem strLt_irrefl (a : Str) : strLt a a = false := by
  induction a with
  | nil => rfl
  | cons c t ih => simp [strLt, ih]

theorem mget?_minsert_self (k : Str) (v : α) (m : AList α) :
    mget? k (minsert k v m) = some v := by
  induction m with
  | nil => simp [minsert, mget?]
  | cons p t ih =>
    by_cases h1 : strLt k p.1
    · simp [minsert, h1, mget?]
    · by_cases h2 : k = p.1
      · subst h2
        simp [minsert, h1, strLt_irrefl, mget?]
      · simp [minsert, h1, h2, mget?, ih]

theorem mget?_minsert_ne (k k' : Str) (v : α) (m : AList α) (h : k ≠ k') :
    mget? k (minsert k' v m) = mget? k m := by
  induction m with
  | nil => simp [minsert, mget?, h]
  | cons p t ih =>
    by_cases h1 : strLt k' p.1
    · simp [minsert, h1, mget?, h]
    · by_cases h2 : k' = p.1
      · subst h2
        simp [minsert, h1, mget?, h]
      · simp only [minsert, h1, if_false, beq_str_iff, h2, if_true]
        by_cases h3 : k = p.1 <;> simp [mget?, h3, ih]

theorem mcontains_minsert (k k' : Str) (v : α) (m : AList α) :
    mcontains k (minsert k' v m) = (k == k' || mcontains k m) := by
  by_cases h : k = k'
  · subst h; simp [mcontains, mget?_minsert_self]
  · simp [mcontains, mget?_minsert_ne k k' v m h, h]

theorem mget?_mem {k : Str} {v : α} {m : AList α} (h : mget? k m = some v) :
    (k, v) ∈ m := by
  induction m with
  | nil => simp [mget?] at h
  | cons p t ih =>
    by_cases h1 : k = p.1
    · subst h1
      simp only [mget?, beq_self_eq_true, if_true, Option.some.injEq] at h
      subst h
      exact List.mem_cons_self _ _
    · simp only [mget?, beq_str_iff, h1, if_false] at h
      exact List.mem_cons_of_mem _ (ih h)

/-- `build_patterns` only inserts fresh keys: existing entries survive. -/
theorem build_patterns_preserves {ps : List UserField} {m m' : AList Field}
    (h : AnnouncementOptions.build_patterns ps m = .ok m') :
    ∀ k f, mget? k m = some f → mget? k m' = some f := by
  induction ps generalizing m with
  | nil =>
    intro k f hk
    simp only [AnnouncementOptions.build_patterns, Except.ok.injEq] at h
    exact h ▸ hk
  | cons uf0 t ih =>
    intro k f hk
    simp only [AnnouncementOptions.build_patterns] at h
    by_cases hc : mcontains uf0.name m
    · simp [hc] at h
    · simp only [hc, Bool.false_eq_true, if_false] at h
      have hne : k ≠ uf0.name := by
        intro he
        subst he
        simp [mcontains, hk] at hc
      exact ih h k f ((mget?_minsert_ne k uf0.name _ m hne).trans hk)

/-- The `Field` built by `build_patterns` for a `UserField`. -/
theorem build_patterns_get {ps : List UserField} {m m' : AList Field}
    (h : AnnouncementOptions.build_patterns ps m = .ok m') :
    ∀ uf ∈ ps, ∃ f, mget? uf.name m' = some f ∧
      f.delimited_name = get_delimited_name uf.name ∧ f.whole = uf.whole ∧
      f.fragments = uf.fragments.foldl (fun s fr => minsert fr false s) [] := by
  induction ps generalizing m with
  | nil => intro uf hm; simp at hm
  | cons uf0 t ih =>
    intro uf hm
    simp only [AnnouncementOptions.build_patterns] at h
    by_cases hc : mcontains uf0.name m
    · simp [hc] at h
    · simp only [hc, Bool.false_eq_true, if_false] at h
      rcases List.mem_cons.mp hm with rfl | hm2
      · exact ⟨_, build_patterns_preserves h uf.name _ (mget?_minsert_self _ _ _),
          rfl, rfl, rfl⟩
      · exact ih h uf hm2

theorem FieldEvolves.frefl (f : Field) : FieldEvolves f f :=
  ⟨rfl, rfl, fun _ h => h, fun h => h⟩

theorem FieldEvolves.ftrans {a b c : Field} (h1 : FieldEvolves a b)
    (h2 : FieldEvolves b c) : FieldEvolves a c :=
  ⟨h2.1.trans h1.1, h2.2.1.trans h1.2.1,
    fun w hw => h2.2.2.1 w (h1.2.2.1 w hw),
    fun he => h2.2.2.2 (h1.2.2.2 he)⟩

theorem MapEvolves.mrefl (m : AList Field) : MapEvolves m m :=
  ⟨rfl, fun _ f h => ⟨f, h, FieldEvolves.frefl f⟩⟩

theorem MapEvolves.mtrans {a b c : AList Field} (h1 : MapEvolves a b)
    (h2 : MapEvolves b c) : MapEvolves a c := by
  refine ⟨h2.1.trans h1.1, fun k f hk => ?_⟩
  obtain ⟨f1, hf1, he1⟩ := h1.2 k f hk
  obtain ⟨f2, hf2, he2⟩ := h2.2 k f1 hf1
  exact ⟨f2, hf2, he1.ftrans he2⟩

theorem rak_fold_mcontains (fm sub : Str) (l : List (Str × Bool))
    (acc : AList Bool) (k : Str) (h : mcontains k acc = true) :
    mcontains k
      (l.foldl
        (fun acc p =>
          if occurs fm p.1 then
            minsert p.1 true (minsert (replaceStr p.1 fm sub) p.2 acc)
          else acc)
        acc) = true := by
  induction l generalizing acc with
  | nil => exact h
  | cons p t ih =>
    simp only [List.foldl_cons]
    by_cases hp : occurs fm p.1
    · refine ih _ ?_
      simp [hp, mcontains_minsert, h]
    · simp only [hp, Bool.false_eq_true, if_false]
      exact ih _ h

theorem replace_and_keep_evolves {f f' : Field} {fm sub : Str}
    (h : f.replace_and_keep fm sub = .ok f') : FieldEvolves f f' := by
  cases hsd : f.has_self_dependency with
  | some fragment => simp [Field.replace_and_keep, hsd] at h
  | none =>
    simp only [Field.replace_and_keep, hsd, Except.ok.injEq] at h
    subst h
    refine ⟨rfl, rfl, fun w hw => rak_fold_mcontains _ _ _ _ _ hw, fun he => ?_⟩
    simp [he]

theorem rak_all_evolves {tn fm sub : Str} {m m' : AList Field}
    (h : AnnouncementOptions.rak_all tn fm sub m = .ok m') : MapEvolves m m' := by
  induction m generalizing m' with
  | nil =>
    simp only [AnnouncementOptions.rak_all, Except.ok.injEq] at h
    exact h ▸ MapEvolves.mrefl []
  | cons nf t ih =>
    obtain ⟨n, fld⟩ := nf
    simp only [AnnouncementOptions.rak_all] at h
    cases hf : (if (n == tn) = true then (Except.ok fld : Res Field)
        else fld.replace_and_keep fm sub) with
    | error e => rw [hf] at h; simp at h
    | ok fld' =>
      rw [hf] at h
      cases hr : AnnouncementOptions.rak_all tn fm sub t with
      | error e => rw [hr] at h; simp at h
      | ok rest =>
        rw [hr] at h
        simp only [Except.ok.injEq] at h
        subst h
        have hev : FieldEvolves fld fld' := by
          by_cases hn : (n == tn) = true
          · simp only [hn, if_true, Except.ok.injEq] at hf
            exact hf ▸ FieldEvolves.frefl fld
          · simp only [hn, if_false] at hf
            exact replace_and_keep_evolves hf
        have iht := ih hr
        constructor
        · simp [mkeys, List.map_cons]
          have := iht.1
          simpa [mkeys] using this
        · intro k f hk
          by_cases hkn : k = n
          · subst hkn
            simp only [mget?, beq_self_eq_true, if_true, Option.some.injEq] at hk ⊢
            exact ⟨fld', rfl, hk ▸ hev⟩
          · simp only [mget?, beq_str_iff, hkn, if_false] at hk ⊢
            exact iht.2 k f hk

theorem deflate_frags_evolves {tn fm : Str} {frs : List Str} {m m' : AList Field}
    (h : AnnouncementOptions.deflate_frags tn fm frs m = .ok m') :
    MapEvolves m m' := by
  induction frs generalizing m with
  | nil =>
    simp only [AnnouncementOptions.deflate_frags, Except.ok.injEq] at h
    exact h ▸ MapEvolves.mrefl m
  | cons fr frs ih =>
    simp only [AnnouncementOptions.deflate_frags, bind, Except.bind] at h
    cases hr : AnnouncementOptions.rak_all tn fm fr m with
    | error e => rw [hr] at h; simp at h
    | ok m1 =>
      rw [hr] at h
      exact (rak_all_evolves hr).mtrans (ih h)

theorem deflate_tmps_evolves {tmps : List (Str × Field)} {m m' : AList Field}
    (h : AnnouncementOptions.deflate_tmps tmps m = .ok m') : MapEvolves m m' := by
  induction tmps generalizing m with
  | nil =>
    simp only [AnnouncementOptions.deflate_tmps, Except.ok.injEq] at h
    exact h ▸ MapEvolves.mrefl m
  | cons p t ih =>
    obtain ⟨tn, fld⟩ := p
    simp only [AnnouncementOptions.deflate_tmps, bind, Except.bind] at h
    cases hr : AnnouncementOptions.deflate_frags tn fld.delimited_name
        (fld.fragments.map (fun p => p.1)) m with
    | error e => rw [hr] at h; simp at h
    | ok m1 =>
      rw [hr] at h
      exact (deflate_frags_evolves hr).mtrans (ih h)

theorem deflate_evolves {d : Nat} {m m' : AList Field}
    (h : AnnouncementOptions.deflate d m = .ok m') : MapEvolves m m' := by
  induction d generalizing m with
  | zero =>
    simp only [AnnouncementOptions.deflate, Except.ok.injEq] at h
    exact h ▸ MapEvolves.mrefl m
  | succ d ih =>
    simp only [AnnouncementOptions.deflate, bind, Except.bind] at h
    cases hu : AnnouncementOptions.unresolved_scan (AnnouncementOptions.allWords m) with
    | error e => rw [hu] at h; simp at h
    | ok u =>
      rw [hu] at h
      by_cases hub : (!u) = true
      · simp only [hub, if_true, Except.ok.injEq] at h
        exact h ▸ MapEvolves.mrefl m
      · simp only [hub, if_false] at h
        cases hb : AnnouncementOptions.deflate_tmps m m with
        | error e => rw [hb] at h; simp at h
        | ok m1 =>
          rw [hb] at h
          exact (deflate_tmps_evolves hb).mtrans (ih h)

theorem except_bind_ok_inv {α β : Type} {e : Res α} {f : α → Res β} {b : β}
    (h : Except.bind e f = .ok b) : ∃ a, e = .ok a ∧ f a = .ok b := by
  cases e with
  | error err => simp [Except.bind] at h
  | ok a => exact ⟨a, rfl, h⟩

theorem mkeys_mset (k : Str) (v : Field) (m : AList Field) :
    mkeys (AnnouncementOptions.mset k v m) = mkeys m := by
  induction m with
  | nil => rfl
  | cons p t ih =>
    by_cases h : (p.1 == k) = true
    · simp [AnnouncementOptions.mset, h, mkeys] at ih ⊢
      exact ih
    · simp [AnnouncementOptions.mset, h, mkeys] at ih ⊢
      exact ih

theorem mget?_mset_ne (k n : Str) (v : Field) (m : AList Field) (h : k ≠ n) :
    mget? k (AnnouncementOptions.mset n v m) = mget? k m := by
  induction m with
  | nil => rfl
  | cons p t ih =>
    by_cases h1 : (p.1 == n) = true
    · have he : p.1 = n := by simpa using h1
      have hk : (k == p.1) = false := by
        simp [he]
        exact h
      simp [AnnouncementOptions.mset, h1, mget?, hk, ih]
    · by_cases h2 : (k == p.1) = true
      · simp [AnnouncementOptions.mset, h1, mget?, h2]
      · simp [AnnouncementOptions.mset, h1, mget?, h2, ih]

theorem mget?_mset_self (n : Str) (v w : Field) (m : AList Field)
    (h : mget? n m = some w) :
    mget? n (AnnouncementOptions.mset n v m) = some v := by
  induction m with
  | nil => simp [mget?] at h
  | cons p t ih =>
    by_cases h1 : (p.1 == n) = true
    · have he : p.1 = n := by simpa using h1
      simp [AnnouncementOptions.mset, h1, mget?, he]
    · have hne : (n == p.1) = false := by
        simp
        intro he
        rw [he] at h1
        simp at h1
      simp only [mget?, hne, Bool.false_eq_true, if_false] at h
      simp [AnnouncementOptions.mset, h1, mget?, hne, ih h]

theorem mark_used_evolves {us : List (Str × Str)} {m m' : AList Field}
    (h : AnnouncementOptions.mark_used us m = .ok m') : MapEvolves m m' := by
  induction us generalizing m with
  | nil =>
    simp only [AnnouncementOptions.mark_used, Except.ok.injEq] at h
    exact h ▸ MapEvolves.mrefl m
  | cons p t ih =>
    obtain ⟨n, fr⟩ := p
    simp only [AnnouncementOptions.mark_used] at h
    cases hg : mget? n m with
    | none => simp [hg] at h
    | some fld =>
      rw [hg] at h
      dsimp only at h
      cases hg2 : mget? fr fld.fragments with
      | none => rw [hg2] at h; simp at h
      | some b =>
        rw [hg2] at h
        dsimp only at h
        refine MapEvolves.mtrans (b := AnnouncementOptions.mset n
          { fld with fragments := minsert fr true fld.fragments } m) ?_ (ih h)
        constructor
        · exact mkeys_mset _ _ _
        · intro k f hk
          by_cases hkn : k = n
          · subst hkn
            rw [hg] at hk
            obtain rfl : fld = f := by simpa using hk
            refine ⟨_, mget?_mset_self _ _ _ _ hg, rfl, rfl, ?_, ?_⟩
            · intro w hw
              simp [mcontains_minsert, hw]
            · intro he
              rw [he] at hg2
              simp [mget?] at hg2
          · exact ⟨f, (mget?_mset_ne k n _ m hkn).trans hk, FieldEvolves.frefl f⟩

/-- `deflate_tense` evolves the neutral map (only `used` flags change). -/
theorem deflate_tense_neutral {st st' : AnnouncementOptions}
    (h : AnnouncementOptions.deflate_tense st = .ok st') :
    MapEvolves st.neutral st'.neutral ∧ st'.tense = st.tense ∧
      st'.tags_to_announce = st.tags_to_announce ∧
      st'.conjunctions = st.conjunctions := by
  simp only [AnnouncementOptions.deflate_tense, bind] at h
  obtain ⟨n', hm, h⟩ := except_bind_ok_inv h
  obtain ⟨past', hp, h⟩ := except_bind_ok_inv h
  obtain ⟨present', hq, h⟩ := except_bind_ok_inv h
  simp only [pure, Except.pure, Except.ok.injEq] at h
  subst h
  exact ⟨mark_used_evolves hm, rfl, rfl, rfl⟩

/-- Inversion of `each_field_check` success. -/
theorem each_field_check_all {keys : List Str} {d : Nat} {l : List (Str × Field)}
    (h : AnnouncementOptions.each_field_check keys d l = .ok ()) :
    ∀ p ∈ l, p.2.each_fragment_is_resolved_once keys = .ok true := by
  induction l with
  | nil => intro p hp; simp at hp
  | cons q t ih =>
    obtain ⟨n, fld⟩ := q
    intro p hp
    simp only [AnnouncementOptions.each_field_check, bind, Except.bind] at h
    cases hr : fld.each_fragment_is_resolved_once keys with
    | error e => rw [hr] at h; simp at h
    | ok r =>
      rw [hr] at h
      by_cases hb : (!r) = true
      · simp [hb] at h
      · simp only [hb, if_false] at h
        have hr2 : r = true := by
          cases r
          · simp at hb
          · rfl
        rcases List.mem_cons.mp hp with rfl | hp2
        · exact hr2 ▸ hr
        · exact ih h p hp2

/-- Inversion of `build_map` success. -/
theorem build_map_inv {u : UserAnnouncementOptions} {st st' : AnnouncementOptions}
    (h : AnnouncementOptions.build_map u st = .ok st') :
    ∃ n, AnnouncementOptions.build_patterns u.patterns st.neutral = .ok n ∧
      st'.neutral = n ∧ st'.past = st.past ∧ st'.present = st.present ∧
      st'.tags_to_announce = st.tags_to_announce ∧
      st'.conjunctions = st.conjunctions ∧
      (u.tense_patterns = none → st'.tense = st.tense) ∧
      (∀ tps, u.tense_patterns = some tps →
        ∃ tm, AnnouncementOptions.build_tense n tps st.tense = .ok tm ∧
          st'.tense = tm) := by
  simp only [AnnouncementOptions.build_map, bind] at h
  obtain ⟨n, hb, h⟩ := except_bind_ok_inv h
  cases htp : u.tense_patterns with
  | none =>
    rw [htp] at h
    dsimp only at h
    simp only [pure, Except.pure, Except.ok.injEq] at h
    subst h
    exact ⟨n, hb, rfl, rfl, rfl, rfl, rfl, fun _ => rfl, fun tps ht => by simp at ht⟩
  | some tps =>
    rw [htp] at h
    dsimp only at h
    obtain ⟨tm, ht, h⟩ := except_bind_ok_inv h
    simp only [pure, Except.pure, Except.ok.injEq] at h
    subst h
    refine ⟨n, hb, rfl, rfl, rfl, rfl, rfl, fun hn => by simp at hn,
      fun tps' ht' => ?_⟩
    obtain rfl : tps = tps' := by simpa using ht'
    exact ⟨tm, ht, rfl⟩

/-- Inversion of the whole `from_user` pipeline. -/
theorem from_user_inv {u : UserAnnouncementOptions} {d : Nat}
    {opts : AnnouncementOptions}
    (h : AnnouncementOptions.from_user u d = .ok opts) :
    ∃ st1 n2 st3,
      AnnouncementOptions.build_map u (AnnouncementOptions.init_state u) = .ok st1 ∧
      AnnouncementOptions.self_dep_check st1.neutral = .ok () ∧
      AnnouncementOptions.reserved_check (mkeys st1.neutral) = .ok () ∧
      AnnouncementOptions.reserved_check (mkeys st1.tense) = .ok () ∧
      AnnouncementOptions.delimiter_check (AnnouncementOptions.allWords st1.neutral) = .ok () ∧
      AnnouncementOptions.missing_check st1.neutral st1.tense
        (AnnouncementOptions.allWords st1.neutral) = .ok () ∧
      AnnouncementOptions.deflate d st1.neutral = .ok n2 ∧
      AnnouncementOptions.deflate_tense { st1 with neutral := n2 } = .ok st3 ∧
      AnnouncementOptions.each_field_check (mkeys st3.tense) d st3.neutral = .ok () ∧
      AnnouncementOptions.remove_unresolved d st3 = .ok opts := by
  simp only [AnnouncementOptions.from_user, bind] at h
  obtain ⟨st1, h1, h⟩ := except_bind_ok_inv h
  obtain ⟨u2, h2, h⟩ := except_bind_ok_inv h
  obtain ⟨⟩ := u2
  obtain ⟨u3, h3, h⟩ := except_bind_ok_inv h
  obtain ⟨⟩ := u3
  obtain ⟨u4, h4, h⟩ := except_bind_ok_inv h
  obtain ⟨⟩ := u4
  obtain ⟨u5, h5, h⟩ := except_bind_ok_inv h
  obtain ⟨⟩ := u5
  obtain ⟨u6, h6, h⟩ := except_bind_ok_inv h
  obtain ⟨⟩ := u6
  obtain ⟨n2, h7, h⟩ := except_bind_ok_inv h
  obtain ⟨st3, h8, h⟩ := except_bind_ok_inv h
  obtain ⟨u9, h9, h⟩ := except_bind_ok_inv h
  obtain ⟨⟩ := u9
  exact ⟨st1, n2, st3, h1, h2, h3, h4, h5, h6, h7, h8, h9, h⟩

/-! ## Claim C6 -/

/-- C6 (corrected): for every user model in which some field has an empty
fragment list, `compile` (`AnnouncementOptions::from_user`) *fails* — the
field cannot satisfy `each_field_is_resolved_once` (no fragment at all is
resolvable), so compilation never returns `Ok`, contrary to the original
claim that it succeeds. -/
theorem C6_empty_fragments_rejected (u : UserAnnouncementOptions) (d : Nat)
    (uf : UserField) (hm : uf ∈ u.patterns) (hf : uf.fragments = []) :
    failed (AnnouncementOptions.from_user u d) = true := by
  cases hres : AnnouncementOptions.from_user u d with
  | error e => rfl
  | ok opts =>
    exfalso
    obtain ⟨st1, n2, st3, h1, h2, h3, h4, h5, h6, h7, h8, h9, h10⟩ :=
      from_user_inv hres
    obtain ⟨n, hb, hneut, -⟩ := build_map_inv h1
    obtain ⟨f0, hget, hdn, hwh, hfr⟩ := build_patterns_get hb uf hm
    rw [hf] at hfr
    simp only [List.foldl_nil] at hfr
    rw [← hneut] at hget
    obtain ⟨f2, hget2, he2⟩ := (deflate_evolves h7).2 uf.name f0 hget
    have hf2 : f2.fragments = [] := he2.2.2.2 hfr
    obtain ⟨f3, hget3, he3⟩ := (deflate_tense_neutral h8).1.2 uf.name f2 hget2
    have hf3 : f3.fragments = [] := he3.2.2.2 hf2
    have hall := each_field_check_all h9 (uf.name, f3) (mget?_mem hget3)
    rw [Field.each_fragment_is_resolved_once, hf3] at hall
    simp [frags_resolved_once] at hall

/-- C6 counterexample: a user model with a single (whole) field `u` whose
fragment list is empty is rejected with `TooDeep` — the claim's expected
success does not happen. -/
theorem C6_counterexample :
    AnnouncementOptions.from_user
      ⟨[⟨"u".data, true, []⟩], none, none, none⟩ 5 =
      .error (.err (.TooDeep 5 "u".data [])) := by
  rfl

/-- C6 witness: the general rejection theorem applied at the concrete
one-empty-field model. -/
theorem C6_witness :
    failed (AnnouncementOptions.from_user
      ⟨[⟨"u".data, true, []⟩], none, none, none⟩ 5) = true :=
  C6_empty_fragments_rejected _ 5 ⟨"u".data, true, []⟩ (by simp) rfl

/-! ## Claim C8 -/

theorem extStep_lt (acc : List (FieldSet × Str) × FieldSet) (flag : FieldSet)
    (v : Option Str) (h : acc.2 < 65536) (hfl : flag < 65536) :
    (extStep acc flag v).2 < 65536 := by
  cases v with
  | none => exact h
  | some s =>
    simp only [extStep, FieldSet.un]
    have h16 : (65536 : Nat) = 2 ^ 16 := by norm_num
    rw [h16] at h hfl ⊢
    exact Nat.or_lt_two_pow h hfl

theorem extract_set_lt (song : Song) (ssml : Bool) :
    (extract_map_and_fieldset song ssml).2 < 65536 := by
  simp only [extract_map_and_fieldset]
  repeat apply extStep_lt
  all_goals norm_num [FieldSet.TRACK_NUMBER, FieldSet.DISC_NUMBER,
    FieldSet.TITLE, FieldSet.ARTIST, FieldSet.ALBUM_ARTIST, FieldSet.YEAR,
    FieldSet.ALBUM, FieldSet.DURATION, FieldSet.LYRICIST, FieldSet.COMPOSER,
    FieldSet.GENRE, FieldSet.LABEL]

theorem fsdiff_eq_zero {a b : FieldSet} (ha : a < 65536)
    (h : FieldSet.fscontains b a = true) : FieldSet.fsdiff a b = 0 := by
  have hba : b &&& a = a := by
    simpa [FieldSet.fscontains] using h
  apply Nat.eq_of_testBit_eq
  intro i
  simp only [FieldSet.fsdiff, Nat.testBit_land, Nat.testBit_xor, Nat.zero_testBit]
  by_cases hi : i < 16
  · have hm : (65535 : Nat).testBit i = true := by
      have := Nat.testBit_two_pow_sub_one 16 i
      norm_num at this
      simp [this, hi]
    rw [hm]
    cases hai : a.testBit i with
    | false => simp
    | true =>
      have : b.testBit i = true := by
        have := congrArg (fun x => x.testBit i) hba
        simpa [Nat.testBit_land, hai] using this
      simp [this]
  · have hai : a.testBit i = false := by
      apply Nat.testBit_lt_two_pow
      calc a < 65536 := ha
        _ = 2 ^ 16 := by norm_num
        _ ≤ 2 ^ i := Nat.pow_le_pow_right (by norm_num) (by omega)
    simp [hai]

theorem coin_flips_zero (o : Oracle) :
    ScriptCache.coin_flips FieldSet.iter_flags 0 o = (0, o) := by
  simp [ScriptCache.coin_flips, FieldSet.iter_flags, FieldSet.inter,
    FieldSet.ID, FieldSet.PATH, FieldSet.PARENT, FieldSet.TRACK_NUMBER,
    FieldSet.DISC_NUMBER, FieldSet.TITLE, FieldSet.ARTIST,
    FieldSet.ALBUM_ARTIST, FieldSet.YEAR, FieldSet.ALBUM, FieldSet.ARTWORK,
    FieldSet.DURATION, FieldSet.LYRICIST, FieldSet.COMPOSER, FieldSet.GENRE,
    FieldSet.LABEL]

theorem tag_loop_zero (map : Buckets) (fuel : Nat) (ann : Str) (o : Oracle) :
    ScriptCache.tag_loop map fuel 0 ann o = .ok (ann, o) := by
  rw [ScriptCache.tag_loop.eq_def]
  rfl

/-- C8 (confirmed): for every `ScriptCache` whose exclude set contains the
field `F`, and every song whose populated announceable fields are exactly
`{F}`, `render` (`get_announcement`) returns `None`, for every tense
selector, markup flag, fuel, and outcome of the random choices. -/
theorem C8_excluded_only_field_none (c : ScriptCache) (song : Song)
    (f : FieldSet) (present ssml : Bool) (fuel : Nat) (o : Oracle)
    (hf : (extract_map_and_fieldset song ssml).2 = f)
    (hincl : FieldSet.fscontains c.excludeFS f = true) :
    ScriptCache.get_announcement c song present ssml fuel o = .ok none := by
  have hlt : (extract_map_and_fieldset song ssml).2 < 65536 :=
    extract_set_lt song ssml
  rw [hf] at hlt
  have hdiff : FieldSet.fsdiff f c.excludeFS = 0 := fsdiff_eq_zero hlt hincl
  simp only [ScriptCache.get_announcement, bind]
  cases hext : extract_map_and_fieldset song ssml with
  | mk fieldSong have0 =>
    have hh : have0 = f := by
      rw [hext] at hf
      exact hf
    subst hh
    dsimp only
    rw [hdiff]
    simp only [FieldSet.inter, Nat.zero_and]
    rw [coin_flips_zero]
    dsimp only
    rw [show FieldSet.un 0 0 = 0 from rfl,
      ScriptCache.get_tag_announcement, tag_loop_zero]
    rfl

/-- C8 witness: the theorem applied to a concrete cache that excludes
`title` and a song having only a title. -/
theorem C8_witness :
    ScriptCache.get_announcement
      ⟨[(0, ["hello".data])], [(0, ["hello".data])], [[]],
        FieldSet.ARTIST, 0, FieldSet.TITLE ||| FieldSet.LABEL⟩
      { title := some "x".data } true false 7 ⟨[2, 5], [true]⟩ = .ok none :=
  C8_excluded_only_field_none _ _ FieldSet.TITLE true false 7 ⟨[2, 5], [true]⟩
    (by decide) (by decide)

/-! ## Claim C3 -/

/-- C3 (code bug): a user model with no whole fields compiles fine, but its
script cache then has *empty* past/present bucket maps, and rendering a song
with an announceable field reaches `rand::random::<usize>() % map.len()` with
`map.len() == 0` in `get_subset_tags` — an arithmetic panic, for every tense
selector and every outcome of the random choices, where the claim (and the
spec) promise a `None`/empty degradation instead of a panic. -/
theorem C3_render_panics (present : Bool) (o : Oracle) (fuel : Nat) :
    (AnnouncementOptions.from_user
        ⟨[⟨"u".data, false, ["hello".data]⟩], none, none, none⟩ 5).map
      (fun opts =>
        ScriptCache.get_announcement (ScriptCache.fromOpts opts)
          { title := some "x".data } present false (fuel + 1) o) =
      .ok (.error .panics) := by
  rw [show AnnouncementOptions.from_user
      ⟨[⟨"u".data, false, ["hello".data]⟩], none, none, none⟩ 5 =
      .ok { present := [("u".data,
              ⟨"^u^".data, false, [("hello".data, false)]⟩)],
            past := [("u".data,
              ⟨"^u^".data, false, [("hello".data, false)]⟩)],
            neutral := [("u".data,
              ⟨"^u^".data, false, [("hello".data, false)]⟩)],
            tense := [],
            tags_to_announce := FieldsToAnnounce.default,
            conjunctions := [] } from rfl]
  simp only [Except.map]
  rw [show ScriptCache.fromOpts
      { present := [("u".data, ⟨"^u^".data, false, [("hello".data, false)]⟩)],
        past := [("u".data, ⟨"^u^".data, false, [("hello".data, false)]⟩)],
        neutral := [("u".data, ⟨"^u^".data, false, [("hello".data, false)]⟩)],
        tense := [],
        tags_to_announce := FieldsToAnnounce.default,
        conjunctions := [] } =
      (⟨[], [], [[]], 12896, 16768, 34840⟩ : ScriptCache) from rfl]
  simp only [ScriptCache.get_announcement, bind]
  rw [show extract_map_and_fieldset { title := some "x".data } false =
      ([(32, "x".data)], 32) from rfl]
  dsimp only
  rw [show FieldSet.fsdiff 32 34840 = 32 from rfl]
  rw [show FieldSet.inter 32 16768 = 0 from rfl]
  rw [coin_flips_zero]
  dsimp only
  rw [show FieldSet.un (FieldSet.inter 32 12896) 0 = 32 from rfl]
  rw [ScriptCache.get_tag_announcement, ScriptCache.tag_loop.eq_def]
  simp only [show ((32 : FieldSet) == 0) = false from rfl, Bool.false_eq_true,
    if_false]
  simp only [ScriptCache.get_subset_tags, bind]
  cases hnn : o.nextNat with
  | mk r o' =>
    dsimp only
    simp [ite_self, Except.bind]

/-! ## Claim C9 -/

/-- The behaviour of `update_user_settings` by cases on the input settings. -/
theorem update_user_settings_eq (deser : Str → Option UserAnnouncementOptions)
    (m : Manager) (us : UserSettings) :
    Manager.update_user_settings deser m us =
      match us.scripts, us.enable_by_default with
      | some s, some b =>
        (match ScriptCache.create deser s with
         | .error e => (.error e, m)
         | .ok c =>
           (.ok ⟨m.cache, m.enable_by_default, m.tts_people⟩,
             { m with cache := some c, enable_by_default := b,
                      tts_people := us.tts_people }))
      | _, _ => (.error (.err (.InvalidInput "arguments cannot be null".data)), m) := by
  cases hs : us.scripts <;> cases hb : us.enable_by_default <;>
    simp [Manager.update_user_settings, UserSettings.is_valid, hs, hb]

/-- C9 (confirmed): `update_user_settings` returns an error and leaves the
manager unchanged when the settings are incomplete or the script fails to
compile — no partial cache is installed — and on success installs the new
cache, takes `enable_by_default` and the personas from the new settings, and
returns the prior settings in restorable form (restoring them recovers the
original manager exactly). -/
theorem C9_update_user_settings (deser : Str → Option UserAnnouncementOptions)
    (m : Manager) (us : UserSettings) :
    (∀ e, (Manager.update_user_settings deser m us).1 = .error e →
      (Manager.update_user_settings deser m us).2 = m) ∧
    (us.is_valid = false →
      Manager.update_user_settings deser m us =
        (.error (.err (.InvalidInput "arguments cannot be null".data)), m)) ∧
    (∀ s b, us.scripts = some s → us.enable_by_default = some b →
      (∀ e, ScriptCache.create deser s = .error e →
        Manager.update_user_settings deser m us = (.error e, m)) ∧
      (∀ c, ScriptCache.create deser s = .ok c →
        Manager.update_user_settings deser m us =
          (.ok ⟨m.cache, m.enable_by_default, m.tts_people⟩,
            { m with cache := some c, enable_by_default := b,
                     tts_people := us.tts_people }) ∧
        Manager.restore_user_settings
          (Manager.update_user_settings deser m us).2
          ⟨m.cache, m.enable_by_default, m.tts_people⟩ = m)) := by
  have heq := update_user_settings_eq deser m us
  refine ⟨?_, ?_, ?_⟩
  · intro e he
    rw [heq] at he ⊢
    cases hs : us.scripts with
    | none => rfl
    | some s =>
      cases hb : us.enable_by_default with
      | none => rfl
      | some b =>
        rw [hs, hb] at he
        dsimp only at he
        cases hc : ScriptCache.create deser s with
        | error e2 =>
          dsimp only
          rw [hc]
        | ok c =>
          rw [hc] at he
          simp at he
  · intro hv
    rw [heq]
    cases hs : us.scripts with
    | none => rfl
    | some s =>
      cases hb : us.enable_by_default with
      | none => rfl
      | some b =>
        rw [UserSettings.is_valid, hs, hb] at hv
        simp at hv
  · intro s b hs hb
    rw [hs, hb] at heq
    dsimp only at heq
    constructor
    · intro e he
      rw [heq, he]
    · intro c hc
      rw [heq, hc]
      exact ⟨rfl, rfl⟩

/-- C9 witness: the theorem applied to a concrete manager, a deserializer
that always fails, and concrete settings. -/
theorem C9_witness :
    (∀ e, (Manager.update_user_settings (fun _ => none)
        ⟨false, none, [], [], false, false, []⟩
        ⟨some "x".data, some true, []⟩).1 = .error e →
      (Manager.update_user_settings (fun _ => none)
        ⟨false, none, [], [], false, false, []⟩
        ⟨some "x".data, some true, []⟩).2 =
        ⟨false, none, [], [], false, false, []⟩) ∧
    ((⟨some "x".data, some true, []⟩ : UserSettings).is_valid = false →
      Manager.update_user_settings (fun _ => none)
        ⟨false, none, [], [], false, false, []⟩
        ⟨some "x".data, some true, []⟩ =
        (.error (.err (.InvalidInput "arguments cannot be null".data)),
          ⟨false, none, [], [], false, false, []⟩)) ∧
    (∀ s b, (⟨some "x".data, some true, []⟩ : UserSettings).scripts = some s →
      (⟨some "x".data, some true, []⟩ : UserSettings).enable_by_default = some b →
      (∀ e, ScriptCache.create (fun _ => none) s = .error e →
        Manager.update_user_settings (fun _ => none)
          ⟨false, none, [], [], false, false, []⟩
          ⟨some "x".data, some true, []⟩ =
          (.error e, ⟨false, none, [], [], false, false, []⟩)) ∧
      (∀ c, ScriptCache.create (fun _ => none) s = .ok c →
        Manager.update_user_settings (fun _ => none)
          ⟨false, none, [], [], false, false, []⟩
          ⟨some "x".data, some true, []⟩ =
          (.ok ⟨(⟨false, none, [], [], false, false, []⟩ : Manager).cache,
            (⟨false, none, [], [], false, false, []⟩ : Manager).enable_by_default,
            (⟨false, none, [], [], false, false, []⟩ : Manager).tts_people⟩,
            { (⟨false, none, [], [], false, false, []⟩ : Manager) with
              cache := some c, enable_by_default := b,
              tts_people := (⟨some "x".data, some true, []⟩ : UserSettings).tts_people }) ∧
        Manager.restore_user_settings
          (Manager.update_user_settings (fun _ => none)
            ⟨false, none, [], [], false, false, []⟩
            ⟨some "x".data, some true, []⟩).2
          ⟨(⟨false, none, [], [], false, false, []⟩ : Manager).cache,
            (⟨false, none, [], [], false, false, []⟩ : Manager).enable_by_default,
            (⟨false, none, [], [], false, false, []⟩ : Manager).tts_people⟩ =
          ⟨false, none, [], [], false, false, []⟩)) :=
  C9_update_user_settings (fun _ => none)
    ⟨false, none, [], [], false, false, []⟩ ⟨some "x".data, some true, []⟩


/-! ## Claim C10 -/

theorem tense_sub_nil (fragment pa pr : Str) (u : Bool) :
    AnnouncementOptions.tense_sub fragment [] pa pr u = (pa, pr, u) := rfl

theorem tense_collect_nil (l : List (Str × Str)) :
    AnnouncementOptions.tense_collect [] l = (l, l, []) := by
  induction l with
  | nil => rfl
  | cons p t ih =>
    obtain ⟨name, fragment⟩ := p
    simp [AnnouncementOptions.tense_collect, tense_sub_nil, ih]

/-- Inversion of `deflate_tense` success, keeping all intermediate values. -/
theorem deflate_tense_inv {st st' : AnnouncementOptions}
    (h : AnnouncementOptions.deflate_tense st = .ok st') :
    ∃ n' past' present',
      AnnouncementOptions.mark_used
        (AnnouncementOptions.tense_collect st.tense
          (AnnouncementOptions.allFrags st.neutral)).2.2 st.neutral = .ok n' ∧
      AnnouncementOptions.add_all n'
        (AnnouncementOptions.tense_collect st.tense
          (AnnouncementOptions.allFrags st.neutral)).1 st.past = .ok past' ∧
      AnnouncementOptions.add_all n'
        (AnnouncementOptions.tense_collect st.tense
          (AnnouncementOptions.allFrags st.neutral)).2.1 st.present = .ok present' ∧
      st' = { st with neutral := n', past := past', present := present' } := by
  simp only [AnnouncementOptions.deflate_tense, bind] at h
  obtain ⟨n', hm, h⟩ := except_bind_ok_inv h
  obtain ⟨past', hp, h⟩ := except_bind_ok_inv h
  obtain ⟨present', hq, h⟩ := except_bind_ok_inv h
  simp only [pure, Except.pure, Except.ok.injEq] at h
  exact ⟨n', past', present', hm, hp, hq, h.symm⟩

/-- Inversion of `remove_unresolved` success. -/
theorem remove_unresolved_inv {d : Nat} {st opts : AnnouncementOptions}
    (h : AnnouncementOptions.remove_unresolved d st = .ok opts) :
    ∃ rm pastRm past' presRm present',
      AnnouncementOptions.collect_unresolved d
        (AnnouncementOptions.allWords st.neutral) = .ok rm ∧
      AnnouncementOptions.get_unresolved st.past = .ok pastRm ∧
      AnnouncementOptions.remove_internal pastRm st.past = .ok past' ∧
      AnnouncementOptions.get_unresolved st.present = .ok presRm ∧
      AnnouncementOptions.remove_internal presRm st.present = .ok present' ∧
      opts = { st with
        neutral := AnnouncementOptions.apply_removals rm st.neutral,
        past := past', present := present' } := by
  simp only [AnnouncementOptions.remove_unresolved, bind] at h
  obtain ⟨rm, h1, h⟩ := except_bind_ok_inv h
  obtain ⟨pastRm, h2, h⟩ := except_bind_ok_inv h
  obtain ⟨past', h3, h⟩ := except_bind_ok_inv h
  obtain ⟨presRm, h4, h⟩ := except_bind_ok_inv h
  obtain ⟨present', h5, h⟩ := except_bind_ok_inv h
  simp only [pure, Except.pure, Except.ok.injEq] at h
  exact ⟨rm, pastRm, past', presRm, present', h1, h2, h3, h4, h5, h.symm⟩

/-- A cache with equal past and present bucket maps renders identically for
both tense selectors. -/
theorem get_announcement_tense_eq (c : ScriptCache) (song : Song)
    (ssml : Bool) (fuel : Nat) (o : Oracle) (h : c.past = c.present) :
    ScriptCache.get_announcement c song true ssml fuel o =
      ScriptCache.get_announcement c song false ssml fuel o := by
  simp [ScriptCache.get_announcement, h]

/-- C10 (confirmed): compiling a user model with no `tense_patterns` yields
equal past and present maps all the way into the `ScriptCache`, so
`get_announcement` behaves identically for the past and present tense
selectors (for every song, markup flag, fuel, and random outcome). -/
theorem C10_no_tense_past_eq_present (u : UserAnnouncementOptions) (d : Nat)
    (opts : AnnouncementOptions)
    (ht : u.tense_patterns = none)
    (h : AnnouncementOptions.from_user u d = .ok opts) :
    opts.past = opts.present ∧
    (ScriptCache.fromOpts opts).past = (ScriptCache.fromOpts opts).present ∧
    ∀ song ssml fuel o,
      ScriptCache.get_announcement (ScriptCache.fromOpts opts) song true ssml fuel o =
        ScriptCache.get_announcement (ScriptCache.fromOpts opts) song false ssml fuel o := by
  obtain ⟨st1, n2, st3, h1, h2, h3, h4, h5, h6, h7, h8, h9, h10⟩ := from_user_inv h
  obtain ⟨n, hb, hneut, hpast, hpres, htags, hconj, htense, -⟩ := build_map_inv h1
  have hst1tense : st1.tense = [] := htense ht
  have hst1past : st1.past = [] := hpast
  have hst1pres : st1.present = [] := hpres
  obtain ⟨n', past', present', hm, hp, hq, hst3⟩ := deflate_tense_inv h8
  rw [show ({ st1 with neutral := n2 } : AnnouncementOptions).tense = st1.tense from rfl,
    hst1tense, tense_collect_nil] at hm hp hq
  rw [show ({ st1 with neutral := n2 } : AnnouncementOptions).past = st1.past from rfl,
    hst1past] at hp
  rw [show ({ st1 with neutral := n2 } : AnnouncementOptions).present = st1.present from rfl,
    hst1pres] at hq
  have hpq : past' = present' := by
    rw [hp] at hq
    simpa using hq
  have hst3past : st3.past = st3.present := by
    rw [hst3]
    exact hpq
  obtain ⟨rm, pastRm, pastF, presRm, presF, hc1, hc2, hc3, hc4, hc5, hopts⟩ :=
    remove_unresolved_inv h10
  rw [hst3past] at hc2 hc3
  have hrmEq : pastRm = presRm := by
    rw [hc2] at hc4
    simpa using hc4
  have hfinEq : pastF = presF := by
    rw [hrmEq] at hc3
    rw [hc3] at hc5
    simpa using hc5
  have hoptsEq : opts.past = opts.present := by
    rw [hopts]
    exact hfinEq
  refine ⟨hoptsEq, ?_, ?_⟩
  · simp only [ScriptCache.fromOpts, hoptsEq]
  · intro song ssml fuel o
    apply get_announcement_tense_eq
    simp only [ScriptCache.fromOpts, hoptsEq]

/-- C10 witness: the theorem applied to a concrete tense-free model. -/
theorem C10_witness :
    ({ present := [("u".data, ⟨"^u^".data, true, [("^title^ x".data, false)]⟩)],
       past := [("u".data, ⟨"^u^".data, true, [("^title^ x".data, false)]⟩)],
       neutral := [("u".data, ⟨"^u^".data, true, [("^title^ x".data, false)]⟩)],
       tense := [], tags_to_announce := FieldsToAnnounce.default,
       conjunctions := [] } : AnnouncementOptions).past =
      ({ present := [("u".data, ⟨"^u^".data, true, [("^title^ x".data, false)]⟩)],
         past := [("u".data, ⟨"^u^".data, true, [("^title^ x".data, false)]⟩)],
         neutral := [("u".data, ⟨"^u^".data, true, [("^title^ x".data, false)]⟩)],
         tense := [], tags_to_announce := FieldsToAnnounce.default,
         conjunctions := [] } : AnnouncementOptions).present ∧
    (ScriptCache.fromOpts
      { present := [("u".data, ⟨"^u^".data, true, [("^title^ x".data, false)]⟩)],
        past := [("u".data, ⟨"^u^".data, true, [("^title^ x".data, false)]⟩)],
        neutral := [("u".data, ⟨"^u^".data, true, [("^title^ x".data, false)]⟩)],
        tense := [], tags_to_announce := FieldsToAnnounce.default,
        conjunctions := [] }).past =
    (ScriptCache.fromOpts
      { present := [("u".data, ⟨"^u^".data, true, [("^title^ x".data, false)]⟩)],
        past := [("u".data, ⟨"^u^".data, true, [("^title^ x".data, false)]⟩)],
        neutral := [("u".data, ⟨"^u^".data, true, [("^title^ x".data, false)]⟩)],
        tense := [], tags_to_announce := FieldsToAnnounce.default,
        conjunctions := [] }).present ∧
    ∀ song ssml fuel o,
      ScriptCache.get_announcement
        (ScriptCache.fromOpts
          { present := [("u".data, ⟨"^u^".data, true, [("^title^ x".data, false)]⟩)],
            past := [("u".data, ⟨"^u^".data, true, [("^title^ x".data, false)]⟩)],
            neutral := [("u".data, ⟨"^u^".data, true, [("^title^ x".data, false)]⟩)],
            tense := [], tags_to_announce := FieldsToAnnounce.default,
            conjunctions := [] }) song true ssml fuel o =
      ScriptCache.get_announcement
        (ScriptCache.fromOpts
          { present := [("u".data, ⟨"^u^".data, true, [("^title^ x".data, false)]⟩)],
            past := [("u".data, ⟨"^u^".data, true, [("^title^ x".data, false)]⟩)],
            neutral := [("u".data, ⟨"^u^".data, true, [("^title^ x".data, false)]⟩)],
            tense := [], tags_to_announce := FieldsToAnnounce.default,
            conjunctions := [] }) song false ssml fuel o :=
  C10_no_tense_past_eq_present
    ⟨[⟨"u".data, true, ["^title^ x".data]⟩], none, none, none⟩ 5 _ rfl rfl

/-! ## Claim C7 -/

theorem mem_of_getLast_some {l : Str} {a : Char} (h : l.getLast? = some a) :
    a ∈ l := by
  induction l with
  | nil => simp at h
  | cons c t ih =>
    cases t with
    | nil =>
      simp at h
      simp [h]
    | cons c2 t2 =>
      rw [List.getLast?_cons_cons] at h
      exact List.mem_cons_of_mem c (ih h)

theorem go_cons (c : Char) (t : Str) (i : Nat) :
    count_delimiters.go (c :: t) i =
      (if (c == FIELD_DELIMITER) = true then
        ((count_delimiters.go t (i + 1)).1 + 1, i,
          if ((count_delimiters.go t (i + 1)).1 == 0) = true then i
          else (count_delimiters.go t (i + 1)).2.2)
      else count_delimiters.go t (i + 1)) := by
  cases hg : count_delimiters.go t (i + 1) with
  | mk cnt p =>
    obtain ⟨fst, lst⟩ := p
    by_cases hc : (c == FIELD_DELIMITER) = true <;>
      simp [count_delimiters.go, hg, hc]

theorem go_count (l : Str) (i : Nat) :
    (count_delimiters.go l i).1 = l.count FIELD_DELIMITER := by
  induction l generalizing i with
  | nil => simp [count_delimiters.go]
  | cons c t ih =>
    rw [go_cons]
    by_cases hc : (c == FIELD_DELIMITER) = true
    · simp [hc, ih, List.count_cons]
    · simp [hc, ih, List.count_cons]

theorem go_first_ge (l : Str) (i : Nat) (h : 0 < (count_delimiters.go l i).1) :
    i ≤ (count_delimiters.go l i).2.1 := by
  induction l generalizing i with
  | nil => simp [count_delimiters.go] at h
  | cons c t ih =>
    rw [go_cons] at h ⊢
    by_cases hc : (c == FIELD_DELIMITER) = true
    · simp [hc]
    · simp only [hc, Bool.false_eq_true, if_false] at h ⊢
      have := ih (i + 1) h
      omega

theorem go_last_le (l : Str) (i : Nat) (h : 0 < (count_delimiters.go l i).1) :
    (count_delimiters.go l i).2.2 ≤ i + l.length - 1 := by
  induction l generalizing i with
  | nil => simp [count_delimiters.go] at h
  | cons c t ih =>
    rw [go_cons] at h ⊢
    by_cases hc : (c == FIELD_DELIMITER) = true
    · by_cases h0 : ((count_delimiters.go t (i + 1)).1 == 0) = true
      · simp only [hc, if_true, h0, List.length_cons]
        omega
      · have hpos : 0 < (count_delimiters.go t (i + 1)).1 := by
          rcases Nat.eq_zero_or_pos (count_delimiters.go t (i + 1)).1 with h1 | h1
          · simp [h1] at h0
          · exact h1
        have := ih (i + 1) hpos
        simp only [hc, if_true, h0, Bool.false_eq_true, if_false, List.length_cons]
        omega
    · simp only [hc, Bool.false_eq_true, if_false] at h ⊢
      have := ih (i + 1) h
      simp only [List.length_cons]
      omega

theorem count_zero_no_delim {l : Str} (h : l.count FIELD_DELIMITER = 0) :
    FIELD_DELIMITER ∉ l := by
  intro hm
  have := List.count_pos_iff.mpr hm
  omega

theorem go_last_eq_iff (l : Str) (i : Nat)
    (h : 0 < (count_delimiters.go l i).1) :
    ((count_delimiters.go l i).2.2 = i + l.length - 1 ↔
      l.getLast? = some FIELD_DELIMITER) := by
  induction l generalizing i with
  | nil => simp [count_delimiters.go] at h
  | cons c t ih =>
    cases t with
    | nil =>
      rw [go_cons] at h ⊢
      by_cases hc : (c == FIELD_DELIMITER) = true
      · have hce : c = FIELD_DELIMITER := by simpa using hc
        simp [hc, count_delimiters.go, hce]
      · simp [hc, count_delimiters.go] at h
    | cons c2 t2 =>
      rw [go_cons] at h ⊢
      have hlast : (c :: c2 :: t2).getLast? = (c2 :: t2).getLast? := by
        simp
      by_cases hc : (c == FIELD_DELIMITER) = true
      · by_cases h0 : ((count_delimiters.go (c2 :: t2) (i + 1)).1 == 0) = true
        · have hcnt0 : (c2 :: t2).count FIELD_DELIMITER = 0 := by
            have := go_count (c2 :: t2) (i + 1)
            simp at h0
            omega
          have hnl : (c2 :: t2).getLast? ≠ some FIELD_DELIMITER := by
            intro he
            exact count_zero_no_delim hcnt0 (mem_of_getLast_some he)
          simp only [hc, if_true, h0, hlast, List.length_cons]
          constructor
          · intro he
            exfalso
            omega
          · intro he
            exact absurd he hnl
        · have hpos : 0 < (count_delimiters.go (c2 :: t2) (i + 1)).1 := by
            rcases Nat.eq_zero_or_pos (count_delimiters.go (c2 :: t2) (i + 1)).1 with h1 | h1
            · simp [h1] at h0
            · exact h1
          have hih := ih (i + 1) hpos
          have hle := go_last_le (c2 :: t2) (i + 1) hpos
          simp only [hc, if_true, h0, Bool.false_eq_true, if_false, hlast,
            List.length_cons] at hih ⊢
          simp only [List.length_cons] at hih hle
          constructor
          · intro he
            apply hih.mp
            omega
          · intro he
            have := hih.mpr he
            omega
      · simp only [hc, Bool.false_eq_true, if_false] at h ⊢
        have hih := ih (i + 1) h
        have hle := go_last_le (c2 :: t2) (i + 1) h
        rw [hlast]
        simp only [List.length_cons] at hih hle ⊢
        constructor
        · intro he
          apply hih.mp
          omega
        · intro he
          have := hih.mpr he
          omega

theorem byteLen_ge_len (w : Str) : w.length ≤ byteLen w := by
  induction w with
  | nil => simp [byteLen]
  | cons c t ih =>
    have h1 : 1 ≤ c.utf8Size := Char.utf8Size_pos c
    simp only [byteLen, List.map_cons, List.sum_cons, List.length_cons] at ih ⊢
    omega


theorem go_first_eq_iff (l : Str) (i : Nat)
    (h : 0 < (count_delimiters.go l i).1) :
    ((count_delimiters.go l i).2.1 = i ↔ l.head? = some FIELD_DELIMITER) := by
  cases l with
  | nil => simp [count_delimiters.go] at h
  | cons c t =>
    rw [go_cons] at h ⊢
    by_cases hc : (c == FIELD_DELIMITER) = true
    · have hce : c = FIELD_DELIMITER := by simpa using hc
      simp [hc, hce]
    · simp only [hc, Bool.false_eq_true, if_false] at h ⊢
      have hge := go_first_ge t (i + 1) h
      have hne : c ≠ FIELD_DELIMITER := by simpa using hc
      simp only [List.head?_cons]
      constructor
      · intro he
        exfalso
        omega
      · intro he
        exfalso
        exact hne (Option.some.inj he)

theorem count_delimiters_eq (w : Str) :
    count_delimiters w = ((count_delimiters.go w 0).1,
      (count_delimiters.go w 0).2.1, (count_delimiters.go w 0).2.2) := by
  cases h : count_delimiters.go w 0 with
  | mk a p =>
    obtain ⟨b, c⟩ := p
    simp [count_delimiters, h]

theorem is_field_name_eq (w : Str) (cnt fst lst : Nat)
    (hcd : count_delimiters w = (cnt, fst, lst)) :
    is_field_name w =
      (if cnt == 0 then .ok false
       else if cnt ≠ 2 then .error cnt
       else if fst > 0 || lst < byteLen w - 1 then .error cnt
       else .ok true) := by
  simp only [is_field_name, hcd]

theorem is_field_name_cases (w : Str) :
    is_field_name w =
      (if w.count FIELD_DELIMITER = 0 then .ok false
       else if w.count FIELD_DELIMITER ≠ 2 then .error (w.count FIELD_DELIMITER)
       else if 0 < (count_delimiters.go w 0).2.1 ∨
           (count_delimiters.go w 0).2.2 < byteLen w - 1 then
         .error (w.count FIELD_DELIMITER)
       else .ok true) := by
  have hcnt := go_count w 0
  rw [is_field_name_eq w (count_delimiters.go w 0).1 (count_delimiters.go w 0).2.1
    (count_delimiters.go w 0).2.2 (count_delimiters_eq w), hcnt]
  by_cases h0 : w.count FIELD_DELIMITER = 0
  · simp [h0]
  · by_cases h2 : w.count FIELD_DELIMITER = 2
    · by_cases hbad : 0 < (count_delimiters.go w 0).2.1 ∨
          (count_delimiters.go w 0).2.2 < byteLen w - 1
      · simp [h0, h2, hbad]
      · simp [h0, h2, hbad]
    · simp [h0, h2]

theorem is_field_name_ok_true_iff (w : Str) :
    is_field_name w = .ok true ↔
      w.count FIELD_DELIMITER = 2 ∧ w.head? = some FIELD_DELIMITER ∧
        w.getLast? = some FIELD_DELIMITER ∧ byteLen w = w.length := by
  rw [is_field_name_cases]
  by_cases h0 : w.count FIELD_DELIMITER = 0
  · simp [h0]
  · by_cases h2 : w.count FIELD_DELIMITER = 2
    · have hpos : 0 < (count_delimiters.go w 0).1 := by
        rw [go_count]
        omega
      have hfirst := go_first_eq_iff w 0 hpos
      have hlast := go_last_eq_iff w 0 hpos
      have hle := go_last_le w 0 hpos
      have hbl := byteLen_ge_len w
      have hlen : 0 < w.length := by
        have hm : FIELD_DELIMITER ∈ w := List.count_pos_iff.mp (by omega)
        exact List.length_pos.mpr (List.ne_nil_of_mem hm)
      by_cases hbad : 0 < (count_delimiters.go w 0).2.1 ∨
          (count_delimiters.go w 0).2.2 < byteLen w - 1
      · simp only [h0, if_neg, h2, if_pos, hbad, if_true]
        simp [h0, h2, hbad]
        intro hh hl hb
        have hf0 : (count_delimiters.go w 0).2.1 = 0 := hfirst.mpr hh
        have hl1 : (count_delimiters.go w 0).2.2 = 0 + w.length - 1 :=
          hlast.mpr hl
        omega
      · simp [h0, h2, hbad]
        have hl1 : (count_delimiters.go w 0).2.2 = 0 + w.length - 1 := by
          omega
        refine ⟨hfirst.mp (by omega), hlast.mp hl1, by omega⟩
    · simp [h0, h2]

theorem is_field_name_ok_false_iff (w : Str) :
    is_field_name w = .ok false ↔ w.count FIELD_DELIMITER = 0 := by
  rw [is_field_name_cases]
  by_cases h0 : w.count FIELD_DELIMITER = 0
  · simp [h0]
  · by_cases h2 : w.count FIELD_DELIMITER = 2
    · by_cases hbad : 0 < (count_delimiters.go w 0).2.1 ∨
          (count_delimiters.go w 0).2.2 < byteLen w - 1
      · simp [h0, h2, hbad]
      · simp [h0, h2, hbad]
    · simp [h0, h2]

theorem is_field_name_error_count {w : Str} {c : Nat}
    (h : is_field_name w = .error c) :
    c = w.count FIELD_DELIMITER ∧ w.count FIELD_DELIMITER ≠ 0 := by
  rw [is_field_name_cases] at h
  by_cases h0 : w.count FIELD_DELIMITER = 0
  · simp [h0] at h
  · by_cases h2 : w.count FIELD_DELIMITER = 2
    · by_cases hbad : 0 < (count_delimiters.go w 0).2.1 ∨
          (count_delimiters.go w 0).2.2 < byteLen w - 1
      · simp [h0, h2, hbad] at h
        exact ⟨by omega, h0⟩
      · simp [h0, h2, hbad] at h
    · simp [h0, h2] at h
      exact ⟨h.symm, h0⟩

theorem is_field_name_error_odd (w : Str)
    (h0 : w.count FIELD_DELIMITER ≠ 0) (h2 : w.count FIELD_DELIMITER ≠ 2) :
    is_field_name w = .error (w.count FIELD_DELIMITER) := by
  rw [is_field_name_cases]
  simp [h0, h2]

theorem is_field_name_error_two (w : Str)
    (h2 : w.count FIELD_DELIMITER = 2)
    (hbad : ¬(w.head? = some FIELD_DELIMITER ∧
      w.getLast? = some FIELD_DELIMITER ∧ byteLen w = w.length)) :
    is_field_name w = .error 2 := by
  cases hif : is_field_name w with
  | ok b =>
    cases b with
    | false =>
      have := (is_field_name_ok_false_iff w).mp hif
      omega
    | true =>
      obtain ⟨-, hrest⟩ := (is_field_name_ok_true_iff w).mp hif
      exact absurd hrest hbad
  | error c =>
    obtain ⟨hc, -⟩ := is_field_name_error_count hif
    rw [hc, h2]

theorem delimiter_check_cons_error (name frag w : Str) (u : Bool)
    (t : List (Str × Str × Bool × Str)) {c : Nat}
    (herr : is_field_name w = .error c) :
    AnnouncementOptions.delimiter_check ((name, frag, u, w) :: t) =
      (if c ≠ 2 then
        .error (.err (.OddNumberOfDelimiters c FIELD_DELIMITER name frag w))
      else .error (.err (.InterleavedDelimiter FIELD_DELIMITER name frag w))) := by
  simp only [AnnouncementOptions.delimiter_check, herr]


/-- C7 (corrected): a word is classified as a field reference
(`is_field_name` returns `Ok(true)`) exactly when it contains the delimiter
exactly twice, once as the first and once as the last *character*, **and**
every character of the word is single-byte (the code compares the last
delimiter's character index against the *byte* length); it is classified as a
plain literal (`Ok(false)`) exactly when it contains no delimiter.  A word
whose delimiter count is exactly two but which fails the position/single-byte
test makes the delimiter validation fail with `InterleavedDelimiter`, and a
word with any other non-zero delimiter count makes it fail with
`OddNumberOfDelimiters` carrying that count. -/
theorem C7_delimiter_classification (name frag w : Str) (u : Bool)
    (t : List (Str × Str × Bool × Str)) :
    (is_field_name w = .ok true ↔
      w.count FIELD_DELIMITER = 2 ∧ w.head? = some FIELD_DELIMITER ∧
        w.getLast? = some FIELD_DELIMITER ∧ byteLen w = w.length) ∧
    (is_field_name w = .ok false ↔ w.count FIELD_DELIMITER = 0) ∧
    (w.count FIELD_DELIMITER = 2 →
      ¬(w.head? = some FIELD_DELIMITER ∧ w.getLast? = some FIELD_DELIMITER ∧
          byteLen w = w.length) →
      AnnouncementOptions.delimiter_check ((name, frag, u, w) :: t) =
        .error (.err (.InterleavedDelimiter FIELD_DELIMITER name frag w))) ∧
    (w.count FIELD_DELIMITER ≠ 0 → w.count FIELD_DELIMITER ≠ 2 →
      AnnouncementOptions.delimiter_check ((name, frag, u, w) :: t) =
        .error (.err (.OddNumberOfDelimiters (w.count FIELD_DELIMITER)
          FIELD_DELIMITER name frag w))) := by
  refine ⟨is_field_name_ok_true_iff w, is_field_name_ok_false_iff w, ?_, ?_⟩
  · intro h2 hbad
    rw [delimiter_check_cons_error name frag w u t
      (is_field_name_error_two w h2 hbad)]
    simp
  · intro h0 h2
    rw [delimiter_check_cons_error name frag w u t
      (is_field_name_error_odd w h0 h2)]
    simp [h2]

/-- C7 counterexample: the word `^é^` has the delimiter exactly twice, as
first and as last character, so the original claim classifies it as a field
reference and predicts successful validation; the code instead reports it
malformed (the char index 2 of the last delimiter is compared with the byte
length 4 minus 1) and compilation of a model containing it fails with
`InterleavedDelimiter`. -/
theorem C7_counterexample :
    ("^é^".data.count FIELD_DELIMITER = 2 ∧
      "^é^".data.head? = some FIELD_DELIMITER ∧
      "^é^".data.getLast? = some FIELD_DELIMITER) ∧
    is_field_name "^é^".data = .error 2 ∧
    AnnouncementOptions.from_user
      ⟨[⟨"u".data, true, ["^é^".data]⟩], none, none, none⟩ 5 =
      .error (.err (.InterleavedDelimiter FIELD_DELIMITER "u".data
        "^é^".data "^é^".data)) :=
  ⟨by decide, rfl, rfl⟩

/-- C7 witness: the classification theorem applied at a concrete word. -/
theorem C7_witness :
    (is_field_name "^x^".data = .ok true ↔
      "^x^".data.count FIELD_DELIMITER = 2 ∧
        "^x^".data.head? = some FIELD_DELIMITER ∧
        "^x^".data.getLast? = some FIELD_DELIMITER ∧
        byteLen "^x^".data = "^x^".data.length) ∧
    (is_field_name "^x^".data = .ok false ↔
      "^x^".data.count FIELD_DELIMITER = 0) ∧
    ("^x^".data.count FIELD_DELIMITER = 2 →
      ¬("^x^".data.head? = some FIELD_DELIMITER ∧
          "^x^".data.getLast? = some FIELD_DELIMITER ∧
          byteLen "^x^".data = "^x^".data.length) →
      AnnouncementOptions.delimiter_check
        [("n".data, "f".data, false, "^x^".data)] =
        .error (.err (.InterleavedDelimiter FIELD_DELIMITER "n".data
          "f".data "^x^".data))) ∧
    ("^x^".data.count FIELD_DELIMITER ≠ 0 →
      "^x^".data.count FIELD_DELIMITER ≠ 2 →
      AnnouncementOptions.delimiter_check
        [("n".data, "f".data, false, "^x^".data)] =
        .error (.err (.OddNumberOfDelimiters ("^x^".data.count FIELD_DELIMITER)
          FIELD_DELIMITER "n".data "f".data "^x^".data))) :=
  C7_delimiter_classification "n".data "f".data "^x^".data false []


theorem strLt_trans {a b c : Str} (h1 : strLt a b = true)
    (h2 : strLt b c = true) : strLt a c = true := by
  induction a generalizing b c with
  | nil =>
    cases b with
    | nil => simp [strLt] at h1
    | cons b bs =>
      cases c with
      | nil => simp [strLt] at h2
      | cons c cs => simp [strLt]
  | cons a as ih =>
    cases b with
    | nil => simp [strLt] at h1
    | cons b bs =>
      cases c with
      | nil => simp [strLt] at h2
      | cons c cs =>
        simp only [strLt, Bool.or_eq_true, decide_eq_true_eq, Bool.and_eq_true,
          beq_iff_eq] at h1 h2 ⊢
        rcases h1 with h1 | ⟨rfl, h1⟩
        · rcases h2 with h2 | ⟨rfl, h2⟩
          · exact Or.inl (lt_trans h1 h2)
          · exact Or.inl h1
        · rcases h2 with h2 | ⟨rfl, h2⟩
          · exact Or.inl h2
          · exact Or.inr ⟨rfl, ih h1 h2⟩

theorem strLt_total (a b : Str) : strLt a b = true ∨ a = b ∨ strLt b a = true := by
  induction a generalizing b with
  | nil =>
    cases b with
    | nil => exact Or.inr (Or.inl rfl)
    | cons c cs => exact Or.inl (by simp [strLt])
  | cons a as ih =>
    cases b with
    | nil => exact Or.inr (Or.inr (by simp [strLt]))
    | cons b bs =>
      rcases lt_trichotomy a b with h | rfl | h
      · exact Or.inl (by simp [strLt, h])
      · rcases ih bs with h2 | rfl | h2
        · exact Or.inl (by simp [strLt, h2])
        · exact Or.inr (Or.inl rfl)
        · exact Or.inr (Or.inr (by simp [strLt, h2]))
      · exact Or.inr (Or.inr (by simp [strLt, h]))

theorem mem_minsert {x : Str × α} {k : Str} {v : α} {m : AList α}
    (h : x ∈ minsert k v m) : x = (k, v) ∨ x ∈ m := by
  induction m with
  | nil => simpa [minsert] using h
  | cons p t ih =>
    by_cases h1 : strLt k p.1 = true
    · simp only [minsert, h1, if_true] at h
      rcases List.mem_cons.mp h with rfl | h2
      · exact Or.inl rfl
      · exact Or.inr h2
    · by_cases h2 : (k == p.1) = true
      · simp only [minsert, h1, if_false, h2, if_true] at h
        rcases List.mem_cons.mp h with rfl | h3
        · exact Or.inl rfl
        · exact Or.inr (List.mem_cons_of_mem _ h3)
      · simp only [minsert, h1, if_false, h2] at h
        rcases List.mem_cons.mp h with rfl | h3
        · exact Or.inr (List.mem_cons_self _ _)
        · rcases ih h3 with h4 | h4
          · exact Or.inl h4
          · exact Or.inr (List.mem_cons_of_mem _ h4)

theorem msorted_minsert {k : Str} {v : α} {m : AList α} (h : msorted m) :
    msorted (minsert k v m) := by
  induction m with
  | nil => simp [msorted, minsert]
  | cons p t ih =>
    have hp := (List.pairwise_cons.mp h).1
    have ht := (List.pairwise_cons.mp h).2
    by_cases h1 : strLt k p.1 = true
    · simp only [minsert, h1, if_true]
      refine List.Pairwise.cons ?_ h
      intro x hx
      rcases List.mem_cons.mp hx with rfl | hx2
      · exact h1
      · exact strLt_trans h1 (hp x hx2)
    · by_cases h2 : (k == p.1) = true
      · have hk : k = p.1 := by simpa using h2
        simp only [minsert, h1, if_false, h2, if_true]
        refine List.Pairwise.cons ?_ ht
        intro x hx
        exact hk ▸ hp x hx
      · simp only [minsert, h1, if_false, h2]
        refine List.Pairwise.cons ?_ (ih ht)
        intro x hx
        rcases mem_minsert hx with rfl | hx2
        · have hk : k ≠ p.1 := by simpa using h2
          rcases strLt_total p.1 k with h3 | h3 | h3
          · exact h3
          · exact absurd h3.symm hk
          · exact absurd h3 (by simpa using h1)
        · exact hp x hx2

theorem mcontains_iff_mem {k : Str} {m : AList α} :
    mcontains k m = true ↔ ∃ v, (k, v) ∈ m := by
  induction m with
  | nil => simp [mcontains, mget?]
  | cons p t ih =>
    by_cases h1 : k = p.1
    · subst h1
      simp only [mcontains, mget?, beq_self_eq_true, if_true, Option.isSome_some,
        true_iff]
      exact ⟨p.2, by simp⟩
    · have hb : (k == p.1) = false := by simpa using h1
      simp only [mcontains, mget?, hb, Bool.false_eq_true, if_false]
      rw [show (mget? k t).isSome = mcontains k t from rfl, ih]
      constructor
      · rintro ⟨v, hv⟩
        exact ⟨v, List.mem_cons_of_mem _ hv⟩
      · rintro ⟨v, hv⟩
        rcases List.mem_cons.mp hv with he | hv2
        · exact absurd (congrArg Prod.fst he) h1
        · exact ⟨v, hv2⟩

theorem mremove_sublist (k : Str) (m : AList α) : List.Sublist (mremove k m) m := by
  induction m with
  | nil => simp [mremove]
  | cons p t ih =>
    by_cases h1 : (k == p.1) = true
    · simp only [mremove, h1, if_true]
      exact List.sublist_cons_self p t
    · simp only [mremove, h1, if_false]
      exact List.Sublist.cons₂ p ih

theorem mem_of_mem_mremove {x : Str × α} {k : Str} {m : AList α}
    (h : x ∈ mremove k m) : x ∈ m := (mremove_sublist k m).subset h

theorem msorted_mremove {k : Str} {m : AList α} (h : msorted m) :
    msorted (mremove k m) := List.Pairwise.sublist (mremove_sublist k m) h

theorem mcontains_mremove_self {k : Str} {m : AList α} (h : msorted m) :
    mcontains k (mremove k m) = false := by
  induction m with
  | nil => rfl
  | cons p t ih =>
    have hp := (List.pairwise_cons.mp h).1
    have ht := (List.pairwise_cons.mp h).2
    by_cases h1 : (k == p.1) = true
    · have hk : k = p.1 := by simpa using h1
      simp only [mremove, h1, if_true]
      cases hc : mcontains k t with
      | false => rfl
      | true =>
        obtain ⟨v, hv⟩ := mcontains_iff_mem.mp hc
        have h2 := hp (k, v) hv
        rw [hk, strLt_irrefl] at h2
        exact absurd h2 (by simp)
    · simp only [mremove, h1, if_false, mcontains, mget?, Bool.false_eq_true]
      exact ih ht


theorem remfold_msorted (name : Str) (rm : List (Str × Str)) {l : AList Bool}
    (h : msorted l) :
    msorted (rm.foldl
      (fun fr p => if p.1 == name then mremove p.2 fr else fr) l) := by
  induction rm generalizing l with
  | nil => exact h
  | cons q t ih =>
    simp only [List.foldl_cons]
    by_cases h1 : (q.1 == name) = true
    · simp only [h1, if_true]
      exact ih (msorted_mremove h)
    · simp only [h1, if_false]
      exact ih h

theorem remfold_subset (name : Str) (rm : List (Str × Str)) {l : AList Bool}
    {x : Str × Bool}
    (h : x ∈ rm.foldl
      (fun fr p => if p.1 == name then mremove p.2 fr else fr) l) :
    x ∈ l := by
  induction rm generalizing l with
  | nil => exact h
  | cons q t ih =>
    simp only [List.foldl_cons] at h
    by_cases h1 : (q.1 == name) = true
    · rw [if_pos h1] at h
      exact mem_of_mem_mremove (ih h)
    · rw [if_neg h1] at h
      exact ih h

theorem remfold_keeps_absent {k : Str} (name : Str) (rm : List (Str × Str))
    {l : AList Bool} (h : mcontains k l = false) :
    mcontains k (rm.foldl
      (fun fr p => if p.1 == name then mremove p.2 fr else fr) l) = false := by
  induction rm generalizing l with
  | nil => exact h
  | cons q t ih =>
    simp only [List.foldl_cons]
    by_cases h1 : (q.1 == name) = true
    · rw [if_pos h1]
      refine ih ?_
      cases hc : mcontains k (mremove q.2 l) with
      | false => rfl
      | true =>
        obtain ⟨v, hv⟩ := mcontains_iff_mem.mp hc
        have h2 := mcontains_iff_mem.mpr ⟨v, mem_of_mem_mremove hv⟩
        rw [h] at h2
        exact absurd h2 (by simp)
    · rw [if_neg h1]
      exact ih h

theorem remfold_removed (name : Str) {rm : List (Str × Str)} {p : Str × Str}
    {l : AList Bool} (hs : msorted l) (hp : p ∈ rm) (hn : p.1 = name) :
    mcontains p.2 (rm.foldl
      (fun fr q => if q.1 == name then mremove q.2 fr else fr) l) = false := by
  induction rm generalizing l with
  | nil => simp at hp
  | cons q t ih =>
    simp only [List.foldl_cons]
    rcases List.mem_cons.mp hp with rfl | hp2
    · have h1 : (p.1 == name) = true := by simpa using hn
      rw [if_pos h1]
      exact remfold_keeps_absent name t (mcontains_mremove_self hs)
    · by_cases h1 : (q.1 == name) = true
      · rw [if_pos h1]
        exact ih (msorted_mremove hs) hp2
      · rw [if_neg h1]
        exact ih hs hp2

theorem mem_mset {x : Str × Field} {k : Str} {v : Field} {m : AList Field}
    (h : x ∈ AnnouncementOptions.mset k v m) :
    (x.1 ≠ k ∧ x ∈ m) ∨ (x.1 = k ∧ x.2 = v) := by
  induction m with
  | nil => simp [AnnouncementOptions.mset] at h
  | cons p t ih =>
    by_cases h1 : (p.1 == k) = true
    · simp only [AnnouncementOptions.mset, h1, if_true] at h
      rcases List.mem_cons.mp h with rfl | h2
      · exact Or.inr ⟨by simpa using h1, rfl⟩
      · rcases ih h2 with ⟨hne, hm⟩ | hr
        · exact Or.inl ⟨hne, List.mem_cons_of_mem _ hm⟩
        · exact Or.inr hr
    · simp only [AnnouncementOptions.mset, h1, if_false] at h
      rcases List.mem_cons.mp h with rfl | h2
      · exact Or.inl ⟨by simpa using h1, List.mem_cons_self _ _⟩
      · rcases ih h2 with ⟨hne, hm⟩ | hr
        · exact Or.inl ⟨hne, List.mem_cons_of_mem _ hm⟩
        · exact Or.inr hr

theorem FragsSorted_mset {k : Str} {v : Field} {m : AList Field}
    (hs : FragsSorted m) (hv : msorted v.fragments) :
    FragsSorted (AnnouncementOptions.mset k v m) := by
  intro nf hnf
  rcases mem_mset hnf with ⟨-, hm⟩ | ⟨-, he⟩
  · exact hs nf hm
  · rw [he]
    exact hv

theorem foldl_minsert_msorted {l : List Str} {s : AList Bool} (h : msorted s) :
    msorted (l.foldl (fun s f => minsert f false s) s) := by
  induction l generalizing s with
  | nil => exact h
  | cons f t ih => exact ih (msorted_minsert h)

theorem build_patterns_sorted {ps : List UserField} {m m' : AList Field}
    (hs : FragsSorted m)
    (h : AnnouncementOptions.build_patterns ps m = .ok m') : FragsSorted m' := by
  induction ps generalizing m with
  | nil =>
    simp only [AnnouncementOptions.build_patterns, Except.ok.injEq] at h
    exact h ▸ hs
  | cons uf t ih =>
    simp only [AnnouncementOptions.build_patterns] at h
    by_cases hc : mcontains uf.name m
    · simp [hc] at h
    · simp only [hc, Bool.false_eq_true, if_false] at h
      refine ih ?_ h
      intro nf hnf
      rcases mem_minsert hnf with rfl | hm
      · exact foldl_minsert_msorted List.Pairwise.nil
      · exact hs nf hm

theorem rak_fold_msorted (fm sub : Str) (l : List (Str × Bool)) {acc : AList Bool}
    (h : msorted acc) :
    msorted (l.foldl
      (fun acc p =>
        if occurs fm p.1 then
          minsert p.1 true (minsert (replaceStr p.1 fm sub) p.2 acc)
        else acc)
      acc) := by
  induction l generalizing acc with
  | nil => exact h
  | cons p t ih =>
    simp only [List.foldl_cons]
    by_cases hp : occurs fm p.1
    · simp only [hp, if_true]
      exact ih (msorted_minsert (msorted_minsert h))
    · simp only [hp, Bool.false_eq_true, if_false]
      exact ih h

theorem replace_and_keep_sorted {f f' : Field} {fm sub : Str}
    (hs : msorted f.fragments) (h : f.replace_and_keep fm sub = .ok f') :
    msorted f'.fragments := by
  cases hsd : f.has_self_dependency with
  | some fragment => simp [Field.replace_and_keep, hsd] at h
  | none =>
    simp only [Field.replace_and_keep, hsd, Except.ok.injEq] at h
    subst h
    exact rak_fold_msorted fm sub _ hs

theorem rak_all_sorted {tn fm sub : Str} {m m' : AList Field}
    (hs : FragsSorted m)
    (h : AnnouncementOptions.rak_all tn fm sub m = .ok m') : FragsSorted m' := by
  induction m generalizing m' with
  | nil =>
    simp only [AnnouncementOptions.rak_all, Except.ok.injEq] at h
    subst h
    intro nf hnf
    simp at hnf
  | cons nf t ih =>
    obtain ⟨n, fld⟩ := nf
    simp only [AnnouncementOptions.rak_all] at h
    cases hf : (if (n == tn) = true then (Except.ok fld : Res Field)
        else fld.replace_and_keep fm sub) with
    | error e => rw [hf] at h; simp at h
    | ok fld' =>
      rw [hf] at h
      cases hr : AnnouncementOptions.rak_all tn fm sub t with
      | error e => rw [hr] at h; simp at h
      | ok rest =>
        rw [hr] at h
        simp only [Except.ok.injEq] at h
        subst h
        have hfS : msorted fld'.fragments := by
          by_cases hn : (n == tn) = true
          · simp only [hn, if_true, Except.ok.injEq] at hf
            exact hf ▸ hs (n, fld) (List.mem_cons_self _ _)
          · simp only [hn, if_false] at hf
            exact replace_and_keep_sorted (hs (n, fld) (List.mem_cons_self _ _)) hf
        intro x hx
        rcases List.mem_cons.mp hx with rfl | hx2
        · exact hfS
        · exact ih (fun y hy => hs y (List.mem_cons_of_mem _ hy)) hr x hx2

theorem deflate_frags_sorted {tn fm : Str} {frs : List Str} {m m' : AList Field}
    (hs : FragsSorted m)
    (h : AnnouncementOptions.deflate_frags tn fm frs m = .ok m') :
    FragsSorted m' := by
  induction frs generalizing m with
  | nil =>
    simp only [AnnouncementOptions.deflate_frags, Except.ok.injEq] at h
    exact h ▸ hs
  | cons fr frs ih =>
    simp only [AnnouncementOptions.deflate_frags, bind, Except.bind] at h
    cases hr : AnnouncementOptions.rak_all tn fm fr m with
    | error e => rw [hr] at h; simp at h
    | ok m1 =>
      rw [hr] at h
      exact ih (rak_all_sorted hs hr) h

theorem deflate_tmps_sorted {tmps : List (Str × Field)} {m m' : AList Field}
    (hs : FragsSorted m)
    (h : AnnouncementOptions.deflate_tmps tmps m = .ok m') : FragsSorted m' := by
  induction tmps generalizing m with
  | nil =>
    simp only [AnnouncementOptions.deflate_tmps, Except.ok.injEq] at h
    exact h ▸ hs
  | cons p t ih =>
    obtain ⟨tn, fld⟩ := p
    simp only [AnnouncementOptions.deflate_tmps, bind, Except.bind] at h
    cases hr : AnnouncementOptions.deflate_frags tn fld.delimited_name
        (fld.fragments.map (fun p => p.1)) m with
    | error e => rw [hr] at h; simp at h
    | ok m1 =>
      rw [hr] at h
      exact ih (deflate_frags_sorted hs hr) h

theorem deflate_sorted {d : Nat} {m m' : AList Field} (hs : FragsSorted m)
    (h : AnnouncementOptions.deflate d m = .ok m') : FragsSorted m' := by
  induction d generalizing m with
  | zero =>
    simp only [AnnouncementOptions.deflate, Except.ok.injEq] at h
    exact h ▸ hs
  | succ d ih =>
    simp only [AnnouncementOptions.deflate, bind, Except.bind] at h
    cases hu : AnnouncementOptions.unresolved_scan
        (AnnouncementOptions.allWords m) with
    | error e => rw [hu] at h; simp at h
    | ok u =>
      rw [hu] at h
      by_cases hub : (!u) = true
      · simp only [hub, if_true, Except.ok.injEq] at h
        exact h ▸ hs
      · simp only [hub, if_false] at h
        cases hb : AnnouncementOptions.deflate_tmps m m with
        | error e => rw [hb] at h; simp at h
        | ok m1 =>
          rw [hb] at h
          exact ih (deflate_tmps_sorted hs hb) h

theorem mark_used_sorted {us : List (Str × Str)} {m m' : AList Field}
    (hs : FragsSorted m)
    (h : AnnouncementOptions.mark_used us m = .ok m') : FragsSorted m' := by
  induction us generalizing m with
  | nil =>
    simp only [AnnouncementOptions.mark_used, Except.ok.injEq] at h
    exact h ▸ hs
  | cons p t ih =>
    obtain ⟨n, fr⟩ := p
    simp only [AnnouncementOptions.mark_used] at h
    cases hg : mget? n m with
    | none => simp [hg] at h
    | some fld =>
      rw [hg] at h
      dsimp only at h
      cases hg2 : mget? fr fld.fragments with
      | none => rw [hg2] at h; simp at h
      | some b =>
        rw [hg2] at h
        dsimp only at h
        exact ih (FragsSorted_mset hs
          (msorted_minsert (hs (n, fld) (mget?_mem hg)))) h

theorem add_and_insert_sorted {m : AList Field} {name fragment : Str}
    {fld : Field} (hs : FragsSorted m) :
    FragsSorted (AnnouncementOptions.add_and_insert m name fragment fld) := by
  have hm1 : FragsSorted
      (if mcontains name m then m
       else minsert name
         { delimited_name := fld.delimited_name, whole := fld.whole,
           fragments := [] } m) := by
    by_cases hc : mcontains name m
    · rw [if_pos hc]
      exact hs
    · rw [if_neg hc]
      intro nf hnf
      rcases mem_minsert hnf with rfl | hnf2
      · exact List.Pairwise.nil
      · exact hs nf hnf2
  intro nf hnf
  simp only [AnnouncementOptions.add_and_insert, List.mem_map] at hnf
  obtain ⟨y, hy, heq⟩ := hnf
  by_cases hyn : (y.1 == name) = true
  · rw [if_pos hyn] at heq
    subst heq
    exact msorted_minsert (hm1 y hy)
  · rw [if_neg hyn] at heq
    subst heq
    exact hm1 y hy

theorem add_all_sorted {neutral : AList Field} {ps : List (Str × Str)}
    {m m' : AList Field} (hs : FragsSorted m)
    (h : AnnouncementOptions.add_all neutral ps m = .ok m') : FragsSorted m' := by
  induction ps generalizing m with
  | nil =>
    simp only [AnnouncementOptions.add_all, Except.ok.injEq] at h
    exact h ▸ hs
  | cons p t ih =>
    obtain ⟨name, fragment⟩ := p
    simp only [AnnouncementOptions.add_all] at h
    cases hg : mget? name neutral with
    | none => simp [hg] at h
    | some fld =>
      rw [hg] at h
      dsimp only at h
      exact ih (add_and_insert_sorted hs) h


theorem collect_unresolved_ok {d : Nat} {l : List (Str × Str × Bool × Str)}
    {rm : List (Str × Str)}
    (h : AnnouncementOptions.collect_unresolved d l = .ok rm) :
    ∀ q ∈ l, ResolvedWord q.2.2.2 ∨ (q.1, q.2.1) ∈ rm := by
  induction l generalizing rm with
  | nil =>
    intro q hq
    simp at hq
  | cons x t ih =>
    obtain ⟨name, frag, used, w⟩ := x
    intro q hq
    simp only [AnnouncementOptions.collect_unresolved] at h
    cases hw : is_field_name w with
    | error c => rw [hw] at h; simp at h
    | ok b =>
      rw [hw] at h
      dsimp only at h
      by_cases hb : (b && !is_reserved (strip_delimiters w)) = true
      · rw [if_pos hb] at h
        by_cases hu : (!used) = true
        · rw [if_pos hu] at h
          simp at h
        · rw [if_neg hu] at h
          simp only [bind, Except.bind] at h
          cases hr : AnnouncementOptions.collect_unresolved d t with
          | error e => rw [hr] at h; simp at h
          | ok rest =>
            rw [hr] at h
            simp only [pure, Except.pure, Except.ok.injEq] at h
            rcases List.mem_cons.mp hq with rfl | hq2
            · right
              rw [← h]
              exact List.mem_cons_self _ _
            · rcases ih hr q hq2 with hres | hmem
              · exact Or.inl hres
              · right
                rw [← h]
                exact List.mem_cons_of_mem _ hmem
      · rw [if_neg hb] at h
        rcases List.mem_cons.mp hq with rfl | hq2
        · left
          show ResolvedWord w
          cases b with
          | false => exact Or.inl hw
          | true =>
            cases hres : is_reserved (strip_delimiters w) with
            | true => exact Or.inr ⟨hw, hres⟩
            | false => exact absurd (by simp [hres]) hb
        · exact ih h q hq2

theorem frag_has_unresolved_false {ws : List Str}
    (h : AnnouncementOptions.frag_has_unresolved ws = .ok false) :
    ∀ w ∈ ws, ResolvedWord w := by
  induction ws with
  | nil =>
    intro w hw
    simp at hw
  | cons w0 t ih =>
    intro w hw
    simp only [AnnouncementOptions.frag_has_unresolved] at h
    cases hw0 : is_field_name w0 with
    | error c => rw [hw0] at h; simp at h
    | ok b =>
      rw [hw0] at h
      dsimp only at h
      by_cases hb : (b && !is_reserved (strip_delimiters w0)) = true
      · rw [if_pos hb] at h
        simp at h
      · rw [if_neg hb] at h
        rcases List.mem_cons.mp hw with rfl | hw2
        · show ResolvedWord w
          cases b with
          | false => exact Or.inl hw0
          | true =>
            cases hres : is_reserved (strip_delimiters w) with
            | true => exact Or.inr ⟨hw0, hres⟩
            | false => exact absurd (by simp [hres]) hb
        · exact ih h w hw2

theorem frags_unresolved_ok {name : Str} {frs : List (Str × Bool)}
    {rm : List (Str × Str)}
    (h : AnnouncementOptions.frags_unresolved name frs = .ok rm) :
    ∀ fr ∈ frs, (name, fr.1) ∈ rm ∨ ∀ w ∈ splitWS fr.1, ResolvedWord w := by
  induction frs generalizing rm with
  | nil =>
    intro fr hfr
    simp at hfr
  | cons q t ih =>
    obtain ⟨frag, flag⟩ := q
    intro fr hfr
    simp only [AnnouncementOptions.frags_unresolved, bind, Except.bind] at h
    cases hu : AnnouncementOptions.frag_has_unresolved (splitWS frag) with
    | error e => rw [hu] at h; simp at h
    | ok u =>
      rw [hu] at h
      cases hr : AnnouncementOptions.frags_unresolved name t with
      | error e => rw [hr] at h; simp at h
      | ok rest =>
        rw [hr] at h
        simp only [pure, Except.pure, Except.ok.injEq] at h
        rcases List.mem_cons.mp hfr with rfl | hfr2
        · cases u with
          | true =>
            left
            rw [← h]
            exact List.mem_cons_self _ _
          | false =>
            right
            exact frag_has_unresolved_false hu
        · rcases ih hr fr hfr2 with hm | hres
          · left
            rw [← h]
            cases u with
            | true => exact List.mem_cons_of_mem _ hm
            | false => exact hm
          · exact Or.inr hres

theorem get_unresolved_ok {m : List (Str × Field)} {rm : List (Str × Str)}
    (h : AnnouncementOptions.get_unresolved m = .ok rm) :
    ∀ nf ∈ m, ∀ fr ∈ nf.2.fragments,
      (nf.1, fr.1) ∈ rm ∨ ∀ w ∈ splitWS fr.1, ResolvedWord w := by
  induction m generalizing rm with
  | nil =>
    intro nf hnf
    simp at hnf
  | cons q t ih =>
    obtain ⟨name, fld⟩ := q
    intro nf hnf fr hfr
    simp only [AnnouncementOptions.get_unresolved, bind, Except.bind] at h
    cases hh : AnnouncementOptions.frags_unresolved name fld.fragments with
    | error e => rw [hh] at h; simp at h
    | ok here =>
      rw [hh] at h
      cases hr : AnnouncementOptions.get_unresolved t with
      | error e => rw [hr] at h; simp at h
      | ok rest =>
        rw [hr] at h
        simp only [pure, Except.pure, Except.ok.injEq] at h
        rcases List.mem_cons.mp hnf with rfl | hnf2
        · rcases frags_unresolved_ok hh fr hfr with hm | hres
          · left
            rw [← h]
            exact List.mem_append_left _ hm
          · exact Or.inr hres
        · rcases ih hr nf hnf2 fr hfr with hm | hres
          · left
            rw [← h]
            exact List.mem_append_right _ hm
          · exact Or.inr hres

theorem remove_internal_inv2 {rm : List (Str × Str)} {m m' : AList Field}
    (hs : FragsSorted m)
    (h : AnnouncementOptions.remove_internal rm m = .ok m') :
    ∀ nf' ∈ m', ∃ fld0, (nf'.1, fld0) ∈ m ∧
      (∀ fr ∈ nf'.2.fragments, fr ∈ fld0.fragments) ∧
      (∀ p ∈ rm, p.1 = nf'.1 → mcontains p.2 nf'.2.fragments = false) := by
  induction rm generalizing m with
  | nil =>
    simp only [AnnouncementOptions.remove_internal, Except.ok.injEq] at h
    subst h
    intro nf' hnf'
    exact ⟨nf'.2, by simpa using hnf', fun fr hfr => hfr,
      fun p hp => by simp at hp⟩
  | cons q t ih =>
    obtain ⟨name, frag⟩ := q
    simp only [AnnouncementOptions.remove_internal] at h
    cases hg : mget? name m with
    | none => rw [hg] at h; simp at h
    | some fld =>
      rw [hg] at h
      dsimp only at h
      have hfldS : msorted fld.fragments := hs (name, fld) (mget?_mem hg)
      have hsetS : FragsSorted (AnnouncementOptions.mset name
          { fld with fragments := mremove frag fld.fragments } m) :=
        FragsSorted_mset hs (msorted_mremove hfldS)
      intro nf' hnf'
      obtain ⟨fld1, hmem1, hsub1, hcond1⟩ := ih hsetS h nf' hnf'
      rcases mem_mset hmem1 with ⟨hne, hm⟩ | ⟨heq, hv⟩
      · refine ⟨fld1, hm, hsub1, ?_⟩
        intro p hp hpn
        rcases List.mem_cons.mp hp with rfl | hp2
        · exact absurd hpn.symm hne
        · exact hcond1 p hp2 hpn
      · have hv' : fld1 = { fld with fragments := mremove frag fld.fragments } := hv
        refine ⟨fld, ?_, ?_, ?_⟩
        · rw [heq]
          exact mget?_mem hg
        · intro fr hfr
          have h2 := hsub1 fr hfr
          rw [hv'] at h2
          exact mem_of_mem_mremove h2
        · intro p hp hpn
          rcases List.mem_cons.mp hp with rfl | hp2
          · show mcontains frag nf'.2.fragments = false
            cases hc : mcontains frag nf'.2.fragments with
            | false => rfl
            | true =>
              obtain ⟨b, hb⟩ := mcontains_iff_mem.mp hc
              have h3 := hsub1 (frag, b) hb
              rw [hv'] at h3
              have h4 := mcontains_iff_mem.mpr ⟨b, h3⟩
              simp [mcontains_mremove_self hfldS] at h4
          · exact hcond1 p hp2 hpn

theorem apply_removals_inv {rm : List (Str × Str)} {m : AList Field}
    (hs : FragsSorted m) :
    ∀ nf' ∈ AnnouncementOptions.apply_removals rm m,
      ∃ fld0, (nf'.1, fld0) ∈ m ∧
        (∀ fr ∈ nf'.2.fragments, fr ∈ fld0.fragments) ∧
        (∀ p ∈ rm, p.1 = nf'.1 → mcontains p.2 nf'.2.fragments = false) := by
  intro nf' hmem
  simp only [AnnouncementOptions.apply_removals, List.mem_map] at hmem
  obtain ⟨nf, hnf, heq⟩ := hmem
  subst heq
  refine ⟨nf.2, by simpa using hnf, ?_, ?_⟩
  · intro fr hfr
    exact remfold_subset nf.1 rm hfr
  · intro p hp hpn
    exact remfold_removed nf.1 (hs nf hnf) hp hpn

theorem mem_allWords {m : AList Field} {nf : Str × Field} {fr : Str × Bool}
    {w : Str} (hnf : nf ∈ m) (hfr : fr ∈ nf.2.fragments)
    (hw : w ∈ splitWS fr.1) :
    (nf.1, fr.1, fr.2, w) ∈ AnnouncementOptions.allWords m := by
  simp only [AnnouncementOptions.allWords, List.mem_flatMap, List.mem_map]
  exact ⟨nf, hnf, fr, hfr, w, hw, rfl⟩

theorem reserved_check_all {ks : List Str}
    (h : AnnouncementOptions.reserved_check ks = .ok ()) :
    ∀ k ∈ ks, is_reserved k = false := by
  induction ks with
  | nil =>
    intro k hk
    simp at hk
  | cons k0 t ih =>
    intro k hk
    simp only [AnnouncementOptions.reserved_check] at h
    cases hr : is_reserved k0 with
    | true => simp [hr] at h
    | false =>
      rw [hr] at h
      simp only [Bool.false_eq_true, if_false] at h
      rcases List.mem_cons.mp hk with rfl | hk2
      · exact hr
      · exact ih h k hk2

theorem MapResolved.noRefTo {m : AList Field} {names : List Str}
    (h : MapResolved m) (hn : ∀ n ∈ names, is_reserved n = false) :
    NoRefTo names m := by
  intro nf hnf fr hfr w hw
  rcases h nf hnf fr hfr w hw with hok | ⟨hok, hres⟩
  · exact Or.inr hok
  · left
    intro hmem
    rw [hn _ hmem] at hres
    exact Bool.false_ne_true hres

theorem mkeys_apply_removals (rm : List (Str × Str)) (m : AList Field) :
    mkeys (AnnouncementOptions.apply_removals rm m) = mkeys m := by
  simp only [AnnouncementOptions.apply_removals, mkeys, List.map_map]
  rfl


/-! ## Claim C1 -/

/-- C1 (confirmed): whenever `AnnouncementOptions::from_user` succeeds, every
word of every surviving fragment in the neutral, past and present maps is
fully resolved — a plain literal or a well-formed delimited reference to a
*reserved* field — and in particular no surviving word is a delimited
reference to a user-defined (neutral) field or to a tense field. -/
theorem from_user_resolved (u : UserAnnouncementOptions) (d : Nat)
    (opts : AnnouncementOptions)
    (h : AnnouncementOptions.from_user u d = .ok opts) :
    (MapResolved opts.neutral ∧ MapResolved opts.past ∧
      MapResolved opts.present) ∧
    (NoRefTo (mkeys opts.neutral ++ mkeys opts.tense) opts.neutral ∧
      NoRefTo (mkeys opts.neutral ++ mkeys opts.tense) opts.past ∧
      NoRefTo (mkeys opts.neutral ++ mkeys opts.tense) opts.present) := by
  obtain ⟨st1, n2, st3, h1, h2, h3, h4, h5, h6, h7, h8, h9, h10⟩ := from_user_inv h
  obtain ⟨n, hb, hneut, hpast, hpres, -, -, -, -⟩ := build_map_inv h1
  have hs1 : FragsSorted st1.neutral := by
    rw [hneut]
    refine build_patterns_sorted ?_ hb
    intro nf hnf
    simp [AnnouncementOptions.init_state] at hnf
  have hs2 : FragsSorted n2 := deflate_sorted hs1 h7
  obtain ⟨n', past', present', hmk, hpa, hpr, hst3⟩ := deflate_tense_inv h8
  subst hst3
  obtain ⟨rm, pastRm, past2, presRm, present2, hcol, hgu1, hri1, hgu2, hri2,
    hopts⟩ := remove_unresolved_inv h10
  subst hopts
  dsimp only at hcol hgu1 hri1 hgu2 hri2 hmk hpa hpr ⊢
  have hs3 : FragsSorted n' := mark_used_sorted hs2 hmk
  have hsPastIn : FragsSorted st1.past := by
    rw [hpast]
    intro nf hnf
    simp [AnnouncementOptions.init_state] at hnf
  have hsPresIn : FragsSorted st1.present := by
    rw [hpres]
    intro nf hnf
    simp [AnnouncementOptions.init_state] at hnf
  have hsPast : FragsSorted past' := add_all_sorted hsPastIn hpa
  have hsPres : FragsSorted present' := add_all_sorted hsPresIn hpr
  have hMR1 : MapResolved (AnnouncementOptions.apply_removals rm n') := by
    intro nf hnf fr hfr w hw
    obtain ⟨fld0, hmem0, hsub0, hcond0⟩ := apply_removals_inv hs3 nf hnf
    have hfr0 : fr ∈ fld0.fragments := hsub0 fr hfr
    have hWord := collect_unresolved_ok hcol (nf.1, fr.1, fr.2, w)
      (@mem_allWords _ (nf.1, fld0) _ _ hmem0 hfr0 hw)
    rcases hWord with hres | hmem
    · exact hres
    · exfalso
      have hcd := hcond0 (nf.1, fr.1) hmem rfl
      have hc := mcontains_iff_mem.mpr ⟨fr.2, by simpa using hfr⟩
      rw [hcd] at hc
      exact Bool.false_ne_true hc
  have hMR2 : MapResolved past2 := by
    intro nf hnf fr hfr w hw
    obtain ⟨fld0, hmem0, hsub0, hcond0⟩ := remove_internal_inv2 hsPast hri1 nf hnf
    have hfr0 : fr ∈ fld0.fragments := hsub0 fr hfr
    rcases get_unresolved_ok hgu1 (nf.1, fld0) hmem0 fr hfr0 with hmem | hres
    · exfalso
      have hcd := hcond0 (nf.1, fr.1) hmem rfl
      have hc := mcontains_iff_mem.mpr ⟨fr.2, by simpa using hfr⟩
      rw [hcd] at hc
      exact Bool.false_ne_true hc
    · exact hres w hw
  have hMR3 : MapResolved present2 := by
    intro nf hnf fr hfr w hw
    obtain ⟨fld0, hmem0, hsub0, hcond0⟩ := remove_internal_inv2 hsPres hri2 nf hnf
    have hfr0 : fr ∈ fld0.fragments := hsub0 fr hfr
    rcases get_unresolved_ok hgu2 (nf.1, fld0) hmem0 fr hfr0 with hmem | hres
    · exfalso
      have hcd := hcond0 (nf.1, fr.1) hmem rfl
      have hc := mcontains_iff_mem.mpr ⟨fr.2, by simpa using hfr⟩
      rw [hcd] at hc
      exact Bool.false_ne_true hc
    · exact hres w hw
  have hk1 : mkeys n2 = mkeys st1.neutral := (deflate_evolves h7).1
  have hk2 : mkeys n' = mkeys n2 := (mark_used_evolves hmk).1
  have hk3 : mkeys (AnnouncementOptions.apply_removals rm n') = mkeys n' :=
    mkeys_apply_removals rm n'
  have hNres : ∀ nn ∈ mkeys (AnnouncementOptions.apply_removals rm n') ++
      mkeys st1.tense, is_reserved nn = false := by
    intro nn hnn
    rcases List.mem_append.mp hnn with hnn | hnn
    · refine reserved_check_all h3 nn ?_
      rw [hk3, hk2, hk1] at hnn
      exact hnn
    · exact reserved_check_all h4 nn hnn
  exact ⟨⟨hMR1, hMR2, hMR3⟩, MapResolved.noRefTo hMR1 hNres,
    MapResolved.noRefTo hMR2 hNres, MapResolved.noRefTo hMR3 hNres⟩

/-- C1 (confirmed): whenever `AnnouncementOptions::from_user` succeeds, every
word of every surviving fragment in the resulting neutral, past and present
maps is fully resolved — a plain literal or a well-formed delimited reference
to a *reserved* field — and in particular no surviving word is a delimited
reference to a user-defined (neutral) field or to a tense field. -/
theorem C1_full_resolution (u : UserAnnouncementOptions) (d : Nat)
    (opts : AnnouncementOptions)
    (h : AnnouncementOptions.from_user u d = .ok opts) :
    (MapResolved opts.neutral ∧ MapResolved opts.past ∧
      MapResolved opts.present) ∧
    (NoRefTo (mkeys opts.neutral ++ mkeys opts.tense) opts.neutral ∧
      NoRefTo (mkeys opts.neutral ++ mkeys opts.tense) opts.past ∧
      NoRefTo (mkeys opts.neutral ++ mkeys opts.tense) opts.present) :=
  from_user_resolved u d opts h

/-- C1 witness: the resolution theorem applied to the compilation of a
concrete one-field model (`u` with the literal fragment `hello`). -/
theorem C1_witness :
    (MapResolved [("u".data, Field.mk "^u^".data true [("hello".data, false)])] ∧
      MapResolved [("u".data, Field.mk "^u^".data true [("hello".data, false)])] ∧
      MapResolved [("u".data, Field.mk "^u^".data true [("hello".data, false)])]) ∧
    (NoRefTo ["u".data]
        [("u".data, Field.mk "^u^".data true [("hello".data, false)])] ∧
      NoRefTo ["u".data]
        [("u".data, Field.mk "^u^".data true [("hello".data, false)])] ∧
      NoRefTo ["u".data]
        [("u".data, Field.mk "^u^".data true [("hello".data, false)])]) :=
  C1_full_resolution ⟨[⟨"u".data, true, ["hello".data]⟩], none, none, none⟩ 5
    ⟨[("u".data, Field.mk "^u^".data true [("hello".data, false)])],
      [("u".data, Field.mk "^u^".data true [("hello".data, false)])],
      [("u".data, Field.mk "^u^".data true [("hello".data, false)])],
      [], FieldsToAnnounce.default, []⟩ rfl


/-! ## Claim C2: string machinery -/

theorem occurs_iff_append {pat s : Str} :
    occurs pat s = true ↔ ∃ l r, s = l ++ pat ++ r := by
  induction s with
  | nil =>
    simp only [occurs, List.isEmpty_iff]
    constructor
    · intro h
      exact ⟨[], [], by simp [h]⟩
    · rintro ⟨l, r, hs⟩
      cases l with
      | cons a b => simp at hs
      | nil =>
        cases pat with
        | cons a b => simp at hs
        | nil => rfl
  | cons c t ih =>
    simp only [occurs, Bool.or_eq_true, List.isPrefixOf_iff_prefix, ih]
    constructor
    · rintro (⟨r, hr⟩ | ⟨l, r, hs⟩)
      · exact ⟨[], r, by simp [hr.symm]⟩
      · exact ⟨c :: l, r, by simp [hs]⟩
    · rintro ⟨l, r, hs⟩
      cases l with
      | nil =>
        left
        exact ⟨r, by simpa using hs.symm⟩
      | cons a l2 =>
        right
        simp only [List.cons_append, List.cons.injEq] at hs
        exact ⟨l2, r, hs.2⟩

theorem occurs_self {pat : Str} (h : pat ≠ []) : occurs pat pat = true :=
  occurs_iff_append.mpr ⟨[], [], by simp⟩

theorem occurs_subset {pat s : Str} (h : occurs pat s = true) :
    ∀ c ∈ pat, c ∈ s := by
  obtain ⟨l, r, rfl⟩ := occurs_iff_append.mp h
  intro c hc
  simp [hc]

theorem replaceStr_no_occurs {s pat v : Str} (h : occurs pat s = false) :
    replaceStr s pat v = s := by
  induction s with
  | nil => rfl
  | cons c t ih =>
    have h1 : pat.isPrefixOf (c :: t) = false ∧ occurs pat t = false := by
      constructor
      · cases hq : pat.isPrefixOf (c :: t) with
        | false => rfl
        | true => simp [occurs, hq] at h
      · cases hq : occurs pat t with
        | false => rfl
        | true => simp [occurs, hq] at h
    rw [replaceStr_cons]
    by_cases he : pat.isEmpty
    · simp [he]
    · rw [if_neg (by simp [he]), if_neg (by simp [h1.1]), ih h1.2]

theorem prefix_ws_split {pat xs ys : Str} {c : Char}
    (h : List.IsPrefix pat (xs ++ c :: ys)) (hc : isWS c = true)
    (hp : ∀ ch ∈ pat, isWS ch = false) : List.IsPrefix pat xs := by
  obtain ⟨r, hr⟩ := h
  by_cases hlen : pat.length ≤ xs.length
  · have hpt : pat = xs.take pat.length := by
      have h1 : pat = (pat ++ r).take pat.length := by simp
      rw [hr, List.take_append_of_le_length hlen] at h1
      exact h1
    refine ⟨xs.drop pat.length, ?_⟩
    nth_rewrite 1 [hpt]
    exact List.take_append_drop _ _
  · exfalso
    have hx : xs.length < pat.length := Nat.lt_of_not_le hlen
    have h2 : (pat ++ r).get? xs.length = pat.get? xs.length :=
      List.get?_append hx
    rw [hr] at h2
    have h3 : (xs ++ c :: ys).get? xs.length = some c := by
      rw [List.get?_append_right (Nat.le_refl _)]
      simp
    rw [h3] at h2
    have h4 : c ∈ pat := List.get?_mem h2.symm
    rw [hp c h4] at hc
    exact Bool.false_ne_true hc

theorem pat_isEmpty_false {pat : Str} (h : pat ≠ []) : pat.isEmpty = false := by
  cases pat with
  | nil => exact absurd rfl h
  | cons a b => rfl

theorem replaceStr_cons_pos {pat : Str} (hpn : pat ≠ []) {c : Char} {t : Str}
    (hpre : pat.isPrefixOf (c :: t) = true) (v : Str) :
    replaceStr (c :: t) pat v = v ++ replaceStr ((c :: t).drop pat.length) pat v := by
  rw [replaceStr_cons,
    if_neg (by simp only [pat_isEmpty_false hpn]; exact Bool.false_ne_true),
    if_pos hpre]

theorem replaceStr_cons_neg {pat : Str} (hpn : pat ≠ []) {c : Char} {t : Str}
    (hpre : pat.isPrefixOf (c :: t) = false) (v : Str) :
    replaceStr (c :: t) pat v = c :: replaceStr t pat v := by
  rw [replaceStr_cons,
    if_neg (by simp only [pat_isEmpty_false hpn]; exact Bool.false_ne_true),
    if_neg (by simp only [hpre]; exact Bool.false_ne_true)]

theorem replaceStr_ws_head {pat : Str} (hpn : pat ≠ [])
    (hpw : ∀ ch ∈ pat, isWS ch = false) {c : Char} (hc : isWS c = true)
    (ys v : Str) : replaceStr (c :: ys) pat v = c :: replaceStr ys pat v := by
  refine replaceStr_cons_neg hpn ?_ v
  cases hq : pat.isPrefixOf (c :: ys) with
  | false => rfl
  | true =>
    exfalso
    rw [List.isPrefixOf_iff_prefix] at hq
    obtain ⟨r, hr⟩ := hq
    cases pat with
    | nil => exact hpn rfl
    | cons p ps =>
      simp only [List.cons_append, List.cons.injEq] at hr
      have h1 := hpw p (List.mem_cons_self _ _)
      rw [hr.1] at h1
      rw [h1] at hc
      exact Bool.false_ne_true hc

theorem replaceStr_append_ws_aux {pat : Str} (hpn : pat ≠ [])
    (hpw : ∀ ch ∈ pat, isWS ch = false) {c : Char} (hc : isWS c = true)
    (v : Str) : ∀ n (xs : Str), xs.length ≤ n → ∀ ys,
    replaceStr (xs ++ c :: ys) pat v =
      replaceStr xs pat v ++ c :: replaceStr ys pat v := by
  intro n
  induction n with
  | zero =>
    intro xs hlen ys
    have hxs : xs = [] := List.length_eq_zero.mp (Nat.le_zero.mp hlen)
    subst hxs
    simp only [List.nil_append, replaceStr_nil]
    exact replaceStr_ws_head hpn hpw hc ys v
  | succ n ih =>
    intro xs hlen ys
    cases xs with
    | nil =>
      simp only [List.nil_append, replaceStr_nil]
      exact replaceStr_ws_head hpn hpw hc ys v
    | cons x xt =>
      show replaceStr (x :: (xt ++ c :: ys)) pat v = _
      by_cases hpre : pat.isPrefixOf (x :: xt) = true
      · have hpre2 : pat.isPrefixOf (x :: (xt ++ c :: ys)) = true := by
          rw [List.isPrefixOf_iff_prefix] at hpre ⊢
          refine hpre.trans ?_
          rw [show x :: (xt ++ c :: ys) = (x :: xt) ++ c :: ys from rfl]
          exact List.prefix_append _ _
        rw [replaceStr_cons_pos hpn hpre2 v, replaceStr_cons_pos hpn hpre v]
        have hplen : pat.length ≤ (x :: xt).length := by
          rw [List.isPrefixOf_iff_prefix] at hpre
          exact hpre.length_le
        have hdrop : (x :: (xt ++ c :: ys)).drop pat.length =
            (x :: xt).drop pat.length ++ c :: ys := by
          rw [show x :: (xt ++ c :: ys) = (x :: xt) ++ c :: ys from rfl]
          rw [List.drop_append_of_le_length hplen]
        rw [hdrop, ih ((x :: xt).drop pat.length) ?_ ys]
        · simp
        · have hp1 : 1 ≤ pat.length := by
            cases pat with
            | nil => exact absurd rfl hpn
            | cons a b => simp
          simp only [List.length_drop, List.length_cons]
          simp only [List.length_cons] at hlen
          omega
      · have hpre1 : pat.isPrefixOf (x :: xt) = false := by
          cases hq : pat.isPrefixOf (x :: xt) with
          | false => rfl
          | true => exact absurd hq hpre
        have hpre2 : pat.isPrefixOf (x :: (xt ++ c :: ys)) = false := by
          cases hq : pat.isPrefixOf (x :: (xt ++ c :: ys)) with
          | false => rfl
          | true =>
            exfalso
            rw [List.isPrefixOf_iff_prefix] at hq
            rw [show x :: (xt ++ c :: ys) = (x :: xt) ++ c :: ys from rfl] at hq
            have h2 := @prefix_ws_split _ (x :: xt) _ _ hq hc hpw
            rw [← List.isPrefixOf_iff_prefix] at h2
            rw [hpre1] at h2
            exact Bool.false_ne_true h2
        rw [replaceStr_cons_neg hpn hpre2 v, replaceStr_cons_neg hpn hpre1 v]
        rw [ih xt ?_ ys]
        · simp
        · simp only [List.length_cons] at hlen
          omega

theorem replaceStr_append_ws {pat : Str} (hpn : pat ≠ [])
    (hpw : ∀ ch ∈ pat, isWS ch = false) {c : Char} (hc : isWS c = true)
    (xs ys v : Str) :
    replaceStr (xs ++ c :: ys) pat v =
      replaceStr xs pat v ++ c :: replaceStr ys pat v :=
  replaceStr_append_ws_aux hpn hpw hc v xs.length xs (Nat.le_refl _) ys


theorem splitWSAux_append_ws {c : Char} (hc : isWS c = true) (B : Str) :
    ∀ (A cur : Str),
      splitWSAux (A ++ c :: B) cur = splitWSAux A cur ++ splitWS B := by
  intro A
  induction A with
  | nil =>
    intro cur
    by_cases hcur : cur.isEmpty <;>
      simp [splitWSAux, hc, hcur, splitWS]
  | cons a A ih =>
    intro cur
    simp only [List.cons_append, splitWSAux]
    by_cases ha : isWS a
    · by_cases hcur : cur.isEmpty <;> simp [ha, hcur, ih]
    · simp [ha, ih]

theorem splitWS_append_ws {c : Char} (hc : isWS c = true) (A B : Str) :
    splitWS (A ++ c :: B) = splitWS A ++ splitWS B :=
  splitWSAux_append_ws hc B A []

theorem splitWSAux_ws_only {sfx : Str} (h : ∀ c ∈ sfx, isWS c = true) :
    ∀ cur : Str,
      splitWSAux sfx cur = if cur.isEmpty then [] else [cur.reverse] := by
  induction sfx with
  | nil => intro cur; rfl
  | cons c t ih =>
    intro cur
    have hct := h c (List.mem_cons_self _ _)
    have iht := ih (fun x hx => h x (List.mem_cons_of_mem _ hx))
    simp only [splitWSAux, hct, if_true]
    by_cases hcur : cur.isEmpty <;> simp [hcur, iht]

theorem splitWSAux_append_ws_only {sfx : Str}
    (h : ∀ c ∈ sfx, isWS c = true) :
    ∀ (A cur : Str), splitWSAux (A ++ sfx) cur = splitWSAux A cur := by
  intro A
  induction A with
  | nil =>
    intro cur
    exact splitWSAux_ws_only h cur
  | cons a A ih =>
    intro cur
    simp only [List.cons_append, splitWSAux]
    by_cases ha : isWS a
    · by_cases hcur : cur.isEmpty <;> simp [ha, hcur, ih]
    · simp [ha, ih]

theorem splitWSAux_word {W : Str} (h : ∀ c ∈ W, isWS c = false) :
    ∀ cur : Str, splitWSAux W cur =
      if (cur.reverse ++ W).isEmpty then [] else [cur.reverse ++ W] := by
  induction W with
  | nil =>
    intro cur
    by_cases hcur : cur.isEmpty
    · have hc2 : cur = [] := List.isEmpty_iff.mp hcur
      subst hc2
      rfl
    · have hc2 : cur ≠ [] := by simpa [List.isEmpty_iff] using hcur
      simp [splitWSAux, hcur, hc2]
  | cons c W ih =>
    intro cur
    have hc := h c (List.mem_cons_self _ _)
    simp only [splitWSAux, hc, Bool.false_eq_true, if_false]
    rw [ih (fun x hx => h x (List.mem_cons_of_mem _ hx)) (c :: cur)]
    simp

theorem splitWS_word {W : Str} (hne : W ≠ []) (h : ∀ c ∈ W, isWS c = false) :
    splitWS W = [W] := by
  rw [splitWS, splitWSAux_word h []]
  simp [hne, List.isEmpty_iff]

theorem splitWS_dropWhile (s : Str) :
    splitWS (s.dropWhile isWS) = splitWS s := by
  induction s with
  | nil => rfl
  | cons c t ih =>
    by_cases hc : isWS c
    · rw [List.dropWhile_cons_of_pos hc, ih]
      show _ = splitWSAux (c :: t) []
      simp [splitWSAux, hc, splitWS]
    · rw [List.dropWhile_cons_of_neg hc]

theorem splitWS_trim (s : Str) : splitWS (trimStr s) = splitWS s := by
  rw [trimStr]
  have hdecomp : s.dropWhile isWS =
      ((s.dropWhile isWS).reverse.dropWhile isWS).reverse ++
        ((s.dropWhile isWS).reverse.takeWhile isWS).reverse := by
    conv_lhs => rw [← List.reverse_reverse (s.dropWhile isWS)]
    conv_lhs =>
      rw [← List.takeWhile_append_dropWhile isWS (s.dropWhile isWS).reverse]
    rw [List.reverse_append]
  have hws : ∀ c ∈ ((s.dropWhile isWS).reverse.takeWhile isWS).reverse,
      isWS c = true := by
    intro c hcmem
    rw [List.mem_reverse] at hcmem
    exact List.mem_takeWhile_imp hcmem
  have h1 : splitWS (s.dropWhile isWS) =
      splitWS ((s.dropWhile isWS).reverse.dropWhile isWS).reverse := by
    conv_lhs => rw [hdecomp]
    exact splitWSAux_append_ws_only hws _ []
  rw [← h1, splitWS_dropWhile]

theorem mem_splitWSAux_of_mem {c : Char} (hns : isWS c = false) :
    ∀ (s cur : Str), (c ∈ s ∨ c ∈ cur) →
      ∃ W ∈ splitWSAux s cur, c ∈ W := by
  intro s
  induction s with
  | nil =>
    intro cur hm
    rcases hm with hm | hm
    · simp at hm
    · have hcur : cur.isEmpty = false := by
        cases cur with
        | nil => simp at hm
        | cons a b => rfl
      refine ⟨cur.reverse, ?_, by simpa using hm⟩
      simp [splitWSAux, hcur]
  | cons a t ih =>
    intro cur hm
    by_cases ha : isWS a
    · have hm2 : c ∈ t ∨ c ∈ cur := by
        rcases hm with hm | hm
        · rcases List.mem_cons.mp hm with rfl | hm2
          · rw [ha] at hns
            exact absurd hns (by simp)
          · exact Or.inl hm2
        · exact Or.inr hm
      simp only [splitWSAux, ha, if_true]
      by_cases hcur : cur.isEmpty
      · have hm3 : c ∈ t := by
          rcases hm2 with hm2 | hm2
          · exact hm2
          · rw [List.isEmpty_iff] at hcur
            subst hcur
            simp at hm2
        rw [if_pos hcur]
        exact ih [] (Or.inl hm3)
      · rw [if_neg hcur]
        rcases hm2 with hm2 | hm2
        · obtain ⟨W, hW, hcW⟩ := ih [] (Or.inl hm2)
          exact ⟨W, List.mem_cons_of_mem _ hW, hcW⟩
        · exact ⟨cur.reverse, List.mem_cons_self _ _, by simpa using hm2⟩
    · simp only [splitWSAux, ha, Bool.false_eq_true, if_false]
      refine ih (a :: cur) ?_
      rcases hm with hm | hm
      · rcases List.mem_cons.mp hm with rfl | hm2
        · exact Or.inr (List.mem_cons_self _ _)
        · exact Or.inl hm2
      · exact Or.inr (List.mem_cons_of_mem _ hm)

theorem mem_splitWS_of_mem {c : Char} {s : Str} (hns : isWS c = false)
    (hm : c ∈ s) : ∃ W ∈ splitWS s, c ∈ W :=
  mem_splitWSAux_of_mem hns s [] (Or.inl hm)

theorem splitWSAux_words_shape :
    ∀ (s cur : Str), (∀ c ∈ cur, isWS c = false) →
      ∀ W ∈ splitWSAux s cur, W ≠ [] ∧ ∀ c ∈ W, isWS c = false := by
  intro s
  induction s with
  | nil =>
    intro cur hcur W hW
    by_cases hce : cur.isEmpty
    · simp [splitWSAux, hce] at hW
    · simp only [splitWSAux, hce, Bool.false_eq_true, if_false,
        List.mem_singleton] at hW
      subst hW
      refine ⟨?_, ?_⟩
      · intro he
        rw [List.isEmpty_iff] at hce
        exact hce (by simpa using congrArg List.reverse he)
      · intro c hc
        exact hcur c (by simpa using hc)
  | cons a t ih =>
    intro cur hcur W hW
    by_cases ha : isWS a
    · simp only [splitWSAux, ha, if_true] at hW
      by_cases hce : cur.isEmpty
      · rw [if_pos hce] at hW
        exact ih [] (by simp) W hW
      · rw [if_neg hce] at hW
        rcases List.mem_cons.mp hW with rfl | hW2
        · refine ⟨?_, ?_⟩
          · intro he
            rw [List.isEmpty_iff] at hce
            exact hce (by simpa using congrArg List.reverse he)
          · intro c hc
            exact hcur c (by simpa using hc)
        · exact ih [] (by simp) W hW2
    · simp only [splitWSAux, ha, Bool.false_eq_true, if_false] at hW
      refine ih (a :: cur) ?_ W hW
      intro c hc
      rcases List.mem_cons.mp hc with rfl | hc2
      · cases hq : isWS c with
        | false => rfl
        | true => exact absurd hq ha
      · exact hcur c hc2

theorem splitWS_words_shape {s : Str} :
    ∀ W ∈ splitWS s, W ≠ [] ∧ ∀ c ∈ W, isWS c = false :=
  splitWSAux_words_shape s [] (by simp)


theorem strip_delimiters_no_delim {l : Str} (h : FIELD_DELIMITER ∉ l) :
    strip_delimiters l = l := by
  induction l with
  | nil => rfl
  | cons a t ih =>
    have ha : a ≠ FIELD_DELIMITER := fun he => h (he ▸ List.mem_cons_self a t)
    show List.filter _ (a :: t) = _
    rw [List.filter_cons, if_pos (by simpa using ha)]
    rw [show List.filter (fun c => decide ¬(c = FIELD_DELIMITER)) t =
      strip_delimiters t from rfl]
    rw [ih (fun hm => h (List.mem_cons_of_mem _ hm))]

theorem strip_delimiters_head (t : Str) :
    strip_delimiters (FIELD_DELIMITER :: t) = strip_delimiters t := by
  show List.filter _ _ = _
  rw [List.filter_cons, if_neg (by simp)]
  rfl

theorem strip_delimiters_append (A B : Str) :
    strip_delimiters (A ++ B) = strip_delimiters A ++ strip_delimiters B := by
  simp [strip_delimiters]

theorem token_eq_delimited {w : Str} (h : is_field_name w = .ok true) :
    w = get_delimited_name (strip_delimiters w) ∧
      FIELD_DELIMITER ∉ strip_delimiters w := by
  obtain ⟨hcnt, hhead, hlast, -⟩ := (is_field_name_ok_true_iff w).mp h
  cases w with
  | nil => simp at hhead
  | cons c w' =>
    have hc : c = FIELD_DELIMITER := by
      simpa using hhead
    subst hc
    have hne : w' ≠ [] := by
      intro he
      subst he
      simp [List.count_cons] at hcnt
    cases w' with
    | nil => exact absurd rfl hne
    | cons d w2 =>
      rw [List.getLast?_cons_cons] at hlast
      have hdec := List.dropLast_append_getLast? FIELD_DELIMITER
        (show FIELD_DELIMITER ∈ (d :: w2).getLast? from hlast)
      have h1 : (d :: w2).count FIELD_DELIMITER =
          (d :: w2).dropLast.count FIELD_DELIMITER + 1 := by
        conv_lhs => rw [← hdec]
        rw [List.count_append]
        simp
      have h2 : (FIELD_DELIMITER :: (d :: w2)).count FIELD_DELIMITER =
          (d :: w2).count FIELD_DELIMITER + 1 := by
        simp [List.count_cons]
      have hcnt2 : (d :: w2).dropLast.count FIELD_DELIMITER = 0 := by
        omega
      have hnmem : FIELD_DELIMITER ∉ (d :: w2).dropLast :=
        count_zero_no_delim hcnt2
      have hstrip : strip_delimiters (FIELD_DELIMITER :: d :: w2) =
          (d :: w2).dropLast := by
        have hit : strip_delimiters
            (FIELD_DELIMITER :: ((d :: w2).dropLast ++ [FIELD_DELIMITER])) =
            (d :: w2).dropLast := by
          rw [strip_delimiters_head, strip_delimiters_append,
            strip_delimiters_no_delim hnmem]
          simp [strip_delimiters]
        rw [← hit, hdec]
      constructor
      · rw [hstrip, get_delimited_name]
        exact congrArg (FIELD_DELIMITER :: ·) hdec.symm
      · rw [hstrip]
        exact hnmem

theorem reserved_from_word {w : Str} (h1 : is_field_name w = .ok true)
    (h2 : is_reserved (strip_delimiters w) = true) :
    FieldSet.from_word w ≠ 0 := by
  obtain ⟨hw, -⟩ := token_eq_delimited h1
  have hex : ∃ r ∈ RESERVED_FIELD_NAMES, r = strip_delimiters w := by
    simpa [is_reserved, List.any_eq_true, beq_iff_eq] using h2
  obtain ⟨r, hr, hrm⟩ := hex
  rw [hw, ← hrm]
  simp only [RESERVED_FIELD_NAMES, List.mem_cons, List.mem_singleton] at hr
  rcases hr with rfl | rfl | rfl | rfl | rfl | rfl | rfl | rfl | rfl | rfl |
    rfl | rfl | rfl | rfl | rfl | rfl | h3
  · decide
  · decide
  · decide
  · decide
  · decide
  · decide
  · decide
  · decide
  · decide
  · decide
  · decide
  · decide
  · decide
  · decide
  · decide
  · decide
  · simp at h3

theorem from_word_facts {w : Str} (h : FieldSet.from_word w ≠ 0) :
    FIELD_DELIMITER ∈ w ∧ is_field_name w = .ok true ∧ w ≠ [] ∧
      (∀ c ∈ w, isWS c = false) := by
  by_cases h1 : w = "^id^".data
  · subst h1
    exact ⟨by decide, rfl, by decide, by decide⟩
  ·
    by_cases h2 : w = "^path^".data
    · subst h2
      exact ⟨by decide, rfl, by decide, by decide⟩
    ·
      by_cases h3 : w = "^parent^".data
      · subst h3
        exact ⟨by decide, rfl, by decide, by decide⟩
      ·
        by_cases h4 : w = "^track_number^".data
        · subst h4
          exact ⟨by decide, rfl, by decide, by decide⟩
        ·
          by_cases h5 : w = "^disc_number^".data
          · subst h5
            exact ⟨by decide, rfl, by decide, by decide⟩
          ·
            by_cases h6 : w = "^title^".data
            · subst h6
              exact ⟨by decide, rfl, by decide, by decide⟩
            ·
              by_cases h7 : w = "^artist^".data
              · subst h7
                exact ⟨by decide, rfl, by decide, by decide⟩
              ·
                by_cases h8 : w = "^album_artist^".data
                · subst h8
                  exact ⟨by decide, rfl, by decide, by decide⟩
                ·
                  by_cases h9 : w = "^year^".data
                  · subst h9
                    exact ⟨by decide, rfl, by decide, by decide⟩
                  ·
                    by_cases h10 : w = "^album^".data
                    · subst h10
                      exact ⟨by decide, rfl, by decide, by decide⟩
                    ·
                      by_cases h11 : w = "^artwork^".data
                      · subst h11
                        exact ⟨by decide, rfl, by decide, by decide⟩
                      ·
                        by_cases h12 : w = "^duration^".data
                        · subst h12
                          exact ⟨by decide, rfl, by decide, by decide⟩
                        ·
                          by_cases h13 : w = "^lyricist^".data
                          · subst h13
                            exact ⟨by decide, rfl, by decide, by decide⟩
                          ·
                            by_cases h14 : w = "^composer^".data
                            · subst h14
                              exact ⟨by decide, rfl, by decide, by decide⟩
                            ·
                              by_cases h15 : w = "^genre^".data
                              · subst h15
                                exact ⟨by decide, rfl, by decide, by decide⟩
                              ·
                                by_cases h16 : w = "^label^".data
                                · subst h16
                                  exact ⟨by decide, rfl, by decide, by decide⟩
                                · exfalso
                                  apply h
                                  simp only [FieldSet.from_word]
                                  rw [if_neg h1, if_neg h2, if_neg h3, if_neg h4, if_neg h5, if_neg h6, if_neg h7, if_neg h8, if_neg h9, if_neg h10, if_neg h11, if_neg h12, if_neg h13, if_neg h14, if_neg h15, if_neg h16]

theorem token_not_substring {W w : Str} (hW : is_field_name W = .ok true)
    (hw : is_field_name w = .ok true) (hne : W ≠ w) : occurs w W = false := by
  cases hq : occurs w W with
  | false => rfl
  | true =>
    exfalso
    obtain ⟨l, r, hWe⟩ := occurs_iff_append.mp hq
    obtain ⟨hcntW, hheadW, hlastW, -⟩ := (is_field_name_ok_true_iff W).mp hW
    obtain ⟨hcntw, hheadw, hlastw, -⟩ := (is_field_name_ok_true_iff w).mp hw
    have hsum : W.count FIELD_DELIMITER = l.count FIELD_DELIMITER +
        (w.count FIELD_DELIMITER + r.count FIELD_DELIMITER) := by
      rw [hWe]
      simp [List.count_append]
    have hl0 : l.count FIELD_DELIMITER = 0 := by omega
    have hr0 : r.count FIELD_DELIMITER = 0 := by omega
    have hl : l = [] := by
      cases l with
      | nil => rfl
      | cons a l2 =>
        exfalso
        have hh : W.head? = some a := by rw [hWe]; rfl
        rw [hheadW] at hh
        have ha : a = FIELD_DELIMITER := by
          simpa using hh.symm
        subst ha
        simp [List.count_cons] at hl0
    subst hl
    have hrnil : r = [] := by
      cases r with
      | nil => rfl
      | cons a r2 =>
        exfalso
        have hWg : W.getLast? = (a :: r2).getLast? := by
          rw [hWe]
          simp only [List.nil_append, List.getLast?_append]
          cases hg : (a :: r2).getLast? with
          | none => simp at hg
          | some x => simp [Option.or]
        rw [hlastW] at hWg
        have hm := mem_of_getLast_some hWg.symm
        have := List.count_pos_iff.mpr hm
        omega
    subst hrnil
    simp at hWe
    exact hne hWe

theorem replaceStr_self {pat : Str} (hpn : pat ≠ []) (v : Str) :
    replaceStr pat pat v = v := by
  cases pat with
  | nil => exact absurd rfl hpn
  | cons p ps =>
    have hpre : (p :: ps).isPrefixOf (p :: ps) = true := by
      simp
    rw [replaceStr_cons_pos hpn hpre v]
    simp [List.drop_length, replaceStr_nil]

theorem dropWhile_head_ws {t : Str} {d : Char} {t2 : Str}
    (h : t.dropWhile (fun x => !isWS x) = d :: t2) : isWS d = true := by
  induction t with
  | nil => simp at h
  | cons a t ih =>
    by_cases ha : (!isWS a) = true
    · rw [List.dropWhile_cons_of_pos (p := fun x => !isWS x) ha] at h
      exact ih h
    · rw [List.dropWhile_cons_of_neg (p := fun x => !isWS x) ha] at h
      cases hq : isWS a with
      | true =>
        injection h with h1 h2
        rw [← h1]
        exact hq
      | false => exact absurd (by simp [hq]) ha

theorem takeWhile_nonws {t : Str} :
    ∀ x ∈ t.takeWhile (fun c => !isWS c), isWS x = false := by
  intro x hx
  have h1 := List.mem_takeWhile_imp hx
  simpa using h1


theorem replace_token_words {pat v : Str} (hpn : pat ≠ [])
    (hpw : ∀ ch ∈ pat, isWS ch = false) :
    ∀ n (s : Str), s.length ≤ n →
      (∀ W ∈ splitWS s, occurs pat W = false ∨ W = pat) →
      ∀ W2 ∈ splitWS (replaceStr s pat v),
        W2 ∈ splitWS v ∨ (W2 ∈ splitWS s ∧ occurs pat W2 = false) := by
  intro n
  induction n with
  | zero =>
    intro s hlen hs W2 hW2
    have hnil : s = [] := List.length_eq_zero.mp (Nat.le_zero.mp hlen)
    subst hnil
    simp [splitWS, splitWSAux, replaceStr_nil] at hW2
  | succ n ih =>
    intro s hlen hs W2 hW2
    cases s with
    | nil => simp [splitWS, splitWSAux, replaceStr_nil] at hW2
    | cons c t =>
      by_cases hcw : isWS c = true
      · have hsplitr : splitWS (c :: t) = splitWS t := by
          rw [show (c :: t) = [] ++ c :: t from rfl, splitWS_append_ws hcw]
          rfl
        rw [show (c :: t) = [] ++ c :: t from rfl,
          replaceStr_append_ws hpn hpw hcw [] t v] at hW2
        rw [show replaceStr [] pat v ++ c :: replaceStr t pat v =
          [] ++ c :: replaceStr t pat v from rfl,
          splitWS_append_ws hcw] at hW2
        have hW2t : W2 ∈ splitWS (replaceStr t pat v) := by
          simpa [splitWS, splitWSAux] using hW2
        have hst : ∀ W ∈ splitWS t, occurs pat W = false ∨ W = pat := by
          intro W hW
          refine hs W ?_
          rw [hsplitr]
          exact hW
        have hlt : t.length ≤ n := by
          simp only [List.length_cons] at hlen
          omega
        rcases ih t hlt hst W2 hW2t with hv | ⟨hm, ho⟩
        · exact Or.inl hv
        · refine Or.inr ⟨?_, ho⟩
          rw [hsplitr]
          exact hm
      · have hcw2 : isWS c = false := by
          cases hq : isWS c with
          | false => rfl
          | true => exact absurd hq hcw
        have hWdef : (c :: t) =
            (c :: t.takeWhile (fun x => !isWS x)) ++
              t.dropWhile (fun x => !isWS x) := by
          rw [List.cons_append]
          rw [List.takeWhile_append_dropWhile]
        have hWne : (c :: t.takeWhile (fun x => !isWS x)) ≠ [] := by
          simp
        have hWnws : ∀ x ∈ c :: t.takeWhile (fun x => !isWS x),
            isWS x = false := by
          intro x hx
          rcases List.mem_cons.mp hx with rfl | hx2
          · exact hcw2
          · exact takeWhile_nonws x hx2
        have hWsplit : splitWS (c :: t.takeWhile (fun x => !isWS x)) =
            [c :: t.takeWhile (fun x => !isWS x)] :=
          splitWS_word hWne hWnws
        cases hrest : t.dropWhile (fun x => !isWS x) with
        | nil =>
          have hone : splitWS (c :: t) =
              [c :: t.takeWhile (fun x => !isWS x)] := by
            conv_lhs => rw [hWdef, hrest]
            rw [List.append_nil]
            exact hWsplit
          have hword := hs (c :: t.takeWhile (fun x => !isWS x))
            (by rw [hone]; exact List.mem_cons_self _ _)
          have hwhole : (c :: t) = c :: t.takeWhile (fun x => !isWS x) := by
            conv_lhs => rw [hWdef, hrest]
            rw [List.append_nil]
          rcases hword with ho | he
          · rw [hwhole, replaceStr_no_occurs ho] at hW2
            rw [hWsplit] at hW2
            have : W2 = c :: t.takeWhile (fun x => !isWS x) := by
              simpa using hW2
            subst this
            exact Or.inr ⟨by rw [hone]; exact List.mem_cons_self _ _, ho⟩
          · rw [hwhole, he, replaceStr_self hpn v] at hW2
            exact Or.inl hW2
        | cons d t2 =>
          have hd : isWS d = true := dropWhile_head_ws hrest
          have hsplits : splitWS (c :: t) =
              (c :: t.takeWhile (fun x => !isWS x)) :: splitWS t2 := by
            conv_lhs => rw [hWdef, hrest]
            rw [splitWS_append_ws hd, hWsplit]
            rfl
          have hreps : replaceStr (c :: t) pat v =
              replaceStr (c :: t.takeWhile (fun x => !isWS x)) pat v ++
                d :: replaceStr t2 pat v := by
            conv_lhs => rw [hWdef, hrest]
            exact replaceStr_append_ws hpn hpw hd _ t2 v
          rw [hreps, splitWS_append_ws hd] at hW2
          rcases List.mem_append.mp hW2 with hW2a | hW2b
          · have hword := hs (c :: t.takeWhile (fun x => !isWS x))
              (by rw [hsplits]; exact List.mem_cons_self _ _)
            rcases hword with ho | he
            · rw [replaceStr_no_occurs ho, hWsplit] at hW2a
              have : W2 = c :: t.takeWhile (fun x => !isWS x) := by
                simpa using hW2a
              subst this
              exact Or.inr ⟨by rw [hsplits]; exact List.mem_cons_self _ _, ho⟩
            · rw [he, replaceStr_self hpn v] at hW2a
              exact Or.inl hW2a
          · have hst2 : ∀ W ∈ splitWS t2, occurs pat W = false ∨ W = pat := by
              intro W hW
              refine hs W ?_
              rw [hsplits]
              exact List.mem_cons_of_mem _ hW
            have hlt2 : t2.length ≤ n := by
              have hlen2 : (c :: t).length =
                  (c :: t.takeWhile (fun x => !isWS x)).length +
                    (d :: t2).length := by
                conv_lhs => rw [hWdef, hrest]
                rw [List.length_append]
              simp only [List.length_cons] at hlen hlen2
              omega
            rcases ih t2 hlt2 hst2 W2 hW2b with hv | ⟨hm, ho⟩
            · exact Or.inl hv
            · refine Or.inr ⟨?_, ho⟩
              rw [hsplits]
              exact List.mem_cons_of_mem _ hm


theorem fmapGet_mem {k : FieldSet} {l : List (FieldSet × Str)} {v : Str}
    (h : fmapGet k l = some v) : (k, v) ∈ l := by
  induction l with
  | nil => simp [fmapGet] at h
  | cons p t ih =>
    by_cases hk : (k == p.1) = true
    · have he : k = p.1 := by simpa using hk
      simp only [fmapGet, hk, if_true, Option.some.injEq] at h
      subst he
      subst h
      exact List.mem_cons_self _ _
    · simp only [fmapGet, hk, Bool.false_eq_true, if_false] at h
      exact List.mem_cons_of_mem _ (ih h)

theorem splitWSAux_chars_subset :
    ∀ (s cur W : Str), W ∈ splitWSAux s cur → ∀ c ∈ W, c ∈ s ∨ c ∈ cur := by
  intro s
  induction s with
  | nil =>
    intro cur W hW c hc
    by_cases hce : cur.isEmpty
    · simp [splitWSAux, hce] at hW
    · simp only [splitWSAux, hce, Bool.false_eq_true, if_false,
        List.mem_singleton] at hW
      subst hW
      exact Or.inr (by simpa using hc)
  | cons a t ih =>
    intro cur W hW c hc
    by_cases ha : isWS a
    · simp only [splitWSAux, ha, if_true] at hW
      by_cases hce : cur.isEmpty
      · rw [if_pos hce] at hW
        rcases ih [] W hW c hc with h1 | h1
        · exact Or.inl (List.mem_cons_of_mem _ h1)
        · simp at h1
      · rw [if_neg hce] at hW
        rcases List.mem_cons.mp hW with rfl | hW2
        · exact Or.inr (by simpa using hc)
        · rcases ih [] W hW2 c hc with h1 | h1
          · exact Or.inl (List.mem_cons_of_mem _ h1)
          · simp at h1
    · simp only [splitWSAux, ha, Bool.false_eq_true, if_false] at hW
      rcases ih (a :: cur) W hW c hc with h1 | h1
      · exact Or.inl (List.mem_cons_of_mem _ h1)
      · rcases List.mem_cons.mp h1 with rfl | h2
        · exact Or.inl (List.mem_cons_self _ _)
        · exact Or.inr h2

theorem splitWS_chars_subset {s W : Str} (hW : W ∈ splitWS s) :
    ∀ c ∈ W, c ∈ s := by
  intro c hc
  rcases splitWSAux_chars_subset s [] W hW c hc with h | h
  · exact h
  · simp at h

theorem subst_pass_clean {fieldSong : List (FieldSet × Str)}
    (hfs : ∀ p ∈ fieldSong, FIELD_DELIMITER ∉ p.2) :
    ∀ (ws : List Str) (ann out : Str),
      (∀ w ∈ ws, w ≠ [] ∧ ∀ c ∈ w, isWS c = false) →
      (∀ W ∈ splitWS ann, FIELD_DELIMITER ∉ W ∨
        (W ∈ ws ∧ is_field_name W = .ok true ∧
          is_reserved (strip_delimiters W) = true)) →
      ScriptCache.subst_pass fieldSong ws ann = .ok out →
      ∀ W ∈ splitWS out, FIELD_DELIMITER ∉ W := by
  intro ws
  induction ws with
  | nil =>
    intro ann out hws hinv h W hW
    simp only [ScriptCache.subst_pass, Except.ok.injEq] at h
    subst h
    rcases hinv W hW with hfree | ⟨hmem, -⟩
    · exact hfree
    · simp at hmem
  | cons w ws ih =>
    intro ann out hws hinv h W hW
    simp only [ScriptCache.subst_pass] at h
    by_cases hf : FieldSet.from_word w ≠ 0
    · rw [if_pos hf] at h
      cases hg : fmapGet (FieldSet.from_word w) fieldSong with
      | none => rw [hg] at h; simp at h
      | some v =>
        rw [hg] at h
        dsimp only at h
        obtain ⟨hd, hfn, hne, hnws⟩ := from_word_facts hf
        have hvm : (FieldSet.from_word w, v) ∈ fieldSong := fmapGet_mem hg
        have hvfree : FIELD_DELIMITER ∉ v := hfs _ hvm
        refine ih (replaceStr ann w v) out
          (fun x hx => hws x (List.mem_cons_of_mem _ hx)) ?_ h W hW
        intro W2 hW2
        have hsann : ∀ X ∈ splitWS ann, occurs w X = false ∨ X = w := by
          intro X hX
          rcases hinv X hX with hfree | ⟨hmem, hok, hres⟩
          · left
            cases hq : occurs w X with
            | false => rfl
            | true =>
              exfalso
              exact hfree (occurs_subset hq FIELD_DELIMITER hd)
          · by_cases hXw : X = w
            · exact Or.inr hXw
            · exact Or.inl (token_not_substring hok hfn hXw)
        rcases replace_token_words hne hnws ann.length ann (Nat.le_refl _)
          hsann W2 hW2 with hv2 | ⟨hm2, ho2⟩
        · left
          intro hFD
          exact hvfree (splitWS_chars_subset hv2 FIELD_DELIMITER hFD)
        · rcases hinv W2 hm2 with hfree | ⟨hmem, hok, hres⟩
          · exact Or.inl hfree
          · rcases List.mem_cons.mp hmem with rfl | hmem2
            · rw [occurs_self hne] at ho2
              exact absurd ho2 (by simp)
            · exact Or.inr ⟨hmem2, hok, hres⟩
    · rw [if_neg hf] at h
      refine ih ann out (fun x hx => hws x (List.mem_cons_of_mem _ hx))
        ?_ h W hW
      intro W2 hW2
      rcases hinv W2 hW2 with hfree | ⟨hmem, hok, hres⟩
      · exact Or.inl hfree
      · rcases List.mem_cons.mp hmem with rfl | hmem2
        · exact absurd (reserved_from_word hok hres) hf
        · exact Or.inr ⟨hmem2, hok, hres⟩


theorem sinsert_mem {x s : Str} {l : List Str} (h : x ∈ sinsert s l) :
    x = s ∨ x ∈ l := by
  induction l with
  | nil => simpa [sinsert] using h
  | cons a t ih =>
    by_cases h1 : strLt s a = true
    · simp only [sinsert, h1, if_true] at h
      rcases List.mem_cons.mp h with rfl | h2
      · exact Or.inl rfl
      · exact Or.inr h2
    · by_cases h2 : (s == a) = true
      · simp only [sinsert, h1, if_false, h2, if_true] at h
        exact Or.inr h
      · simp only [sinsert, h1, if_false, h2] at h
        rcases List.mem_cons.mp h with rfl | h3
        · exact Or.inr (List.mem_cons_self _ _)
        · rcases ih h3 with h4 | h4
          · exact Or.inl h4
          · exact Or.inr (List.mem_cons_of_mem _ h4)

theorem binsertNew_mem {p : FieldSet × List Str} {k : FieldSet}
    {v : List Str} {m : Buckets} (h : p ∈ binsertNew k v m) :
    p = (k, v) ∨ p ∈ m := by
  induction m with
  | nil => simpa [binsertNew] using h
  | cons q t ih =>
    by_cases h1 : k < q.1
    · simp only [binsertNew, h1, if_true] at h
      rcases List.mem_cons.mp h with rfl | h2
      · exact Or.inl rfl
      · exact Or.inr h2
    · by_cases h2 : (k == q.1) = true
      · simp only [binsertNew, h1, if_false, h2, if_true] at h
        rcases List.mem_cons.mp h with rfl | h3
        · exact Or.inl rfl
        · exact Or.inr (List.mem_cons_of_mem _ h3)
      · simp only [binsertNew, h1, if_false, h2] at h
        rcases List.mem_cons.mp h with rfl | h3
        · exact Or.inr (List.mem_cons_self _ _)
        · rcases ih h3 with h4 | h4
          · exact Or.inl h4
          · exact Or.inr (List.mem_cons_of_mem _ h4)

theorem bucket_insert_strings {q : FieldSet × List Str} {k : FieldSet}
    {frag : Str} {m : Buckets} (hq : q ∈ bucket_insert k frag m) :
    ∀ x ∈ q.2, x = frag ∨ ∃ q0 ∈ m, x ∈ q0.2 := by
  intro x hx
  rw [bucket_insert] at hq
  cases hb : bget? k m with
  | some ts =>
    rw [hb] at hq
    dsimp only at hq
    rw [List.mem_map] at hq
    obtain ⟨p, hp, heq⟩ := hq
    by_cases hpk : (p.1 == k) = true
    · rw [if_pos hpk] at heq
      subst heq
      rcases sinsert_mem hx with rfl | hx2
      · exact Or.inl rfl
      · exact Or.inr ⟨p, hp, hx2⟩
    · rw [if_neg hpk] at heq
      subst heq
      exact Or.inr ⟨p, hp, hx⟩
  | none =>
    rw [hb] at hq
    dsimp only at hq
    rcases binsertNew_mem hq with rfl | h2
    · rcases List.mem_singleton.mp hx with rfl
      exact Or.inl rfl
    · exact Or.inr ⟨q, h2, hx⟩

theorem frag_fold_strings (frs : List (Str × Bool)) :
    ∀ (acc : Buckets) (q : FieldSet × List Str),
      q ∈ frs.foldl
        (fun acc fr => bucket_insert (FieldSet.ofFragment fr.1) fr.1 acc)
        acc →
      ∀ x ∈ q.2, (∃ q0 ∈ acc, x ∈ q0.2) ∨ ∃ fr ∈ frs, x = fr.1 := by
  induction frs with
  | nil =>
    intro acc q hq x hx
    exact Or.inl ⟨q, hq, hx⟩
  | cons fr frs ih =>
    intro acc q hq x hx
    simp only [List.foldl_cons] at hq
    rcases ih _ q hq x hx with ⟨q0, hq0, hx0⟩ | ⟨fr2, hfr2, hxe⟩
    · rcases bucket_insert_strings hq0 x hx0 with rfl | ⟨q1, hq1, hx1⟩
      · exact Or.inr ⟨fr, List.mem_cons_self _ _, rfl⟩
      · exact Or.inl ⟨q1, hq1, hx1⟩
    · exact Or.inr ⟨fr2, List.mem_cons_of_mem _ hfr2, hxe⟩

theorem walk_map_strings (m : AList Field) :
    ∀ (acc : Buckets) (q : FieldSet × List Str), q ∈ walk_map acc m →
      ∀ x ∈ q.2, (∃ q0 ∈ acc, x ∈ q0.2) ∨
        ∃ nf ∈ m, ∃ fr ∈ nf.2.fragments, x = fr.1 := by
  induction m with
  | nil =>
    intro acc q hq x hx
    exact Or.inl ⟨q, hq, hx⟩
  | cons nf m ih =>
    intro acc q hq x hx
    rw [walk_map, List.foldl_cons] at hq
    rw [show List.foldl _ _ m = walk_map (if !nf.2.whole then acc
      else nf.2.fragments.foldl
        (fun acc fr => bucket_insert (FieldSet.ofFragment fr.1) fr.1 acc)
        acc) m from rfl] at hq
    rcases ih _ q hq x hx with ⟨q0, hq0, hx0⟩ | ⟨nf2, hnf2, hfr2⟩
    · by_cases hw : (!nf.2.whole) = true
      · rw [if_pos hw] at hq0
        exact Or.inl ⟨q0, hq0, hx0⟩
      · rw [if_neg hw] at hq0
        rcases frag_fold_strings nf.2.fragments acc q0 hq0 x hx0 with
          ⟨q1, hq1, hx1⟩ | ⟨fr, hfr, hxe⟩
        · exact Or.inl ⟨q1, hq1, hx1⟩
        · exact Or.inr ⟨nf, List.mem_cons_self _ _, fr, hfr, hxe⟩
    · obtain ⟨fr, hfr, hxe⟩ := hfr2
      exact Or.inr ⟨nf2, List.mem_cons_of_mem _ hnf2, fr, hfr, hxe⟩

theorem subset_scan_mem {M : Buckets} {set : FieldSet} {start : Nat} :
    ∀ (l : List (FieldSet × List Str)) (idx : Nat)
      (found : Option (FieldSet × Str)) (o : Oracle)
      (res : Option (FieldSet × Str)) (o2 : Oracle),
      (∀ p ∈ l, p ∈ M) →
      (∀ g s, found = some (g, s) → ∃ q ∈ M, s ∈ q.2) →
      ScriptCache.subset_scan set start l idx found o = .ok (res, o2) →
      ∀ g s, res = some (g, s) → ∃ q ∈ M, s ∈ q.2 := by
  intro l
  induction l with
  | nil =>
    intro idx found o res o2 hsub hfound h g s hres
    simp only [ScriptCache.subset_scan, Except.ok.injEq, Prod.mk.injEq] at h
    exact hfound g s (h.1 ▸ hres)
  | cons p t ih =>
    intro idx found o res o2 hsub hfound h g s hres
    obtain ⟨tag, tset⟩ := p
    simp only [ScriptCache.subset_scan] at h
    by_cases h1 : (!FieldSet.fscontains set tag) = true
    · rw [if_pos h1] at h
      exact ih (idx + 1) found o res o2
        (fun p hp => hsub p (List.mem_cons_of_mem _ hp)) hfound h g s hres
    · rw [if_neg h1] at h
      by_cases h2 : idx ≥ start
      · rw [if_pos h2] at h
        cases ho : o.nextNat with
        | mk r o3 =>
          rw [ho] at h
          dsimp only at h
          by_cases h3 : (tset.length == 0) = true
          · rw [if_pos h3] at h
            simp at h
          · rw [if_neg h3] at h
            cases hget : tset.get? (r % tset.length) with
            | none => rw [hget] at h; simp at h
            | some s0 =>
              rw [hget] at h
              dsimp only at h
              simp only [Except.ok.injEq, Prod.mk.injEq] at h
              rw [← h.1] at hres
              obtain ⟨-, rfl⟩ : g = tag ∧ s0 = s := by
                have := Option.some.inj hres
                exact ⟨congrArg Prod.fst this |>.symm,
                  congrArg Prod.snd this⟩
              exact ⟨(tag, tset), hsub _ (List.mem_cons_self _ _),
                List.get?_mem hget⟩
      · rw [if_neg h2] at h
        by_cases h4 : found.isNone = true
        · rw [if_pos h4] at h
          cases ho : o.nextNat with
          | mk r o3 =>
            rw [ho] at h
            dsimp only at h
            by_cases h3 : (tset.length == 0) = true
            · rw [if_pos h3] at h
              simp at h
            · rw [if_neg h3] at h
              cases hget : tset.get? (r % tset.length) with
              | none => rw [hget] at h; simp at h
              | some s0 =>
                rw [hget] at h
                dsimp only at h
                refine ih (idx + 1) (some (tag, s0)) o3 res o2
                  (fun p hp => hsub p (List.mem_cons_of_mem _ hp)) ?_ h g s hres
                intro g2 s2 hf2
                have hinj := Option.some.inj hf2
                refine ⟨(tag, tset), hsub _ (List.mem_cons_self _ _), ?_⟩
                have : s0 = s2 := congrArg Prod.snd hinj
                rw [← this]
                exact List.get?_mem hget
        · rw [if_neg h4] at h
          exact ih (idx + 1) found o res o2
            (fun p hp => hsub p (List.mem_cons_of_mem _ hp)) hfound h g s hres

theorem get_subset_tags_mem {map : Buckets} {set : FieldSet} {o : Oracle}
    {res : Option (FieldSet × Str)} {o2 : Oracle}
    (h : ScriptCache.get_subset_tags map set o = .ok (res, o2)) :
    ∀ g s, res = some (g, s) → ∃ q ∈ map, s ∈ q.2 := by
  rw [ScriptCache.get_subset_tags] at h
  cases ho : o.nextNat with
  | mk r o3 =>
    rw [ho] at h
    dsimp only at h
    by_cases h1 : (map.length == 0) = true
    · rw [if_pos h1] at h
      simp at h
    · rw [if_neg h1] at h
      exact subset_scan_mem map 0 none o3 res o2 (fun p hp => hp)
        (fun g s hf => by simp at hf) h

theorem ws_space : isWS ' ' = true := rfl

theorem tag_loop_words {map : Buckets} :
    ∀ (fuel : Nat) (need : FieldSet) (ann : Str) (o : Oracle) (out : Str)
      (o2 : Oracle),
      ScriptCache.tag_loop map fuel need ann o = .ok (out, o2) →
      ∀ W ∈ splitWS out,
        W ∈ splitWS ann ∨ ∃ q ∈ map, ∃ x ∈ q.2, W ∈ splitWS x := by
  intro fuel
  induction fuel with
  | zero =>
    intro need ann o out o2 h W hW
    rw [ScriptCache.tag_loop.eq_def] at h
    dsimp only at h
    by_cases hn : (need == 0) = true
    · rw [if_pos hn] at h
      simp only [Except.ok.injEq, Prod.mk.injEq] at h
      rw [← h.1] at hW
      exact Or.inl hW
    · rw [if_neg hn] at h
      simp at h
  | succ f ih =>
    intro need ann o out o2 h W hW
    rw [ScriptCache.tag_loop.eq_def] at h
    dsimp only at h
    by_cases hn : (need == 0) = true
    · rw [if_pos hn] at h
      simp only [Except.ok.injEq, Prod.mk.injEq] at h
      rw [← h.1] at hW
      exact Or.inl hW
    · rw [if_neg hn] at h
      simp only [bind, Except.bind] at h
      cases hst : ScriptCache.get_subset_tags map need o with
      | error e => rw [hst] at h; simp at h
      | ok p =>
        rw [hst] at h
        obtain ⟨res, o3⟩ := p
        dsimp only at h
        cases res with
        | none =>
          dsimp only at h
          simp only [Except.ok.injEq, Prod.mk.injEq] at h
          rw [← h.1] at hW
          exact Or.inl hW
        | some pr =>
          obtain ⟨fs, str⟩ := pr
          dsimp only at h
          rcases ih _ _ _ _ _ h W hW with hm | hm
          · rw [splitWS_append_ws ws_space] at hm
            rcases List.mem_append.mp hm with hm2 | hm2
            · exact Or.inl hm2
            · obtain ⟨q, hq, hs2⟩ := get_subset_tags_mem hst fs str rfl
              exact Or.inr ⟨q, hq, str, hs2, hm2⟩
          · exact Or.inr hm


theorem fromOpts_past (opts : AnnouncementOptions) :
    (ScriptCache.fromOpts opts).past =
      walk_map (walk_map [] opts.past) opts.neutral := by
  rw [ScriptCache.fromOpts]

theorem fromOpts_present (opts : AnnouncementOptions) :
    (ScriptCache.fromOpts opts).present =
      walk_map (walk_map [] opts.present) opts.neutral := by
  rw [ScriptCache.fromOpts]

/-- C2 (corrected): when the song's extracted field texts are free of the
delimiter character, a successful render contains no delimiter at all — in
particular no unsubstituted delimited token (every reserved token drawn from
the buckets has been replaced through the song's extracted field map).
Without that proviso the claim fails: a field value that itself looks like a
delimited token survives into the output verbatim. -/
theorem C2_substitution_clean (u : UserAnnouncementOptions) (d : Nat)
    (opts : AnnouncementOptions) (song : Song) (present ssml : Bool)
    (fuel : Nat) (o : Oracle) (t : Str)
    (hok : AnnouncementOptions.from_user u d = .ok opts)
    (hsong : ∀ p ∈ (extract_map_and_fieldset song ssml).1,
      FIELD_DELIMITER ∉ p.2)
    (hr : ScriptCache.get_announcement (ScriptCache.fromOpts opts) song
      present ssml fuel o = .ok (some t)) :
    FIELD_DELIMITER ∉ t := by
  obtain ⟨⟨hMRn, hMRp, hMRq⟩, -⟩ := from_user_resolved u d opts hok
  have hbuckets : ∀ q ∈ (if present = true then
      (ScriptCache.fromOpts opts).present
      else (ScriptCache.fromOpts opts).past),
      ∀ x ∈ q.2, ∀ W ∈ splitWS x, ResolvedWord W := by
    intro q hq x hx W hW
    by_cases hp : present = true
    · rw [if_pos hp, fromOpts_present] at hq
      rcases walk_map_strings opts.neutral _ q hq x hx with
        ⟨q0, hq0, hx0⟩ | ⟨nf, hnf, fr, hfr, rfl⟩
      · rcases walk_map_strings opts.present _ q0 hq0 x hx0 with
          ⟨q1, hq1, -⟩ | ⟨nf, hnf, fr, hfr, rfl⟩
        · simp at hq1
        · exact hMRq nf hnf fr hfr W hW
      · exact hMRn nf hnf fr hfr W hW
    · rw [if_neg hp, fromOpts_past] at hq
      rcases walk_map_strings opts.neutral _ q hq x hx with
        ⟨q0, hq0, hx0⟩ | ⟨nf, hnf, fr, hfr, rfl⟩
      · rcases walk_map_strings opts.past _ q0 hq0 x hx0 with
          ⟨q1, hq1, -⟩ | ⟨nf, hnf, fr, hfr, rfl⟩
        · simp at hq1
        · exact hMRp nf hnf fr hfr W hW
      · exact hMRn nf hnf fr hfr W hW
  rcases hE : extract_map_and_fieldset song ssml with ⟨fieldSong, have0⟩
  simp only [ScriptCache.get_announcement, bind] at hr
  rw [hE] at hr
  dsimp only at hr
  rcases hCF : ScriptCache.coin_flips FieldSet.iter_flags
      (FieldSet.inter (FieldSet.fsdiff have0
        (ScriptCache.fromOpts opts).excludeFS)
        (ScriptCache.fromOpts opts).optionalFS) o with ⟨fOpt, o1⟩
  rw [hCF] at hr
  dsimp only at hr
  obtain ⟨p2, htag, hr⟩ := except_bind_ok_inv hr
  obtain ⟨ann0, oX⟩ := p2
  dsimp only at hr
  obtain ⟨ann2, hsp, hr⟩ := except_bind_ok_inv hr
  simp only [pure, Except.pure, Except.ok.injEq] at hr
  have ht : ann2 = t := by
    by_cases he : ann2.isEmpty
    · rw [if_pos he] at hr
      simp at hr
    · rw [if_neg he] at hr
      exact Option.some.inj hr
  subst ht
  rw [ScriptCache.get_tag_announcement] at htag
  intro hFD
  obtain ⟨W, hWmem, hWFD⟩ := mem_splitWS_of_mem (by decide) hFD
  have hsong2 : ∀ p ∈ fieldSong, FIELD_DELIMITER ∉ p.2 := by
    intro p hp
    refine hsong p ?_
    rw [hE]
    exact hp
  refine subst_pass_clean hsong2 (splitWS (trimStr ann0)) (trimStr ann0) ann2
    (fun w hw => splitWS_words_shape w hw) ?_ hsp W hWmem hWFD
  intro W2 hW2
  rw [splitWS_trim] at hW2
  rcases tag_loop_words fuel _ [] o1 ann0 oX htag W2 hW2 with
    hm | ⟨q, hq, x, hx, hWx⟩
  · simp [splitWS, splitWSAux] at hm
  · have hres := hbuckets q hq x hx W2 hWx
    rcases hres with hok2 | ⟨hok2, hres2⟩
    · left
      exact count_zero_no_delim ((is_field_name_ok_false_iff W2).mp hok2)
    · right
      refine ⟨?_, hok2, hres2⟩
      rw [splitWS_trim]
      exact hW2


/-- C2 counterexample: a compiled cache whose single whole field is the
reserved token `^title^`, rendered for a song whose *title text is itself*
`^artist^`: the render succeeds and returns `^artist^` — a delimited token
the claim says can never appear unsubstituted — while the song's artist
field is empty. -/
theorem C2_counterexample :
    AnnouncementOptions.from_user
      ⟨[⟨"u".data, true, ["^title^".data]⟩], none, none,
        some ⟨.Exclude, .Exclude, .Required, .Exclude, .Exclude, .Exclude,
          .Exclude, .Exclude, .Exclude, .Exclude, .Exclude, .Exclude⟩⟩ 5 =
      .ok ⟨[("u".data, Field.mk "^u^".data true [("^title^".data, false)])],
        [("u".data, Field.mk "^u^".data true [("^title^".data, false)])],
        [("u".data, Field.mk "^u^".data true [("^title^".data, false)])],
        [],
        ⟨.Exclude, .Exclude, .Required, .Exclude, .Exclude, .Exclude,
          .Exclude, .Exclude, .Exclude, .Exclude, .Exclude, .Exclude⟩, []⟩ ∧
    ScriptCache.get_announcement
      (ScriptCache.fromOpts ⟨[("u".data, Field.mk "^u^".data true [("^title^".data, false)])],
        [("u".data, Field.mk "^u^".data true [("^title^".data, false)])],
        [("u".data, Field.mk "^u^".data true [("^title^".data, false)])],
        [],
        ⟨.Exclude, .Exclude, .Required, .Exclude, .Exclude, .Exclude,
          .Exclude, .Exclude, .Exclude, .Exclude, .Exclude, .Exclude⟩, []⟩)
      { title := some "^artist^".data } false false 10 ⟨[], []⟩ =
      .ok (some "^artist^".data) ∧
    is_field_name "^artist^".data = .ok true ∧
    is_reserved (strip_delimiters "^artist^".data) = true ∧
    ({ title := some "^artist^".data } : Song).artist = none :=
  ⟨rfl, rfl, rfl, rfl, rfl⟩

/-- C2 witness: the substitution-cleanliness theorem applied to the same
compiled cache and a song whose title is the plain text `x`. -/
theorem C2_witness : FIELD_DELIMITER ∉ "x".data :=
  C2_substitution_clean
    ⟨[⟨"u".data, true, ["^title^".data]⟩], none, none,
      some ⟨.Exclude, .Exclude, .Required, .Exclude, .Exclude, .Exclude,
        .Exclude, .Exclude, .Exclude, .Exclude, .Exclude, .Exclude⟩⟩ 5
    ⟨[("u".data, Field.mk "^u^".data true [("^title^".data, false)])],
        [("u".data, Field.mk "^u^".data true [("^title^".data, false)])],
        [("u".data, Field.mk "^u^".data true [("^title^".data, false)])],
        [],
        ⟨.Exclude, .Exclude, .Required, .Exclude, .Exclude, .Exclude,
          .Exclude, .Exclude, .Exclude, .Exclude, .Exclude, .Exclude⟩, []⟩
    { title := some "x".data } false false 10 ⟨[], []⟩ "x".data
    rfl (by decide) rfl


/-! ## Claim C4 -/

theorem byteLen_cons (c : Char) (t : Str) :
    byteLen (c :: t) = c.utf8Size + byteLen t := by
  simp [byteLen]

theorem byteLen_append (a b : Str) :
    byteLen (a ++ b) = byteLen a + byteLen b := by
  simp [byteLen]

theorem delimited_ok {z : Str} (h1 : FIELD_DELIMITER ∉ z)
    (h2 : byteLen z = z.length) :
    is_field_name (get_delimited_name z) = .ok true := by
  rw [is_field_name_ok_true_iff]
  have hz0 : z.count FIELD_DELIMITER = 0 := by
    cases hq : z.count FIELD_DELIMITER with
    | zero => rfl
    | succ k =>
      exfalso
      exact h1 (List.count_pos_iff.mp (by omega))
  refine ⟨?_, rfl, ?_, ?_⟩
  · show (FIELD_DELIMITER :: (z ++ [FIELD_DELIMITER])).count FIELD_DELIMITER = 2
    simp [List.count_cons, List.count_append, hz0]
  · have hgen : ∀ (l : Str),
        (l ++ [FIELD_DELIMITER]).getLast? = some FIELD_DELIMITER := by
      intro l
      simp [List.getLast?_append]
    exact hgen (FIELD_DELIMITER :: z)
  · show byteLen (FIELD_DELIMITER :: (z ++ [FIELD_DELIMITER])) =
      (FIELD_DELIMITER :: (z ++ [FIELD_DELIMITER])).length
    simp only [byteLen, List.map_cons, List.map_append, List.sum_cons,
      List.sum_append, List.length_cons, List.length_append,
      List.map_nil, List.sum_nil, List.length_nil]
    simp only [byteLen] at h2
    have h3 : FIELD_DELIMITER.utf8Size = 1 := rfl
    simp only [h3, h2]
    omega

theorem strip_delimited {z : Str} (h1 : FIELD_DELIMITER ∉ z) :
    strip_delimiters (get_delimited_name z) = z := by
  rw [get_delimited_name, show FIELD_DELIMITER :: z ++ [FIELD_DELIMITER] =
    FIELD_DELIMITER :: (z ++ [FIELD_DELIMITER]) from rfl,
    strip_delimiters_head, strip_delimiters_append,
    strip_delimiters_no_delim h1]
  simp [strip_delimiters]

theorem delimited_inj {a b : Str}
    (h : get_delimited_name a = get_delimited_name b) : a = b := by
  simp only [get_delimited_name] at h
  injection h with h1 h2
  exact List.append_cancel_right h2

theorem occurs_token_eq {a b : Str} (ha : is_field_name a = .ok true)
    (hb : is_field_name b = .ok true) (h : occurs a b = true) : a = b := by
  by_contra hne
  rw [token_not_substring hb ha (fun he => hne he.symm)] at h
  exact Bool.false_ne_true h

theorem minsert_ne_nil (k : Str) (v : α) (m : AList α) :
    minsert k v m ≠ [] := by
  cases m with
  | nil => simp [minsert]
  | cons p t =>
    by_cases h1 : strLt k p.1 = true
    · simp [minsert, h1]
    · by_cases h2 : (k == p.1) = true
      · simp [minsert, h1, h2]
      · simp [minsert, h1, h2]

theorem mem_foldl_minsert {l : List Str} :
    ∀ {s0 : AList Bool} {fr : Str × Bool},
      fr ∈ l.foldl (fun s f => minsert f false s) s0 → fr.1 ∈ l ∨ fr ∈ s0 := by
  induction l with
  | nil =>
    intro s0 fr h
    exact Or.inr h
  | cons f t ih =>
    intro s0 fr h
    simp only [List.foldl_cons] at h
    rcases ih h with h1 | h1
    · exact Or.inl (List.mem_cons_of_mem _ h1)
    · rcases mem_minsert h1 with rfl | h2
      · exact Or.inl (List.mem_cons_self _ _)
      · exact Or.inr h2

theorem foldl_minsert_ne_nil_state {l : List Str} :
    ∀ {s0 : AList Bool}, s0 ≠ [] →
      l.foldl (fun s f => minsert f false s) s0 ≠ [] := by
  induction l with
  | nil =>
    intro s0 h
    exact h
  | cons f t ih =>
    intro s0 h
    simp only [List.foldl_cons]
    exact ih (minsert_ne_nil _ _ _)

theorem foldl_minsert_ne_nil {l : List Str} (h : l ≠ []) (s0 : AList Bool) :
    l.foldl (fun s f => minsert f false s) s0 ≠ [] := by
  cases l with
  | nil => exact absurd rfl h
  | cons f t =>
    simp only [List.foldl_cons]
    exact foldl_minsert_ne_nil_state (minsert_ne_nil _ _ _)

theorem build_patterns_mem {ps : List UserField} {m m' : AList Field}
    (h : AnnouncementOptions.build_patterns ps m = .ok m') :
    ∀ nf ∈ m', nf ∈ m ∨ ∃ uf ∈ ps, nf.1 = uf.name ∧
      nf.2 = ⟨get_delimited_name uf.name, uf.whole,
        uf.fragments.foldl (fun s f => minsert f false s) []⟩ := by
  induction ps generalizing m with
  | nil =>
    simp only [AnnouncementOptions.build_patterns, Except.ok.injEq] at h
    subst h
    intro nf hnf
    exact Or.inl hnf
  | cons uf t ih =>
    simp only [AnnouncementOptions.build_patterns] at h
    by_cases hc : mcontains uf.name m
    · simp [hc] at h
    · simp only [hc, Bool.false_eq_true, if_false] at h
      intro nf hnf
      rcases ih h nf hnf with h1 | ⟨uf2, huf2, he⟩
      · rcases mem_minsert h1 with rfl | h2
        · exact Or.inr ⟨uf, List.mem_cons_self _ _, rfl, rfl⟩
        · exact Or.inl h2
      · exact Or.inr ⟨uf2, List.mem_cons_of_mem _ huf2, he⟩

theorem rak_fold_ne_nil (fm sub : Str) (l : List (Str × Bool)) :
    ∀ {acc : AList Bool}, acc ≠ [] →
      l.foldl
        (fun acc p =>
          if occurs fm p.1 then
            minsert p.1 true (minsert (replaceStr p.1 fm sub) p.2 acc)
          else acc) acc ≠ [] := by
  induction l with
  | nil =>
    intro acc h
    exact h
  | cons q t ih =>
    intro acc h
    simp only [List.foldl_cons]
    by_cases hq : occurs fm q.1 = true
    · rw [if_pos hq]
      exact ih (minsert_ne_nil _ _ _)
    · rw [if_neg hq]
      exact ih h

theorem rak_fold_cyc {C : List Str} {fm sub : Str}
    (hCg : ∀ z ∈ C, FIELD_DELIMITER ∉ z ∧ byteLen z = z.length)
    (hfm : is_field_name fm = .ok true)
    (hsub : (∃ z ∈ C, fm = get_delimited_name z) →
      ∃ z1 ∈ C, sub = get_delimited_name z1) :
    ∀ (l : List (Str × Bool)) (acc : AList Bool),
      (∀ p ∈ l, ∃ z ∈ C, p.1 = get_delimited_name z) →
      (∀ p ∈ acc, ∃ z ∈ C, p.1 = get_delimited_name z) →
      ∀ p ∈ l.foldl
        (fun acc p =>
          if occurs fm p.1 then
            minsert p.1 true (minsert (replaceStr p.1 fm sub) p.2 acc)
          else acc) acc,
        ∃ z ∈ C, p.1 = get_delimited_name z := by
  intro l
  induction l with
  | nil =>
    intro acc _ hacc p hp
    exact hacc p hp
  | cons q t ih =>
    intro acc hl hacc p hp
    simp only [List.foldl_cons] at hp
    by_cases hq : occurs fm q.1 = true
    · rw [if_pos hq] at hp
      obtain ⟨z, hz, hq1⟩ := hl q (List.mem_cons_self _ _)
      have hq1tok : is_field_name q.1 = .ok true := by
        rw [hq1]
        exact delimited_ok (hCg z hz).1 (hCg z hz).2
      have hfmq : fm = q.1 := occurs_token_eq hfm hq1tok hq
      obtain ⟨z1, hz1, hsube⟩ := hsub ⟨z, hz, hfmq.trans hq1⟩
      have hrep : replaceStr q.1 fm sub = sub := by
        rw [hfmq]
        refine replaceStr_self ?_ sub
        rw [hq1, get_delimited_name]
        exact List.cons_ne_nil _ _
      refine ih _ (fun r hr => hl r (List.mem_cons_of_mem _ hr)) ?_ p hp
      intro r hr
      rcases mem_minsert hr with rfl | hr2
      · exact ⟨z, hz, hq1⟩
      · rcases mem_minsert hr2 with rfl | hr3
        · exact ⟨z1, hz1, hrep.symm ▸ hsube⟩
        · exact hacc r hr3
    · rw [if_neg hq] at hp
      exact ih _ (fun r hr => hl r (List.mem_cons_of_mem _ hr)) hacc p hp

theorem replace_and_keep_cyc {C : List Str} {f f' : Field} {fm sub : Str}
    (hCg : ∀ z ∈ C, FIELD_DELIMITER ∉ z ∧ byteLen z = z.length)
    (hfm : is_field_name fm = .ok true)
    (hsub : (∃ z ∈ C, fm = get_delimited_name z) →
      ∃ z1 ∈ C, sub = get_delimited_name z1)
    (hfr : ∀ p ∈ f.fragments, ∃ z ∈ C, p.1 = get_delimited_name z)
    (hne : f.fragments ≠ [])
    (h : f.replace_and_keep fm sub = .ok f') :
    f'.fragments ≠ [] ∧
      ∀ p ∈ f'.fragments, ∃ z ∈ C, p.1 = get_delimited_name z := by
  cases hsd : f.has_self_dependency with
  | some fragment => simp [Field.replace_and_keep, hsd] at h
  | none =>
    simp only [Field.replace_and_keep, hsd, Except.ok.injEq] at h
    subst h
    exact ⟨rak_fold_ne_nil fm sub _ hne,
      rak_fold_cyc hCg hfm hsub _ _ hfr hfr⟩

theorem rak_all_cyc {C : List Str} {tn fm sub : Str} {m m' : AList Field}
    (hCg : ∀ z ∈ C, FIELD_DELIMITER ∉ z ∧ byteLen z = z.length)
    (hfm : is_field_name fm = .ok true)
    (hsub : (∃ z ∈ C, fm = get_delimited_name z) →
      ∃ z1 ∈ C, sub = get_delimited_name z1)
    (hg : GoodMap C m)
    (h : AnnouncementOptions.rak_all tn fm sub m = .ok m') : GoodMap C m' := by
  induction m generalizing m' with
  | nil =>
    simp only [AnnouncementOptions.rak_all, Except.ok.injEq] at h
    subst h
    intro nf hnf
    simp at hnf
  | cons q t ih =>
    obtain ⟨n, fld⟩ := q
    simp only [AnnouncementOptions.rak_all] at h
    cases hf : (if (n == tn) = true then (Except.ok fld : Res Field)
        else fld.replace_and_keep fm sub) with
    | error e => rw [hf] at h; simp at h
    | ok fld' =>
      rw [hf] at h
      cases hr : AnnouncementOptions.rak_all tn fm sub t with
      | error e => rw [hr] at h; simp at h
      | ok rest =>
        rw [hr] at h
        simp only [Except.ok.injEq] at h
        subst h
        have hhead := hg (n, fld) (List.mem_cons_self _ _)
        have hrest : GoodMap C rest :=
          ih (fun nf hnf => hg nf (List.mem_cons_of_mem _ hnf)) hr
        intro nf hnf
        rcases List.mem_cons.mp hnf with rfl | hnf2
        · by_cases hn : (n == tn) = true
          · simp only [hn, if_true, Except.ok.injEq] at hf
            exact hf ▸ hhead
          · simp only [hn, if_false] at hf
            have hev := replace_and_keep_evolves hf
            refine ⟨hev.1.trans hhead.1, hhead.2.1, hhead.2.2.1, fun hnC => ?_⟩
            exact replace_and_keep_cyc hCg hfm hsub
              (hhead.2.2.2 hnC).2 (hhead.2.2.2 hnC).1 hf
        · exact hrest nf hnf2

theorem deflate_frags_cyc {C : List Str} {tn fm : Str} {frs : List Str}
    {m m' : AList Field}
    (hCg : ∀ z ∈ C, FIELD_DELIMITER ∉ z ∧ byteLen z = z.length)
    (hfm : is_field_name fm = .ok true)
    (hmatch : (∃ z ∈ C, fm = get_delimited_name z) →
      ∀ fr ∈ frs, ∃ z1 ∈ C, fr = get_delimited_name z1)
    (hg : GoodMap C m)
    (h : AnnouncementOptions.deflate_frags tn fm frs m = .ok m') :
    GoodMap C m' := by
  induction frs generalizing m with
  | nil =>
    simp only [AnnouncementOptions.deflate_frags, Except.ok.injEq] at h
    exact h ▸ hg
  | cons fr frs ih =>
    simp only [AnnouncementOptions.deflate_frags, bind, Except.bind] at h
    cases hr : AnnouncementOptions.rak_all tn fm fr m with
    | error e => rw [hr] at h; simp at h
    | ok m1 =>
      rw [hr] at h
      have hsub : (∃ z ∈ C, fm = get_delimited_name z) →
          ∃ z1 ∈ C, fr = get_delimited_name z1 :=
        fun hx => hmatch hx fr (List.mem_cons_self _ _)
      exact ih (fun hx fr2 hfr2 => hmatch hx fr2 (List.mem_cons_of_mem _ hfr2))
        (rak_all_cyc hCg hfm hsub hg hr) h

theorem deflate_tmps_cyc {C : List Str} {tmps : List (Str × Field)}
    {m m' : AList Field}
    (hCg : ∀ z ∈ C, FIELD_DELIMITER ∉ z ∧ byteLen z = z.length)
    (htmps : ∀ q ∈ tmps, q.2.delimited_name = get_delimited_name q.1 ∧
      FIELD_DELIMITER ∉ q.1 ∧ byteLen q.1 = q.1.length ∧
      (q.1 ∈ C → ∀ fr ∈ q.2.fragments, ∃ z ∈ C, fr.1 = get_delimited_name z))
    (hg : GoodMap C m)
    (h : AnnouncementOptions.deflate_tmps tmps m = .ok m') : GoodMap C m' := by
  induction tmps generalizing m with
  | nil =>
    simp only [AnnouncementOptions.deflate_tmps, Except.ok.injEq] at h
    exact h ▸ hg
  | cons p t ih =>
    obtain ⟨tn, fld⟩ := p
    simp only [AnnouncementOptions.deflate_tmps, bind, Except.bind] at h
    cases hr : AnnouncementOptions.deflate_frags tn fld.delimited_name
        (fld.fragments.map (fun p => p.1)) m with
    | error e => rw [hr] at h; simp at h
    | ok m1 =>
      rw [hr] at h
      have hq := htmps (tn, fld) (List.mem_cons_self _ _)
      have hfm : is_field_name fld.delimited_name = .ok true := by
        rw [hq.1]
        exact delimited_ok hq.2.1 hq.2.2.1
      have hmatch : (∃ z ∈ C, fld.delimited_name = get_delimited_name z) →
          ∀ fr ∈ fld.fragments.map (fun p => p.1),
            ∃ z1 ∈ C, fr = get_delimited_name z1 := by
        rintro ⟨z, hz, he⟩ fr hfr
        have htz : tn = z := delimited_inj (hq.1.symm.trans he)
        obtain ⟨r, hrm, rfl⟩ := List.mem_map.mp hfr
        exact hq.2.2.2 (htz ▸ hz) r hrm
      exact ih (fun q hqm => htmps q (List.mem_cons_of_mem _ hqm))
        (deflate_frags_cyc hCg hfm hmatch hg hr) h

theorem deflate_cyc {C : List Str} {d : Nat} {m m' : AList Field}
    (hCg : ∀ z ∈ C, FIELD_DELIMITER ∉ z ∧ byteLen z = z.length)
    (hg : GoodMap C m)
    (h : AnnouncementOptions.deflate d m = .ok m') : GoodMap C m' := by
  induction d generalizing m with
  | zero =>
    simp only [AnnouncementOptions.deflate, Except.ok.injEq] at h
    exact h ▸ hg
  | succ d ih =>
    simp only [AnnouncementOptions.deflate, bind, Except.bind] at h
    cases hu : AnnouncementOptions.unresolved_scan (AnnouncementOptions.allWords m) with
    | error e => rw [hu] at h; simp at h
    | ok u =>
      rw [hu] at h
      by_cases hub : (!u) = true
      · simp only [hub, if_true, Except.ok.injEq] at h
        exact h ▸ hg
      · simp only [hub, if_false] at h
        cases hb : AnnouncementOptions.deflate_tmps m m with
        | error e => rw [hb] at h; simp at h
        | ok m1 =>
          rw [hb] at h
          have htmps : ∀ q ∈ m, q.2.delimited_name = get_delimited_name q.1 ∧
              FIELD_DELIMITER ∉ q.1 ∧ byteLen q.1 = q.1.length ∧
              (q.1 ∈ C → ∀ fr ∈ q.2.fragments, ∃ z ∈ C,
                fr.1 = get_delimited_name z) :=
            fun q hq => ⟨(hg q hq).1, (hg q hq).2.1, (hg q hq).2.2.1,
              fun hqC => ((hg q hq).2.2.2 hqC).2⟩
          exact ih (deflate_tmps_cyc hCg htmps hg hb) h

theorem mark_used_cyc {C : List Str} {us : List (Str × Str)} {m m' : AList Field}
    (hg : GoodMap C m)
    (h : AnnouncementOptions.mark_used us m = .ok m') : GoodMap C m' := by
  induction us generalizing m with
  | nil =>
    simp only [AnnouncementOptions.mark_used, Except.ok.injEq] at h
    exact h ▸ hg
  | cons p t ih =>
    obtain ⟨n, fr⟩ := p
    simp only [AnnouncementOptions.mark_used] at h
    cases hgm : mget? n m with
    | none => simp [hgm] at h
    | some fld =>
      rw [hgm] at h
      dsimp only at h
      cases hg2 : mget? fr fld.fragments with
      | none => rw [hg2] at h; simp at h
      | some b =>
        rw [hg2] at h
        dsimp only at h
        refine ih ?_ h
        intro nf hnf
        rcases mem_mset hnf with ⟨_, hmem⟩ | ⟨h1, h2⟩
        · exact hg nf hmem
        · have hprops := hg (n, fld) (mget?_mem hgm)
          have hfrmem : (fr, b) ∈ fld.fragments := mget?_mem hg2
          refine ⟨?_, ?_, ?_, ?_⟩
          · rw [h2, h1]
            exact hprops.1
          · rw [h1]
            exact hprops.2.1
          · rw [h1]
            exact hprops.2.2.1
          · rw [h1, h2]
            intro hnC
            refine ⟨minsert_ne_nil _ _ _, ?_⟩
            intro r hr
            rcases mem_minsert hr with rfl | hr2
            · exact (hprops.2.2.2 hnC).2 (fr, b) hfrmem
            · exact (hprops.2.2.2 hnC).2 r hr2

theorem deflate_tense_goodmap {C : List Str} {st st' : AnnouncementOptions}
    (hg : GoodMap C st.neutral)
    (h : AnnouncementOptions.deflate_tense st = .ok st') :
    GoodMap C st'.neutral := by
  simp only [AnnouncementOptions.deflate_tense, bind] at h
  obtain ⟨n', hm, h⟩ := except_bind_ok_inv h
  obtain ⟨past', hp, h⟩ := except_bind_ok_inv h
  obtain ⟨present', hq, h⟩ := except_bind_ok_inv h
  simp only [pure, Except.pure, Except.ok.injEq] at h
  subst h
  exact mark_used_cyc hg hm

theorem build_patterns_cyc {C : List Str} {ps : List UserField}
    {m m' : AList Field}
    (hm : GoodMap C m)
    (hps : ∀ uf ∈ ps, FIELD_DELIMITER ∉ uf.name ∧
      byteLen uf.name = uf.name.length ∧
      (uf.name ∈ C → uf.fragments ≠ [] ∧
        ∀ fr ∈ uf.fragments, ∃ z ∈ C, fr = get_delimited_name z))
    (h : AnnouncementOptions.build_patterns ps m = .ok m') : GoodMap C m' := by
  induction ps generalizing m with
  | nil =>
    simp only [AnnouncementOptions.build_patterns, Except.ok.injEq] at h
    exact h ▸ hm
  | cons uf t ih =>
    simp only [AnnouncementOptions.build_patterns] at h
    by_cases hc : mcontains uf.name m
    · simp [hc] at h
    · simp only [hc, Bool.false_eq_true, if_false] at h
      have huf := hps uf (List.mem_cons_self _ _)
      refine ih ?_ (fun uf2 huf2 => hps uf2 (List.mem_cons_of_mem _ huf2)) h
      intro nf hnf
      rcases mem_minsert hnf with rfl | hnf2
      · refine ⟨rfl, huf.1, huf.2.1, fun hnC => ?_⟩
        refine ⟨foldl_minsert_ne_nil ((huf.2.2 hnC).1) [], ?_⟩
        intro r hr
        rcases mem_foldl_minsert hr with hr1 | hr1
        · exact (huf.2.2 hnC).2 r.1 hr1
        · simp at hr1
      · exact hm nf hnf2

theorem build_tense_not_in_neutral {neutral : AList Field}
    {tps : List TensedUserField} {tm tm' : AList TensedUserField}
    (h : AnnouncementOptions.build_tense neutral tps tm = .ok tm') :
    ∀ k ∈ mkeys tm', k ∈ mkeys tm ∨ mcontains k neutral = false := by
  induction tps generalizing tm with
  | nil =>
    simp only [AnnouncementOptions.build_tense, Except.ok.injEq] at h
    subst h
    intro k hk
    exact Or.inl hk
  | cons f t ih =>
    simp only [AnnouncementOptions.build_tense] at h
    by_cases hc : (mcontains f.name neutral || mcontains f.name tm) = true
    · simp [hc] at h
    · rw [if_neg hc] at h
      intro k hk
      rcases ih h k hk with h1 | h1
      · simp only [mkeys, List.mem_map] at h1
        obtain ⟨p, hp, hpe⟩ := h1
        rcases mem_minsert hp with rfl | h2
        · right
          cases hq : mcontains f.name neutral with
          | false => exact hpe ▸ hq
          | true => exact absurd (by simp [hq]) hc
        · exact Or.inl (by simp only [mkeys, List.mem_map]; exact ⟨p, h2, hpe⟩)
      · exact Or.inr h1

theorem frags_resolved_once_all_false {keys : List Str} :
    ∀ (l : List (Str × Bool)) (acc : Bool),
      (∀ p ∈ l, fragment_resolved_against keys (splitWS p.1) = .ok false) →
      frags_resolved_once keys l acc = .ok acc := by
  intro l
  induction l with
  | nil =>
    intro acc _
    rfl
  | cons p t ih =>
    intro acc hall
    obtain ⟨frag, u⟩ := p
    simp only [frags_resolved_once, bind, Except.bind]
    rw [hall (frag, u) (List.mem_cons_self _ _)]
    dsimp only
    rw [Bool.or_false]
    exact ih acc (fun r hr => hall r (List.mem_cons_of_mem _ hr))

theorem ctoken_fragment_unresolved {keys : List Str} {z : Str}
    (hz1 : FIELD_DELIMITER ∉ z) (hz2 : byteLen z = z.length)
    (hz3 : ∀ c ∈ z, isWS c = false)
    (hres : is_reserved z = false)
    (hkeys : ∀ k ∈ keys, k ≠ z) :
    fragment_resolved_against keys (splitWS (get_delimited_name z)) =
      .ok false := by
  have hsplit : splitWS (get_delimited_name z) = [get_delimited_name z] := by
    refine splitWS_word ?_ ?_
    · rw [get_delimited_name]
      exact List.cons_ne_nil _ _
    · intro c hc
      rw [get_delimited_name] at hc
      rcases List.mem_cons.mp hc with rfl | hc2
      · rfl
      · rcases List.mem_append.mp hc2 with hc3 | hc3
        · exact hz3 c hc3
        · rw [List.mem_singleton.mp hc3]
          rfl
  have hword : word_unresolved_against keys (get_delimited_name z) =
      .ok true := by
    simp only [word_unresolved_against]
    rw [delimited_ok hz1 hz2]
    dsimp only
    rw [strip_delimited hz1]
    have hany : keys.any (fun k => k == z) = false := by
      rw [List.any_eq_false]
      intro x hx
      simpa using hkeys x hx
    rw [hany, hres]
    rfl
  rw [hsplit]
  simp only [fragment_resolved_against, bind, Except.bind]
  rw [hword]
  rfl

/-- **Claim C4** (amended).  A user model whose patterns contain a closed,
cycle-like component `C` — every name in `C` is a pattern whose fragments are
all single delimited references to names in `C` — never compiles: `from_user`
fails for every depth limit (though not always with `RecursiveDependency` or
`TooDeep`; a self-referencing member of the cycle is reported as
`SelfRecursion` first, see the counterexample).  In particular the concrete
3-cycle `a → b → c → a` of whole fields fails with `RecursiveDependency`. -/
theorem C4_cycles_fail (u : UserAnnouncementOptions) (d : Nat) (C : List Str)
    (hCne : C ≠ [])
    (hCg : ∀ z ∈ C, FIELD_DELIMITER ∉ z ∧ byteLen z = z.length ∧
      ∀ c ∈ z, isWS c = false)
    (hpres : ∀ uf ∈ u.patterns, FIELD_DELIMITER ∉ uf.name ∧
      byteLen uf.name = uf.name.length)
    (hall : ∀ c ∈ C, ∃ uf ∈ u.patterns, uf.name = c)
    (hshape : ∀ uf ∈ u.patterns, uf.name ∈ C →
      uf.fragments ≠ [] ∧ ∀ fr ∈ uf.fragments, ∃ z ∈ C,
        fr = get_delimited_name z) :
    failed (AnnouncementOptions.from_user u d) = true ∧
    AnnouncementOptions.from_user
      ⟨[⟨"a".data, true, ["^b^".data]⟩, ⟨"b".data, true, ["^c^".data]⟩,
        ⟨"c".data, true, ["^a^".data]⟩], none, none, none⟩ 5 =
      .error (.err (.RecursiveDependency "^c^".data "^c^".data)) := by
  refine ⟨?_, by rfl⟩
  cases hfu : AnnouncementOptions.from_user u d with
  | error e => rfl
  | ok opts =>
    exfalso
    obtain ⟨st1, n2, st3, h1, h2, h3, h4, h5, h6, h7, h8, h9, h10⟩ :=
      from_user_inv hfu
    obtain ⟨n, hbp, hneu, -, -, -, -, htnone, htsome⟩ := build_map_inv h1
    have hbp' : AnnouncementOptions.build_patterns u.patterns [] = .ok n := hbp
    have hCg2 : ∀ z ∈ C, FIELD_DELIMITER ∉ z ∧ byteLen z = z.length :=
      fun z hz => ⟨(hCg z hz).1, (hCg z hz).2.1⟩
    have hgoodn : GoodMap C n := by
      refine build_patterns_cyc ?_ ?_ hbp'
      · intro nf hnf
        simp at hnf
      · exact fun uf huf => ⟨(hpres uf huf).1, (hpres uf huf).2, hshape uf huf⟩
    have hgood1 : GoodMap C st1.neutral := hneu ▸ hgoodn
    have hkeysn : ∀ c ∈ C, mcontains c n = true := by
      intro c hc
      obtain ⟨uf, huf, hufn⟩ := hall c hc
      obtain ⟨f, hf, -⟩ := build_patterns_get hbp' uf huf
      rw [← hufn]
      simp [mcontains, hf]
    have hres : ∀ z ∈ C, is_reserved z = false := by
      intro z hz
      refine reserved_check_all h3 z ?_
      have h01 : (mget? z n).isSome = true := hkeysn z hz
      obtain ⟨f, hf⟩ := Option.isSome_iff_exists.mp h01
      rw [hneu]
      exact List.mem_map.mpr ⟨(z, f), mget?_mem hf, rfl⟩
    have htense : ∀ z ∈ C, z ∉ mkeys st1.tense := by
      intro z hz hmem
      cases htp : u.tense_patterns with
      | none =>
        rw [htnone htp] at hmem
        simp [mkeys, AnnouncementOptions.init_state] at hmem
      | some tps =>
        obtain ⟨tm, htm, hte⟩ := htsome tps htp
        rw [hte] at hmem
        rcases build_tense_not_in_neutral htm z hmem with h0 | h0
        · simp [mkeys, AnnouncementOptions.init_state] at h0
        · rw [hkeysn z hz] at h0
          exact absurd h0 (by simp)
    have hgood2 : GoodMap C n2 := deflate_cyc hCg2 hgood1 h7
    have hgood3 : GoodMap C st3.neutral := deflate_tense_goodmap hgood2 h8
    have hkeys3 : ∀ c ∈ C, ∃ fld, mget? c st3.neutral = some fld := by
      intro c hc
      have h01 : (mget? c n).isSome = true := hkeysn c hc
      obtain ⟨f, hq⟩ := Option.isSome_iff_exists.mp h01
      have hev1 : MapEvolves st1.neutral n2 := deflate_evolves h7
      obtain ⟨f2, hf2, -⟩ := hev1.2 c f (by rw [hneu]; exact hq)
      have hev2 := (deflate_tense_neutral h8).1
      obtain ⟨f3, hf3, -⟩ := hev2.2 c f2 hf2
      exact ⟨f3, hf3⟩
    have htense3 : st3.tense = st1.tense := (deflate_tense_neutral h8).2.1
    obtain ⟨c0, hc0⟩ : ∃ c, c ∈ C := by
      cases C with
      | nil => exact absurd rfl hCne
      | cons c cs => exact ⟨c, List.mem_cons_self _ _⟩
    obtain ⟨fld0, hfld0⟩ := hkeys3 c0 hc0
    have hmem0 : (c0, fld0) ∈ st3.neutral := mget?_mem hfld0
    have hchk := each_field_check_all h9 (c0, fld0) hmem0
    have hprops := hgood3 (c0, fld0) hmem0
    have hfrC := (hprops.2.2.2 hc0).2
    have hfalse : fld0.each_fragment_is_resolved_once (mkeys st3.tense) =
        .ok false := by
      show frags_resolved_once (mkeys st3.tense) fld0.fragments false = .ok false
      refine frags_resolved_once_all_false _ false ?_
      intro p hp
      obtain ⟨z, hz, hpz⟩ := hfrC p hp
      rw [hpz]
      refine ctoken_fragment_unresolved (hCg z hz).1 (hCg z hz).2.1
        (hCg z hz).2.2 (hres z hz) ?_
      intro k hk hkz
      rw [hkz, htense3] at hk
      exact htense z hz hk
    exact absurd (hchk.symm.trans hfalse) (by simp)

/-- **Claim C4**, counterexample: a user model containing the two-field cycle
`a → b → a` (field `a`'s fragments reference `b`, field `b`'s fragment
references `a`), of length 2 < depth limit 5, on which compile fails with
`SelfRecursion` — not with `RecursiveDependency` or `TooDeep` as the claim
requires (`a` also references itself, and `has_self_dependency` fires before
the deflation loop ever reports the cycle). -/
theorem C4_counterexample :
    AnnouncementOptions.from_user
      ⟨[⟨"a".data, true, ["^b^".data, "^a^".data]⟩,
        ⟨"b".data, true, ["^a^".data]⟩], none, none, none⟩ 5 =
      .error (.err (.SelfRecursion "a".data "^a^".data)) := rfl

/-- Witness for `C4_cycles_fail`: the concrete 3-cycle model with component
`C = [a, b, c]` discharges every hypothesis. -/
theorem C4_witness :
    failed (AnnouncementOptions.from_user
      ⟨[⟨"a".data, true, ["^b^".data]⟩, ⟨"b".data, true, ["^c^".data]⟩,
        ⟨"c".data, true, ["^a^".data]⟩], none, none, none⟩ 5) = true ∧
    AnnouncementOptions.from_user
      ⟨[⟨"a".data, true, ["^b^".data]⟩, ⟨"b".data, true, ["^c^".data]⟩,
        ⟨"c".data, true, ["^a^".data]⟩], none, none, none⟩ 5 =
      .error (.err (.RecursiveDependency "^c^".data "^c^".data)) :=
  C4_cycles_fail
    ⟨[⟨"a".data, true, ["^b^".data]⟩, ⟨"b".data, true, ["^c^".data]⟩,
      ⟨"c".data, true, ["^a^".data]⟩], none, none, none⟩ 5
    ["a".data, "b".data, "c".data]
    (by decide) (by decide) (by decide) (by decide) (by decide)

/-! ## Claim C5 -/

theorem strLt_ne {a b : Str} (h : strLt a b = true) : a ≠ b := by
  intro he
  subst he
  rw [strLt_irrefl] at h
  exact Bool.false_ne_true h

theorem msorted_mem_mget? {n : Str} {v : α} {m : AList α}
    (hs : msorted m) (h : (n, v) ∈ m) : mget? n m = some v := by
  induction m with
  | nil => simp at h
  | cons p t ih =>
    rcases List.mem_cons.mp h with he | hmem
    · rw [← he]
      simp [mget?]
    · have hne : n ≠ p.1 := by
        intro he2
        have hlt := (List.pairwise_cons.mp hs).1 (n, v) hmem
        exact absurd he2.symm (strLt_ne hlt)
      simp only [mget?, beq_str_iff, hne, if_false]
      exact ih (List.pairwise_cons.mp hs).2 hmem

theorem gdn_ne_nil (z : Str) : get_delimited_name z ≠ [] := by
  rw [get_delimited_name]
  exact List.cons_ne_nil _ _

theorem gdn_head_delim (z : Str) :
    FIELD_DELIMITER ∈ get_delimited_name z := by
  rw [get_delimited_name]
  exact List.mem_cons_self _ _

theorem lit_ne_gdn {s z : Str} (h : FIELD_DELIMITER ∉ s) :
    s ≠ get_delimited_name z := by
  intro he
  exact h (he ▸ gdn_head_delim z)

theorem occurs_gdn_false {s z : Str} (h : FIELD_DELIMITER ∉ s) :
    occurs (get_delimited_name z) s = false := by
  cases hq : occurs (get_delimited_name z) s with
  | false => rfl
  | true =>
    exact absurd (occurs_subset hq FIELD_DELIMITER (gdn_head_delim z)) h

theorem is_field_name_no_delim {w : Str} (h : FIELD_DELIMITER ∉ w) :
    is_field_name w = .ok false :=
  (is_field_name_ok_false_iff w).mpr (List.count_eq_zero.mpr h)

theorem rak_fold_id {fm sub : Str} {L : List (Str × Bool)}
    (h : ∀ p ∈ L, occurs fm p.1 = false) :
    ∀ acc : AList Bool,
      L.foldl
        (fun acc p =>
          if occurs fm p.1 then
            minsert p.1 true (minsert (replaceStr p.1 fm sub) p.2 acc)
          else acc) acc = acc := by
  induction L with
  | nil => intro acc; rfl
  | cons p t ih =>
    intro acc
    simp only [List.foldl_cons, h p (List.mem_cons_self _ _),
      Bool.false_eq_true, if_false]
    exact ih (fun r hr => h r (List.mem_cons_of_mem _ hr)) acc

theorem rak_fold_split {fm sub : Str} {L1 L2 : List (Str × Bool)} {b0 : Bool}
    (hfm : fm ≠ [])
    (h1 : ∀ p ∈ L1, occurs fm p.1 = false)
    (h2 : ∀ p ∈ L2, occurs fm p.1 = false) (acc : AList Bool) :
    (L1 ++ (fm, b0) :: L2).foldl
      (fun acc p =>
        if occurs fm p.1 then
          minsert p.1 true (minsert (replaceStr p.1 fm sub) p.2 acc)
        else acc) acc = minsert fm true (minsert sub b0 acc) := by
  rw [List.foldl_append, rak_fold_id h1 acc, List.foldl_cons]
  simp only [occurs_self hfm, if_true, replaceStr_self hfm]
  exact rak_fold_id h2 _

theorem msorted_split_ne {F : AList Bool} {fm : Str} {b0 : Bool}
    (hs : msorted F) (h : (fm, b0) ∈ F) :
    ∃ L1 L2, F = L1 ++ (fm, b0) :: L2 ∧ (∀ p ∈ L1, p.1 ≠ fm) ∧
      ∀ p ∈ L2, p.1 ≠ fm := by
  obtain ⟨L1, L2, rfl⟩ := List.append_of_mem h
  obtain ⟨hp1, hp2⟩ := List.pairwise_append.mp hs
  refine ⟨L1, L2, rfl, ?_, ?_⟩
  · intro p hp
    exact (strLt_ne (hp2.2 p hp (fm, b0) (List.mem_cons_self _ _)))
  · intro p hp
    have hlt := (List.pairwise_cons.mp hp2.1).1 p hp
    exact fun he => absurd he.symm (strLt_ne hlt)

theorem replace_and_keep_rk {f : Field} {fm sub : Str}
    (hfm : fm ≠ [])
    (hsd : ∀ p ∈ f.fragments, occurs f.delimited_name p.1 = false)
    (hocc : ∀ p ∈ f.fragments, occurs fm p.1 = true → p.1 = fm)
    (hs : msorted f.fragments) :
    f.replace_and_keep fm sub = .ok (rk_chain fm sub f) := by
  have hsd' : f.has_self_dependency = none := by
    rw [Field.has_self_dependency,
      List.find?_eq_none.mpr (fun p hp => by simp [hsd p hp])]
  simp only [Field.replace_and_keep, hsd']
  cases hq : mget? fm f.fragments with
  | none =>
    have hno : ∀ p ∈ f.fragments, occurs fm p.1 = false := by
      intro p hp
      cases ho : occurs fm p.1 with
      | false => rfl
      | true =>
        exfalso
        have he := hocc p hp ho
        have hmem2 : (fm, p.2) ∈ f.fragments := by
          rw [← he]
          exact hp
        have : mget? fm f.fragments = some p.2 := msorted_mem_mget? hs hmem2
        rw [hq] at this
        exact Option.noConfusion this
    rw [rak_fold_id hno]
    simp only [rk_chain, hq]
  | some b0 =>
    obtain ⟨L1, L2, hF, hn1, hn2⟩ := msorted_split_ne hs (mget?_mem hq)
    have h1 : ∀ p ∈ L1, occurs fm p.1 = false := by
      intro p hp
      cases ho : occurs fm p.1 with
      | false => rfl
      | true =>
        exact absurd (hocc p (by rw [hF]; simp [hp]) ho) (hn1 p hp)
    have h2 : ∀ p ∈ L2, occurs fm p.1 = false := by
      intro p hp
      cases ho : occurs fm p.1 with
      | false => rfl
      | true =>
        exact absurd (hocc p (by rw [hF]; simp [hp]) ho) (hn2 p hp)
    have hmain := @rak_fold_split fm sub L1 L2 b0 hfm h1 h2 f.fragments
    rw [show f.fragments.foldl
        (fun acc p =>
          if occurs fm p.1 then
            minsert p.1 true (minsert (replaceStr p.1 fm sub) p.2 acc)
          else acc) f.fragments =
        (L1 ++ (fm, b0) :: L2).foldl
        (fun acc p =>
          if occurs fm p.1 then
            minsert p.1 true (minsert (replaceStr p.1 fm sub) p.2 acc)
          else acc) f.fragments from by rw [← hF], hmain]
    simp only [rk_chain, hq]

theorem rak_all_rk {tn fm sub : Str} {m : AList Field}
    (hfm : fm ≠ [])
    (hall : ∀ nf ∈ m,
      (∀ p ∈ nf.2.fragments, occurs nf.2.delimited_name p.1 = false) ∧
      (∀ p ∈ nf.2.fragments, occurs fm p.1 = true → p.1 = fm) ∧
      msorted nf.2.fragments) :
    AnnouncementOptions.rak_all tn fm sub m =
      .ok (m.map (fun q =>
        (q.1, if q.1 == tn then q.2 else rk_chain fm sub q.2))) := by
  induction m with
  | nil => rfl
  | cons q t ih =>
    obtain ⟨n, fld⟩ := q
    have hhead := hall (n, fld) (List.mem_cons_self _ _)
    simp only [AnnouncementOptions.rak_all]
    have h1 : (if (n == tn) = true then (Except.ok fld : Res Field)
        else fld.replace_and_keep fm sub) =
        .ok (if (n == tn) = true then fld else rk_chain fm sub fld) := by
      by_cases hn : (n == tn) = true
      · simp [hn]
      · simp only [hn, if_false]
        exact replace_and_keep_rk hfm hhead.1 hhead.2.1 hhead.2.2
    rw [h1]
    dsimp only
    rw [ih (fun r hr => hall r (List.mem_cons_of_mem _ hr))]
    dsimp only
    rw [List.map_cons]

theorem nodup_get?_eq {ns : List Str} (hnd : ns.Nodup) {i j : Nat} {n : Str}
    (hi : ns.get? i = some n) (hj : ns.get? j = some n) : i = j := by
  obtain ⟨hlen, -⟩ := List.get?_eq_some.mp hi
  exact List.get?_inj hlen hnd (hi.trans hj.symm)

theorem mem_minsert_sorted {x : Str × α} {k : Str} {v : α} {m : AList α}
    (hs : msorted m) (h : x ∈ minsert k v m) :
    x = (k, v) ∨ (x ∈ m ∧ x.1 ≠ k) := by
  induction m with
  | nil =>
    left
    simpa [minsert] using h
  | cons p t ih =>
    by_cases h1 : strLt k p.1 = true
    · simp only [minsert, h1, if_true] at h
      rcases List.mem_cons.mp h with rfl | h2
      · exact Or.inl rfl
      · refine Or.inr ⟨h2, ?_⟩
        rcases List.mem_cons.mp h2 with rfl | h3
        · exact fun he => (strLt_ne h1) he.symm
        · have hlt := (List.pairwise_cons.mp hs).1 x h3
          exact fun he => (strLt_ne (strLt_trans h1 hlt)) he.symm
    · by_cases h2 : (k == p.1) = true
      · simp only [minsert, h1, if_false, h2, if_true] at h
        rcases List.mem_cons.mp h with rfl | h3
        · exact Or.inl rfl
        · have hk : k = p.1 := beq_str_iff.mp h2
          refine Or.inr ⟨List.mem_cons_of_mem _ h3, ?_⟩
          have hlt := (List.pairwise_cons.mp hs).1 x h3
          rw [← hk] at hlt
          exact fun he => (strLt_ne hlt) he.symm
      · simp only [minsert, h1, if_false, h2, if_false] at h
        rcases List.mem_cons.mp h with rfl | h3
        · refine Or.inr ⟨List.mem_cons_self _ _, ?_⟩
          intro he
          rw [he] at h2
          exact h2 (by simp)
        · rcases ih (List.pairwise_cons.mp hs).2 h3 with h4 | h4
          · exact Or.inl h4
          · exact Or.inr ⟨List.mem_cons_of_mem _ h4.1, h4.2⟩

theorem mget?_map_rk {k : Str} {m : AList Field} {v : Field} (tn fm sub : Str)
    (h : mget? k m = some v) :
    mget? k (m.map (fun q =>
      (q.1, if q.1 == tn then q.2 else rk_chain fm sub q.2))) =
      some (if k == tn then v else rk_chain fm sub v) := by
  induction m with
  | nil => simp [mget?] at h
  | cons p t ih =>
    by_cases hk : k = p.1
    · subst hk
      simp only [mget?, beq_self_eq_true, if_true, Option.some.injEq] at h
      subst h
      simp [List.map_cons, mget?]
    · simp only [mget?, beq_str_iff, hk, if_false] at h
      rw [List.map_cons]
      have hcond : (k == p.1) = false := by simp [hk]
      simp only [mget?, hcond, Bool.false_eq_true, if_false]
      exact ih h

theorem rk_contains {x fm sub : Str} {f : Field}
    (h : mcontains x f.fragments = true) :
    mcontains x (rk_chain fm sub f).fragments = true := by
  simp only [rk_chain]
  cases hg : mget? fm f.fragments with
  | none =>
    exact h
  | some b0 =>
    simp [mcontains_minsert, h]

theorem allWords_mem_inv {m : AList Field} {x : Str × Str × Bool × Str}
    (h : x ∈ AnnouncementOptions.allWords m) :
    ∃ nf ∈ m, ∃ fr ∈ nf.2.fragments, x = (nf.1, fr.1, fr.2, x.2.2.2) ∧
      x.2.2.2 ∈ splitWS fr.1 := by
  simp only [AnnouncementOptions.allWords, List.mem_flatMap, List.mem_map] at h
  obtain ⟨nf, hnf, fr, hfr, w, hw, rfl⟩ := h
  exact ⟨nf, hnf, fr, hfr, rfl, hw⟩

theorem chainfrag_cases {ns : List Str} {lit : Str} {i : Nat} {fr : Str}
    (hhyg : ∀ n ∈ ns, FIELD_DELIMITER ∉ n ∧ byteLen n = n.length ∧
      (∀ c ∈ n, isWS c = false) ∧ is_reserved n = false)
    (h : ChainFrag ns lit i fr) :
    fr = lit ∨ ∃ j n, i < j ∧ ns.get? j = some n ∧ fr = get_delimited_name n ∧
      is_field_name (get_delimited_name n) = .ok true := by
  rcases h with h | ⟨j, n, hij, hget, rfl⟩
  · exact Or.inl h
  · have hn := hhyg n (List.get?_mem hget)
    exact Or.inr ⟨j, n, hij, hget, rfl, delimited_ok hn.1 hn.2.1⟩

theorem chain_rak_conditions {ns : List Str} {lit : Str} {m : AList Field}
    (hnd : ns.Nodup)
    (hhyg : ∀ n ∈ ns, FIELD_DELIMITER ∉ n ∧ byteLen n = n.length ∧
      (∀ c ∈ n, isWS c = false) ∧ is_reserved n = false)
    (hlit : FIELD_DELIMITER ∉ lit)
    (hm : ChainInv ns lit m) {l : Nat} {t : Str} (hl : ns.get? l = some t) :
    ∀ nf ∈ m,
      (∀ p ∈ nf.2.fragments, occurs nf.2.delimited_name p.1 = false) ∧
      (∀ p ∈ nf.2.fragments, occurs (get_delimited_name t) p.1 = true →
        p.1 = get_delimited_name t) ∧
      msorted nf.2.fragments := by
  intro nf hnf
  obtain ⟨hms, hfs, hent, hkey⟩ := hm
  obtain ⟨i, hgi, hdn, hne, hcf⟩ := hent nf hnf
  have ht := hhyg t (List.get?_mem hl)
  have httok : is_field_name (get_delimited_name t) = .ok true :=
    delimited_ok ht.1 ht.2.1
  have hnf1 := hhyg nf.1 (List.get?_mem hgi)
  have hnftok : is_field_name (get_delimited_name nf.1) = .ok true :=
    delimited_ok hnf1.1 hnf1.2.1
  refine ⟨?_, ?_, hfs nf hnf⟩
  · intro p hp
    rcases chainfrag_cases hhyg (hcf p hp) with hfr | ⟨j, n, hij, hgj, hfr, htok⟩
    · rw [hdn, hfr]
      exact occurs_gdn_false hlit
    · rw [hdn, hfr]
      refine token_not_substring htok hnftok ?_
      intro he
      have h2 : n = nf.1 := delimited_inj he
      rw [h2] at hgj
      exact absurd (nodup_get?_eq hnd hgi hgj) (by omega)
  · intro p hp ho
    rcases chainfrag_cases hhyg (hcf p hp) with hfr | ⟨j, n, hij, hgj, hfr, htok⟩
    · rw [hfr] at ho
      rw [occurs_gdn_false hlit] at ho
      exact absurd ho (by simp)
    · rw [hfr] at ho ⊢
      exact (occurs_token_eq httok htok ho).symm

theorem ChainInv_rk {ns : List Str} {lit : Str} {m : AList Field}
    (hnd : ns.Nodup)
    (hhyg : ∀ n ∈ ns, FIELD_DELIMITER ∉ n ∧ byteLen n = n.length ∧
      (∀ c ∈ n, isWS c = false) ∧ is_reserved n = false)
    (hlit : FIELD_DELIMITER ∉ lit)
    (hm : ChainInv ns lit m) {l : Nat} {t : Str} (hl : ns.get? l = some t)
    {sub : Str} (hsub : ChainFrag ns lit l sub) (tn : Str) :
    ChainInv ns lit (m.map (fun q =>
      (q.1, if q.1 == tn then q.2
        else rk_chain (get_delimited_name t) sub q.2))) := by
  obtain ⟨hms, hfs, hent, hkey⟩ := hm
  refine ⟨?_, ?_, ?_, ?_⟩
  · rw [msorted, List.pairwise_map]
    exact hms
  · intro nf hnf
    obtain ⟨q0, hq0, rfl⟩ := List.mem_map.mp hnf
    by_cases hq : (q0.1 == tn) = true
    · simp only [hq, if_true]
      exact hfs q0 hq0
    · simp only [hq, if_false]
      simp only [rk_chain]
      cases hg : mget? (get_delimited_name t) q0.2.fragments with
      | none => exact hfs q0 hq0
      | some b0 => exact msorted_minsert (msorted_minsert (hfs q0 hq0))
  · intro nf hnf
    obtain ⟨q0, hq0, rfl⟩ := List.mem_map.mp hnf
    obtain ⟨i, hgi, hdn, hne0, hcf⟩ := hent q0 hq0
    by_cases hq : (q0.1 == tn) = true
    · simp only [hq, if_true]
      exact ⟨i, hgi, hdn, hne0, hcf⟩
    · simp only [hq, if_false]
      refine ⟨i, hgi, ?_, ?_, ?_⟩
      · simp only [rk_chain]
        cases hg : mget? (get_delimited_name t) q0.2.fragments with
        | none => exact hdn
        | some b0 => exact hdn
      · simp only [rk_chain]
        cases hg : mget? (get_delimited_name t) q0.2.fragments with
        | none => exact hne0
        | some b0 => exact minsert_ne_nil _ _ _
      · intro p hp
        simp only [rk_chain] at hp
        cases hg : mget? (get_delimited_name t) q0.2.fragments with
        | none =>
          rw [hg] at hp
          exact hcf p hp
        | some b0 =>
          rw [hg] at hp
          dsimp only at hp
          rcases mem_minsert hp with rfl | hp2
          · show ChainFrag ns lit i (get_delimited_name t)
            exact hcf _ (mget?_mem hg)
          · rcases mem_minsert hp2 with rfl | hp3
            · have hfm : ChainFrag ns lit i (get_delimited_name t) :=
                hcf _ (mget?_mem hg)
              rcases hfm with he | ⟨j, n, hij, hgj, he⟩
              · exact absurd he.symm (lit_ne_gdn hlit)
              · obtain rfl : t = n := delimited_inj he
                have hjl : j = l := nodup_get?_eq hnd hgj hl
                subst hjl
                rcases hsub with he2 | ⟨j2, n2, hlj2, hgj2, he2⟩
                · exact Or.inl he2
                · exact Or.inr ⟨j2, n2, by omega, hgj2, he2⟩
            · exact hcf p hp3
  · intro i n hgi
    obtain ⟨f, hf, hcont⟩ := hkey i n hgi
    refine ⟨_, mget?_map_rk tn (get_delimited_name t) sub hf, ?_⟩
    intro n2 hg2
    have hc := hcont n2 hg2
    by_cases hq : (n == tn) = true
    · simp only [hq, if_true]
      exact hc
    · simp only [hq, if_false]
      exact rk_contains hc

theorem FlagMid_rk {ns : List Str} {lit : Str} {q : Nat} {todo : List Str}
    {m : AList Field} (hnd : ns.Nodup) (hlit : FIELD_DELIMITER ∉ lit)
    (hf : FlagMid ns lit q todo m)
    {l : Nat} {t : Str} (hl : ns.get? l = some t)
    {sub : Str} (hsub : ChainFrag ns lit l sub) (tn : Str) :
    FlagMid ns lit q todo (m.map (fun q2 =>
      (q2.1, if q2.1 == tn then q2.2
        else rk_chain (get_delimited_name t) sub q2.2))) := by
  intro nf hnf p hp hpf
  obtain ⟨q0, hq0, rfl⟩ := List.mem_map.mp hnf
  by_cases hq : (q0.1 == tn) = true
  · simp only [hq, if_true] at hp
    exact hf q0 hq0 p hp hpf
  · simp only [hq, if_false] at hp
    simp only [rk_chain] at hp
    cases hg : mget? (get_delimited_name t) q0.2.fragments with
    | none =>
      rw [hg] at hp
      exact hf q0 hq0 p hp hpf
    | some b0 =>
      rw [hg] at hp
      dsimp only at hp
      rcases mem_minsert hp with rfl | hp2
      · exact absurd hpf (by simp)
      · rcases mem_minsert hp2 with rfl | hp3
        · have hold := hf q0 hq0 _ (mget?_mem hg) hpf
          rcases hold with he | ⟨j, n, hqj, hgj, he, hdisj⟩
          · exact absurd he.symm (lit_ne_gdn hlit)
          · obtain rfl : t = n := delimited_inj he
            have hjl : j = l := nodup_get?_eq hnd hgj hl
            subst hjl
            rcases hsub with he2 | ⟨j2, n2, hlj2, hgj2, he2⟩
            · exact Or.inl he2
            · exact Or.inr ⟨j2, n2, by omega, hgj2, he2, Or.inr (by omega)⟩
        · exact hf q0 hq0 p hp3 hpf

theorem rk_map_marks {m : AList Field} {fm sub : Str} (tn : Str)
    (hfs : FragsSorted m)
    (hskip : ∀ nf ∈ m, nf.1 = tn → mget? fm nf.2.fragments = none) :
    ∀ nf ∈ m.map (fun q2 =>
      (q2.1, if q2.1 == tn then q2.2 else rk_chain fm sub q2.2)),
      ∀ p ∈ nf.2.fragments, p.1 = fm → p.2 = true := by
  intro nf hnf p hp hpk
  obtain ⟨q0, hq0, rfl⟩ := List.mem_map.mp hnf
  by_cases hq : (q0.1 == tn) = true
  · simp only [hq, if_true] at hp
    have hnone := hskip q0 hq0 (beq_str_iff.mp hq)
    have hg := msorted_mem_mget? (hfs q0 hq0)
      (show (fm, p.2) ∈ q0.2.fragments by rw [← hpk]; exact hp)
    rw [hnone] at hg
    exact Option.noConfusion hg
  · simp only [hq, if_false] at hp
    simp only [rk_chain] at hp
    cases hg : mget? fm q0.2.fragments with
    | none =>
      rw [hg] at hp
      have hg2 := msorted_mem_mget? (hfs q0 hq0)
        (show (fm, p.2) ∈ q0.2.fragments by rw [← hpk]; exact hp)
      rw [hg] at hg2
      exact Option.noConfusion hg2
    | some b0 =>
      rw [hg] at hp
      dsimp only at hp
      rcases mem_minsert_sorted (msorted_minsert (hfs q0 hq0)) hp with rfl | hp2
      · rfl
      · exact absurd hpk hp2.2

theorem FlagMid_shrink {ns : List Str} {lit : Str} {q : Nat} {t : Str}
    {rest : List Str} {m : AList Field}
    (hf : FlagMid ns lit q (t :: rest) m)
    (hmark : ∀ nf ∈ m, ∀ p ∈ nf.2.fragments,
      p.1 = get_delimited_name t → p.2 = true) :
    FlagMid ns lit q rest m := by
  intro nf hnf p hp hpf
  rcases hf nf hnf p hp hpf with he | ⟨j, n, hqj, hgj, he, hdisj⟩
  · exact Or.inl he
  · refine Or.inr ⟨j, n, hqj, hgj, he, ?_⟩
    rcases hdisj with hmem | hlate
    · rcases List.mem_cons.mp hmem with rfl | hmem2
      · have hmk := hmark nf hnf p hp he
        rw [hpf] at hmk
        exact absurd hmk (by simp)
      · exact Or.inl hmem2
    · exact Or.inr hlate

theorem FlagMid_nil_bound {ns : List Str} {lit : Str} {q : Nat}
    {m : AList Field} (hf : FlagMid ns lit q [] m) :
    FlagBound ns lit (q + 1) m := by
  intro nf hnf p hp hpf
  rcases hf nf hnf p hp hpf with he | ⟨j, n, hqj, hgj, he, hdisj⟩
  · exact Or.inl he
  · rcases hdisj with hmem | hlate
    · simp at hmem
    · exact Or.inr ⟨j, n, hlate, hgj, he⟩

theorem chain_self_none {ns : List Str} {lit : Str} (hnd : ns.Nodup)
    (hlit : FIELD_DELIMITER ∉ lit) {m : AList Field}
    (hm : ChainInv ns lit m) {l : Nat} {t : Str} (hl : ns.get? l = some t) :
    ∀ nf ∈ m, nf.1 = t →
      mget? (get_delimited_name t) nf.2.fragments = none := by
  intro nf hnf he
  cases hg : mget? (get_delimited_name t) nf.2.fragments with
  | none => rfl
  | some b =>
    exfalso
    obtain ⟨i, hgi, -, -, hcf⟩ := hm.2.2.1 nf hnf
    have hil : i = l := nodup_get?_eq hnd (he ▸ hgi) hl
    rcases hcf _ (mget?_mem hg) with he2 | ⟨j, n, hij, hgj, he2⟩
    · exact lit_ne_gdn hlit he2.symm
    · obtain rfl : t = n := delimited_inj he2
      have hjl : j = l := nodup_get?_eq hnd hgj hl
      omega

theorem evolve_mem {m m' : AList Field} {n : Str} {f : Field}
    (hs : msorted m) (hev : MapEvolves m m') (h : (n, f) ∈ m) :
    ∃ f', mget? n m' = some f' ∧ FieldEvolves f f' :=
  hev.2 n f (msorted_mem_mget? hs h)

theorem deflate_frags_chain {ns : List Str} {lit : Str} {q : Nat}
    {todo : List Str}
    (hnd : ns.Nodup)
    (hhyg : ∀ n ∈ ns, FIELD_DELIMITER ∉ n ∧ byteLen n = n.length ∧
      (∀ c ∈ n, isWS c = false) ∧ is_reserved n = false)
    (hlit : FIELD_DELIMITER ∉ lit)
    {l : Nat} {t : Str} (hl : ns.get? l = some t) :
    ∀ (frs : List Str) (m : AList Field),
      (∀ s ∈ frs, ChainFrag ns lit l s) →
      ChainInv ns lit m → FlagMid ns lit q todo m →
      ∃ m1, AnnouncementOptions.deflate_frags t (get_delimited_name t) frs m =
          .ok m1 ∧
        ChainInv ns lit m1 ∧ FlagMid ns lit q todo m1 ∧ MapEvolves m m1 ∧
        (frs ≠ [] → ∀ nf ∈ m1, ∀ p ∈ nf.2.fragments,
          p.1 = get_delimited_name t → p.2 = true) ∧
        (∀ s ∈ frs, ∀ nf ∈ m, nf.1 ≠ t →
          mcontains (get_delimited_name t) nf.2.fragments = true →
          ∃ f1, mget? nf.1 m1 = some f1 ∧ mcontains s f1.fragments = true) := by
  intro frs
  induction frs with
  | nil =>
    intro m hfrs hm hf
    refine ⟨m, rfl, hm, hf, MapEvolves.mrefl m, ?_, ?_⟩
    · intro hne
      exact absurd rfl hne
    · intro s hs
      simp at hs
  | cons fr frs ih =>
    intro m hfrs hm hf
    have hrak : AnnouncementOptions.rak_all t (get_delimited_name t) fr m =
        .ok (m.map (fun q2 => (q2.1, if q2.1 == t then q2.2
          else rk_chain (get_delimited_name t) fr q2.2))) :=
      rak_all_rk (gdn_ne_nil t) (chain_rak_conditions hnd hhyg hlit hm hl)
    set M := m.map (fun q2 => (q2.1, if q2.1 == t then q2.2
      else rk_chain (get_delimited_name t) fr q2.2)) with hMdef
    have hmM : ChainInv ns lit M :=
      ChainInv_rk hnd hhyg hlit hm hl (hfrs fr (List.mem_cons_self _ _)) t
    have hfM : FlagMid ns lit q todo M :=
      FlagMid_rk hnd hlit hf hl (hfrs fr (List.mem_cons_self _ _)) t
    have hmarksM : ∀ nf ∈ M, ∀ p ∈ nf.2.fragments,
        p.1 = get_delimited_name t → p.2 = true :=
      rk_map_marks t hm.2.1 (chain_self_none hnd hlit hm hl)
    obtain ⟨m1, heq1, hinv1, hflag1, hev1, hmarks1, hins1⟩ :=
      ih M (fun s hs => hfrs s (List.mem_cons_of_mem _ hs)) hmM hfM
    have hevM : MapEvolves m M := rak_all_evolves hrak
    refine ⟨m1, ?_, hinv1, hflag1, hevM.mtrans hev1, ?_, ?_⟩
    · simp only [AnnouncementOptions.deflate_frags, bind, Except.bind]
      rw [hrak]
      exact heq1
    · intro _
      cases hfrs2 : frs with
      | nil =>
        subst hfrs2
        obtain rfl : M = m1 := by
          simpa [AnnouncementOptions.deflate_frags] using heq1
        exact hmarksM
      | cons a b =>
        refine hmarks1 ?_
        rw [hfrs2]
        exact List.cons_ne_nil _ _
    · intro s hs nf hnf hnet hcont
      rcases List.mem_cons.mp hs with rfl | hs2
      · -- s = fr: inserted by this step, then persists
        have hgm : mget? nf.1 m = some nf.2 := msorted_mem_mget? hm.1 hnf
        have hgM : mget? nf.1 M = some (if nf.1 == t then nf.2
            else rk_chain (get_delimited_name t) s nf.2) :=
          mget?_map_rk t (get_delimited_name t) s hgm
        have hcin : mcontains s (if nf.1 == t then nf.2
            else rk_chain (get_delimited_name t) s nf.2).fragments = true := by
          have hq : (nf.1 == t) = false := by simp [hnet]
          rw [hq]
          simp only [Bool.false_eq_true, if_false, rk_chain]
          obtain ⟨b, hb⟩ := Option.isSome_iff_exists.mp hcont
          rw [hb]
          simp [mcontains_minsert]
        obtain ⟨f1, hf1, hev⟩ := hev1.2 nf.1 _ hgM
        exact ⟨f1, hf1, hev.2.2.1 s hcin⟩
      · -- s comes later: transport membership into M and use ih
        have hq : (nf.1 == t) = false := by simp [hnet]
        have hmemM : (nf.1, if nf.1 == t then nf.2
            else rk_chain (get_delimited_name t) fr nf.2) ∈ M :=
          List.mem_map.mpr ⟨nf, hnf, rfl⟩
        have hcontM : mcontains (get_delimited_name t)
            (if nf.1 == t then nf.2
              else rk_chain (get_delimited_name t) fr nf.2).fragments = true := by
          rw [hq]
          simp only [Bool.false_eq_true, if_false]
          exact rk_contains hcont
        exact hins1 s hs2
          (nf.1, if nf.1 == t then nf.2
            else rk_chain (get_delimited_name t) fr nf.2) hmemM hnet hcontM

theorem deflate_tmps_chain {ns : List Str} {lit : Str} {q : Nat}
    (hnd : ns.Nodup)
    (hhyg : ∀ n ∈ ns, FIELD_DELIMITER ∉ n ∧ byteLen n = n.length ∧
      (∀ c ∈ n, isWS c = false) ∧ is_reserved n = false)
    (hlit : FIELD_DELIMITER ∉ lit)
    {S : AList Field} (hS : ChainInv ns lit S) :
    ∀ (tmps : List (Str × Field)) (m : AList Field),
      (∀ p ∈ tmps, p ∈ S) →
      ChainInv ns lit m →
      FlagMid ns lit q (tmps.map Prod.fst) m →
      ∃ m1, AnnouncementOptions.deflate_tmps tmps m = .ok m1 ∧
        ChainInv ns lit m1 ∧ FlagMid ns lit q [] m1 ∧ MapEvolves m m1 ∧
        (∀ p ∈ tmps, mcontains lit p.2.fragments = true →
          ∀ nf ∈ m, nf.1 ≠ p.1 →
            mcontains p.2.delimited_name nf.2.fragments = true →
            ∃ f1, mget? nf.1 m1 = some f1 ∧
              mcontains lit f1.fragments = true) := by
  intro tmps
  induction tmps with
  | nil =>
    intro m htm hm hf
    refine ⟨m, rfl, hm, hf, MapEvolves.mrefl m, ?_⟩
    intro p hp
    simp at hp
  | cons p0 rest ih =>
    intro m htm hm hf
    obtain ⟨t0, fld0⟩ := p0
    obtain ⟨l0, hgl0, hdn0, hne0, hcf0⟩ :=
      hS.2.2.1 (t0, fld0) (htm (t0, fld0) (List.mem_cons_self _ _))
    have hfrs : ∀ s ∈ fld0.fragments.map (fun p => p.1),
        ChainFrag ns lit l0 s := by
      intro s hs
      obtain ⟨pp, hpp, rfl⟩ := List.mem_map.mp hs
      exact hcf0 pp hpp
    obtain ⟨Mmid, heqM, hinvM, hflagM, hevM, hmarksM, hinsM⟩ :=
      deflate_frags_chain hnd hhyg hlit hgl0
        (fld0.fragments.map (fun p => p.1)) m hfrs hm hf
    have hfrne : fld0.fragments.map (fun p => p.1) ≠ [] := by
      intro he
      exact hne0 (List.map_eq_nil_iff.mp he)
    have hshrunk : FlagMid ns lit q (rest.map Prod.fst) Mmid :=
      FlagMid_shrink hflagM (hmarksM hfrne)
    obtain ⟨m1, heq1, hinv1, hflag1, hev1, hlit1⟩ :=
      ih Mmid (fun p hp => htm p (List.mem_cons_of_mem _ hp)) hinvM hshrunk
    refine ⟨m1, ?_, hinv1, hflag1, hevM.mtrans hev1, ?_⟩
    · simp only [AnnouncementOptions.deflate_tmps, bind, Except.bind]
      rw [hdn0, heqM]
      exact heq1
    · intro p hp hplit nf hnf hne hcont
      rcases List.mem_cons.mp hp with rfl | hp2
      · -- the head temp inserts the literal now
        have hlitfr : lit ∈ fld0.fragments.map (fun p => p.1) := by
          obtain ⟨b, hb⟩ := Option.isSome_iff_exists.mp hplit
          exact List.mem_map.mpr ⟨(lit, b), mget?_mem hb, rfl⟩
        have hcont2 : mcontains (get_delimited_name t0)
            nf.2.fragments = true := by
          rw [← hdn0]
          exact hcont
        obtain ⟨fmid, hfmid, hcmid⟩ := hinsM lit hlitfr nf hnf hne hcont2
        obtain ⟨f1, hf1, hevf⟩ := hev1.2 nf.1 fmid hfmid
        exact ⟨f1, hf1, hevf.2.2.1 lit hcmid⟩
      · -- later temp: transport the field into the middle map
        obtain ⟨fmid, hfmid, hevf⟩ := evolve_mem hm.1 hevM hnf
        refine hlit1 p hp2 hplit (nf.1, fmid) (mget?_mem hfmid) hne ?_
        exact hevf.2.2.1 _ hcont

theorem deflate_pass_chain {ns : List Str} {lit : Str} {q t : Nat}
    (hnd : ns.Nodup)
    (hhyg : ∀ n ∈ ns, FIELD_DELIMITER ∉ n ∧ byteLen n = n.length ∧
      (∀ c ∈ n, isWS c = false) ∧ is_reserved n = false)
    (hlit : FIELD_DELIMITER ∉ lit)
    {m : AList Field}
    (hm : ChainInv ns lit m) (hfb : FlagBound ns lit q m)
    (hlf : LitFrom ns lit t m) (ht : t < ns.length) :
    ∃ m1, AnnouncementOptions.deflate_tmps m m = .ok m1 ∧
      ChainInv ns lit m1 ∧ FlagBound ns lit (q + 1) m1 ∧ MapEvolves m m1 ∧
      LitFrom ns lit (t - 1) m1 := by
  have hFM : FlagMid ns lit q (m.map Prod.fst) m := by
    intro nf hnf p hp hpf
    rcases hfb nf hnf p hp hpf with he | ⟨j, n, hqj, hgj, he⟩
    · exact Or.inl he
    · obtain ⟨f, hfg, -⟩ := hm.2.2.2 j n hgj
      exact Or.inr ⟨j, n, hqj, hgj, he,
        Or.inl (List.mem_map.mpr ⟨(n, f), mget?_mem hfg, rfl⟩)⟩
  obtain ⟨m1, heq, hinv, hflag, hev, hlitp⟩ :=
    deflate_tmps_chain hnd hhyg hlit hm m m (fun p hp => hp) hm hFM
  refine ⟨m1, heq, hinv, FlagMid_nil_bound hflag, hev, ?_⟩
  intro i n hgi hti f1 hf1
  by_cases hit : t ≤ i
  · obtain ⟨f, hfg, -⟩ := hm.2.2.2 i n hgi
    have hcl := hlf i n hgi hit f hfg
    obtain ⟨f', hf', hevf⟩ := hev.2 n f hfg
    obtain rfl : f' = f1 := by
      rw [hf'] at hf1
      injection hf1
    exact hevf.2.2.1 lit hcl
  · -- i = t - 1 and t ≥ 1
    have hit2 : i + 1 = t := by omega
    obtain ⟨n2, hgn2⟩ : ∃ n2, ns.get? t = some n2 := by
      cases hq2 : ns.get? t with
      | none =>
        exfalso
        have := List.get?_eq_none.mp hq2
        omega
      | some n2 => exact ⟨n2, rfl⟩
    obtain ⟨f2, hf2, -⟩ := hm.2.2.2 t n2 hgn2
    have hlit2 : mcontains lit f2.fragments = true :=
      hlf t n2 hgn2 (le_refl t) f2 hf2
    obtain ⟨f, hfg, horig⟩ := hm.2.2.2 i n hgi
    have hcontref : mcontains (get_delimited_name n2) f.fragments = true :=
      horig n2 (by rw [hit2]; exact hgn2)
    obtain ⟨i2, hgi2, hdn2, -, -⟩ := hm.2.2.1 (n2, f2) (mget?_mem hf2)
    have hnne : n ≠ n2 := by
      intro he
      rw [he] at hgi
      have := nodup_get?_eq hnd hgi hgn2
      omega
    obtain ⟨f1', hf1', hc1⟩ := hlitp (n2, f2) (mget?_mem hf2) hlit2
      (n, f) (mget?_mem hfg) hnne (by rw [hdn2]; exact hcontref)
    obtain rfl : f1' = f1 := by
      rw [hf1'] at hf1
      injection hf1
    exact hc1

theorem splitWS_gdn {n : Str} (hws : ∀ c ∈ n, isWS c = false) :
    splitWS (get_delimited_name n) = [get_delimited_name n] := by
  refine splitWS_word (gdn_ne_nil n) ?_
  intro c hc
  rw [get_delimited_name] at hc
  rcases List.mem_cons.mp hc with rfl | hc2
  · rfl
  · rcases List.mem_append.mp hc2 with hc3 | hc3
    · exact hws c hc3
    · rw [List.mem_singleton.mp hc3]
      rfl

theorem chain_words {ns : List Str} {lit : Str}
    (hhyg : ∀ n ∈ ns, FIELD_DELIMITER ∉ n ∧ byteLen n = n.length ∧
      (∀ c ∈ n, isWS c = false) ∧ is_reserved n = false)
    (hlit : FIELD_DELIMITER ∉ lit)
    {m : AList Field} (hm : ChainInv ns lit m) :
    ∀ x ∈ AnnouncementOptions.allWords m,
      (∃ b, is_field_name x.2.2.2 = .ok b) ∧
      (is_field_name x.2.2.2 = .ok true →
        ∃ j n, ns.get? j = some n ∧ x.2.2.2 = get_delimited_name n ∧
          x.2.1 = get_delimited_name n ∧
          strip_delimiters x.2.2.2 = n) := by
  intro x hx
  obtain ⟨nf, hnf, fr, hfr, hxe, hw⟩ := allWords_mem_inv hx
  obtain ⟨i, hgi, -, -, hcf⟩ := hm.2.2.1 nf hnf
  rcases hcf fr hfr with he | ⟨j, n, hij, hgj, he⟩
  · -- literal fragment: every word is delimiter-free
    have hwl : FIELD_DELIMITER ∉ x.2.2.2 := by
      intro hd
      rw [he] at hw
      exact hlit (splitWS_chars_subset hw FIELD_DELIMITER hd)
    refine ⟨⟨false, is_field_name_no_delim hwl⟩, ?_⟩
    intro htok
    rw [is_field_name_no_delim hwl] at htok
    exact absurd (by injection htok) (by simp)
  · -- reference fragment: the single word is the whole token
    have hn := hhyg n (List.get?_mem hgj)
    have hweq : x.2.2.2 = get_delimited_name n := by
      rw [he, splitWS_gdn hn.2.2.1] at hw
      exact List.mem_singleton.mp hw
    have hfre : x.2.1 = get_delimited_name n := by
      rw [hxe]
      exact he
    refine ⟨⟨true, by rw [hweq]; exact delimited_ok hn.1 hn.2.1⟩, ?_⟩
    intro _
    exact ⟨j, n, hgj, hweq, hfre, by rw [hweq]; exact strip_delimited hn.1⟩

theorem chain_words_flags {ns : List Str} {lit : Str}
    (hhyg : ∀ n ∈ ns, FIELD_DELIMITER ∉ n ∧ byteLen n = n.length ∧
      (∀ c ∈ n, isWS c = false) ∧ is_reserved n = false)
    (hlit : FIELD_DELIMITER ∉ lit)
    {m : AList Field} (hm : ChainInv ns lit m)
    (hnofalse : ∀ nf ∈ m, ∀ p ∈ nf.2.fragments, p.2 = false → p.1 = lit) :
    ∀ x ∈ AnnouncementOptions.allWords m,
      is_field_name x.2.2.2 = .ok true → x.2.2.1 = true := by
  intro x hx htok
  obtain ⟨nf, hnf, fr, hfr, hxe, hw⟩ := allWords_mem_inv hx
  obtain ⟨-, hword⟩ := chain_words hhyg hlit hm x hx
  obtain ⟨j, n, hgj, -, hfre, -⟩ := hword htok
  cases hu : fr.2 with
  | true =>
    rw [hxe]
    exact hu
  | false =>
    exfalso
    have hfl := hnofalse nf hnf fr hfr hu
    rw [hxe] at hfre
    dsimp only at hfre
    rw [hfl] at hfre
    exact lit_ne_gdn hlit hfre

theorem unresolved_scan_true {ws : List (Str × Str × Bool × Str)}
    (hwf : ∀ x ∈ ws, ∃ b, is_field_name x.2.2.2 = .ok b)
    (hex : ∃ x ∈ ws, is_field_name x.2.2.2 = .ok true ∧
      is_reserved (strip_delimiters x.2.2.2) = false) :
    AnnouncementOptions.unresolved_scan ws = .ok true := by
  induction ws with
  | nil =>
    obtain ⟨x, hx, -⟩ := hex
    simp at hx
  | cons x t ih =>
    obtain ⟨x0, hx0, hb0, hr0⟩ := hex
    obtain ⟨n0, f0, u0, w0⟩ := x
    obtain ⟨b, hb⟩ := hwf _ (List.mem_cons_self _ _)
    simp only [AnnouncementOptions.unresolved_scan]
    rw [hb]
    dsimp only
    by_cases hc : (b && !is_reserved (strip_delimiters w0)) = true
    · rw [if_pos hc]
    · rw [if_neg hc]
      rcases List.mem_cons.mp hx0 with rfl | hx1
      · exfalso
        dsimp only at hb0 hr0
        rw [hb0] at hb
        have hbt : b = true := by injection hb with h1; exact h1.symm
        rw [hbt, hr0] at hc
        exact hc rfl
      · exact ih (fun y hy => hwf y (List.mem_cons_of_mem _ hy)) ⟨x0, hx1, hb0, hr0⟩

theorem chain_scan_true {ns : List Str} {lit : Str}
    (hhyg : ∀ n ∈ ns, FIELD_DELIMITER ∉ n ∧ byteLen n = n.length ∧
      (∀ c ∈ n, isWS c = false) ∧ is_reserved n = false)
    (hlit : FIELD_DELIMITER ∉ lit)
    {m : AList Field} (hm : ChainInv ns lit m) (h2 : 2 ≤ ns.length) :
    AnnouncementOptions.unresolved_scan (AnnouncementOptions.allWords m) =
      .ok true := by
  obtain ⟨n0, hg0⟩ : ∃ n0, ns.get? 0 = some n0 := by
    cases hq : ns.get? 0 with
    | none =>
      exfalso
      have := List.get?_eq_none.mp hq
      omega
    | some n0 => exact ⟨n0, rfl⟩
  obtain ⟨n1, hg1⟩ : ∃ n1, ns.get? 1 = some n1 := by
    cases hq : ns.get? 1 with
    | none =>
      exfalso
      have := List.get?_eq_none.mp hq
      omega
    | some n1 => exact ⟨n1, rfl⟩
  obtain ⟨f0, hf0, horig⟩ := hm.2.2.2 0 n0 hg0
  have hc0 : mcontains (get_delimited_name n1) f0.fragments = true :=
    horig n1 hg1
  obtain ⟨b, hbm⟩ := Option.isSome_iff_exists.mp hc0
  have hn1 := hhyg n1 (List.get?_mem hg1)
  have hx : (n0, get_delimited_name n1, b, get_delimited_name n1) ∈
      AnnouncementOptions.allWords m := by
    refine mem_allWords (mget?_mem hf0) (mget?_mem hbm) ?_
    rw [splitWS_gdn hn1.2.2.1]
    exact List.mem_singleton.mpr rfl
  refine unresolved_scan_true
    (fun x hxx => (chain_words hhyg hlit hm x hxx).1) ⟨_, hx, ?_, ?_⟩
  · exact delimited_ok hn1.1 hn1.2.1
  · rw [strip_delimited hn1.1]
    exact hn1.2.2.2

theorem deflate_chain {ns : List Str} {lit : Str}
    (hnd : ns.Nodup)
    (hhyg : ∀ n ∈ ns, FIELD_DELIMITER ∉ n ∧ byteLen n = n.length ∧
      (∀ c ∈ n, isWS c = false) ∧ is_reserved n = false)
    (hlit : FIELD_DELIMITER ∉ lit) (h2 : 2 ≤ ns.length) :
    ∀ (r : Nat) (m : AList Field) (q t : Nat),
      ChainInv ns lit m → FlagBound ns lit q m → LitFrom ns lit t m →
      ns.length ≤ q + r → t ≤ r → t < ns.length →
      ∃ m1, AnnouncementOptions.deflate r m = .ok m1 ∧ ChainInv ns lit m1 ∧
        LitFrom ns lit 0 m1 ∧
        (∀ nf ∈ m1, ∀ p ∈ nf.2.fragments, p.2 = false → p.1 = lit) := by
  intro r
  induction r with
  | zero =>
    intro m q t hm hfb hlf hq ht0 htlen
    obtain rfl : t = 0 := by omega
    refine ⟨m, rfl, hm, hlf, ?_⟩
    intro nf hnf p hp hpf
    rcases hfb nf hnf p hp hpf with he | ⟨j, n, hqj, hgj, he⟩
    · exact he
    · exfalso
      obtain ⟨hjb, -⟩ := List.get?_eq_some.mp hgj
      omega
  | succ r ih =>
    intro m q t hm hfb hlf hq ht0 htlen
    have hscan := chain_scan_true hhyg hlit hm h2
    obtain ⟨mp, hpeq, hpinv, hpflag, hpev, hplit⟩ :=
      deflate_pass_chain hnd hhyg hlit hm hfb hlf htlen
    obtain ⟨m1, heq1, hinv1, hlit1, hnf1⟩ :=
      ih mp (q + 1) (t - 1) hpinv hpflag hplit (by omega) (by omega) (by omega)
    refine ⟨m1, ?_, hinv1, hlit1, hnf1⟩
    simp only [AnnouncementOptions.deflate, bind, Except.bind]
    rw [hscan]
    dsimp only
    simp only [Bool.not_true, Bool.false_eq_true, if_false]
    rw [hpeq]
    exact heq1

theorem chain_fields_names (lit : Str) :
    ∀ ns : List Str, (chain_fields lit ns).map (fun uf => uf.name) = ns := by
  intro ns
  induction ns with
  | nil => rfl
  | cons n t ih =>
    simp only [chain_fields, List.map_cons, ih]

theorem chain_fields_mem {lit : Str} :
    ∀ {ns : List Str} {uf : UserField}, uf ∈ chain_fields lit ns →
      ∃ i, ns.get? i = some uf.name ∧ uf.whole = true ∧
        ((ns.get? (i+1) = none ∧ uf.fragments = [lit]) ∨
         (∃ n2, ns.get? (i+1) = some n2 ∧
           uf.fragments = [get_delimited_name n2])) := by
  intro ns
  induction ns with
  | nil =>
    intro uf huf
    simp [chain_fields] at huf
  | cons n t ih =>
    intro uf huf
    simp only [chain_fields] at huf
    rcases List.mem_cons.mp huf with rfl | huf2
    · refine ⟨0, rfl, rfl, ?_⟩
      cases t with
      | nil => exact Or.inl ⟨rfl, rfl⟩
      | cons n2 t2 => exact Or.inr ⟨n2, rfl, rfl⟩
    · obtain ⟨i, hgi, hwh, hshape⟩ := ih huf2
      exact ⟨i + 1, hgi, hwh, hshape⟩

theorem chain_fields_get {lit : Str} :
    ∀ {ns : List Str} {i : Nat} {n : Str}, ns.get? i = some n →
      ∃ uf ∈ chain_fields lit ns, uf.name = n ∧
        ((ns.get? (i+1) = none ∧ uf.fragments = [lit]) ∨
         (∃ n2, ns.get? (i+1) = some n2 ∧
           uf.fragments = [get_delimited_name n2])) := by
  intro ns
  induction ns with
  | nil =>
    intro i n h
    simp [List.get?] at h
  | cons n0 t ih =>
    intro i n h
    cases i with
    | zero =>
      obtain rfl : n0 = n := by simpa using h
      refine ⟨_, List.mem_cons_self _ _, rfl, ?_⟩
      cases t with
      | nil => exact Or.inl ⟨rfl, rfl⟩
      | cons n2 t2 => exact Or.inr ⟨n2, rfl, rfl⟩
    | succ i =>
      obtain ⟨uf, hufm, hname, hshape⟩ := ih h
      exact ⟨uf, List.mem_cons_of_mem _ hufm, hname, hshape⟩

theorem build_patterns_msorted {ps : List UserField} {m m' : AList Field}
    (hs : msorted m) (h : AnnouncementOptions.build_patterns ps m = .ok m') :
    msorted m' := by
  induction ps generalizing m with
  | nil =>
    simp only [AnnouncementOptions.build_patterns, Except.ok.injEq] at h
    exact h ▸ hs
  | cons uf t ih =>
    simp only [AnnouncementOptions.build_patterns] at h
    by_cases hc : mcontains uf.name m
    · simp [hc] at h
    · simp only [hc, Bool.false_eq_true, if_false] at h
      exact ih (msorted_minsert hs) h

theorem build_patterns_ok {ps : List UserField} :
    ∀ m : AList Field,
      List.Nodup (ps.map (fun uf => uf.name)) →
      (∀ uf ∈ ps, mcontains uf.name m = false) →
      ∃ m', AnnouncementOptions.build_patterns ps m = .ok m' := by
  induction ps with
  | nil =>
    intro m _ _
    exact ⟨m, rfl⟩
  | cons uf t ih =>
    intro m hnd hdisj
    have hc := hdisj uf (List.mem_cons_self _ _)
    simp only [AnnouncementOptions.build_patterns, hc, Bool.false_eq_true,
      if_false]
    rw [List.map_cons] at hnd
    have hnd2 := List.nodup_cons.mp hnd
    refine ih _ hnd2.2 ?_
    intro uf2 huf2
    rw [mcontains_minsert]
    have hne : uf2.name ≠ uf.name := by
      intro he
      exact hnd2.1 (he ▸ List.mem_map.mpr ⟨uf2, huf2, rfl⟩)
    simp [hne, hdisj uf2 (List.mem_cons_of_mem _ huf2)]

theorem chain_build {ns : List Str} {lit : Str}
    (hnd : ns.Nodup)
    (hhyg : ∀ n ∈ ns, FIELD_DELIMITER ∉ n ∧ byteLen n = n.length ∧
      (∀ c ∈ n, isWS c = false) ∧ is_reserved n = false)
    (hlit : FIELD_DELIMITER ∉ lit) :
    ∃ m0, AnnouncementOptions.build_patterns (chain_fields lit ns) [] =
        .ok m0 ∧
      ChainInv ns lit m0 ∧ FlagBound ns lit 1 m0 ∧
      LitFrom ns lit (ns.length - 1) m0 := by
  obtain ⟨m0, heq⟩ := @build_patterns_ok (chain_fields lit ns) []
    (by rw [chain_fields_names]; exact hnd) (fun uf _ => rfl)
  have hfold : ∀ X : Str,
      [X].foldl (fun s f => minsert f false s) ([] : AList Bool) =
        [(X, false)] := fun X => rfl
  have hentries : ∀ nf ∈ m0, ∃ uf ∈ chain_fields lit ns, nf.1 = uf.name ∧
      nf.2 = ⟨get_delimited_name uf.name, uf.whole,
        uf.fragments.foldl (fun s f => minsert f false s) []⟩ := by
    intro nf hnf
    rcases build_patterns_mem heq nf hnf with habs | hgot
    · simp at habs
    · exact hgot
  refine ⟨m0, heq, ⟨?_, ?_, ?_, ?_⟩, ?_, ?_⟩
  · exact build_patterns_msorted List.Pairwise.nil heq
  · exact build_patterns_sorted (fun nf hnf => by simp at hnf) heq
  · intro nf hnf
    obtain ⟨uf, hufm, hn1, hn2⟩ := hentries nf hnf
    obtain ⟨i, hgi, hwh, hshape⟩ := chain_fields_mem hufm
    refine ⟨i, by rw [hn1]; exact hgi, by rw [hn2, hn1], ?_, ?_⟩
    · rw [hn2]
      rcases hshape with ⟨-, hfr⟩ | ⟨n2, -, hfr⟩ <;>
        simp [hfr, hfold]
    · intro p hp
      rw [hn2] at hp
      rcases hshape with ⟨-, hfr⟩ | ⟨n2, hg2, hfr⟩
      · rw [hfr, hfold] at hp
        obtain rfl : p = (lit, false) := List.mem_singleton.mp hp
        exact Or.inl rfl
      · rw [hfr, hfold] at hp
        obtain rfl : p = (get_delimited_name n2, false) :=
          List.mem_singleton.mp hp
        exact Or.inr ⟨i + 1, n2, by omega, hg2, rfl⟩
  · intro i n hgi
    obtain ⟨uf, hufm, hname, hshape⟩ := chain_fields_get hgi
    obtain ⟨f, hgf, -, -, hfrags⟩ := build_patterns_get heq uf hufm
    refine ⟨f, by rw [← hname]; exact hgf, ?_⟩
    intro n2 hg2
    rcases hshape with ⟨hnone, -⟩ | ⟨n2', hg2', hfr⟩
    · rw [hnone] at hg2
      exact Option.noConfusion hg2
    · obtain rfl : n2' = n2 := by
        rw [hg2'] at hg2
        injection hg2
      rw [hfrags, hfr, hfold]
      simp [mcontains, mget?]
  · intro nf hnf p hp hpf
    obtain ⟨uf, hufm, hn1, hn2⟩ := hentries nf hnf
    obtain ⟨i, hgi, -, hshape⟩ := chain_fields_mem hufm
    rw [hn2] at hp
    rcases hshape with ⟨-, hfr⟩ | ⟨n2, hg2, hfr⟩
    · rw [hfr, hfold] at hp
      obtain rfl : p = (lit, false) := List.mem_singleton.mp hp
      exact Or.inl rfl
    · rw [hfr, hfold] at hp
      obtain rfl : p = (get_delimited_name n2, false) :=
        List.mem_singleton.mp hp
      exact Or.inr ⟨i + 1, n2, by omega, hg2, rfl⟩
  · intro i n hgi hle f hf
    obtain ⟨uf, hufm, hname, hshape⟩ := chain_fields_get hgi
    obtain ⟨f0, hgf, -, -, hfrags⟩ := build_patterns_get heq uf hufm
    obtain ⟨hib, -⟩ := List.get?_eq_some.mp hgi
    rcases hshape with ⟨-, hfr⟩ | ⟨n2, hg2, -⟩
    · obtain rfl : f0 = f := by
        rw [hname] at hgf
        rw [hgf] at hf
        injection hf
      rw [hfrags, hfr, hfold]
      simp [mcontains, mget?]
    · exfalso
      obtain ⟨hjb, -⟩ := List.get?_eq_some.mp hg2
      omega

theorem chain_no_self_dep {ns : List Str} {lit : Str}
    (hnd : ns.Nodup)
    (hhyg : ∀ n ∈ ns, FIELD_DELIMITER ∉ n ∧ byteLen n = n.length ∧
      (∀ c ∈ n, isWS c = false) ∧ is_reserved n = false)
    (hlit : FIELD_DELIMITER ∉ lit)
    {m : AList Field} (hm : ChainInv ns lit m) :
    ∀ nf ∈ m, nf.2.has_self_dependency = none := by
  intro nf hnf
  obtain ⟨i, hgi, hdn, -, hcf⟩ := hm.2.2.1 nf hnf
  have hocc := (chain_rak_conditions hnd hhyg hlit hm hgi nf hnf).1
  simp only [Field.has_self_dependency]
  rw [List.find?_eq_none.mpr (fun p hp => by simp [hocc p hp])]

theorem self_dep_check_ok :
    ∀ {l : List (Str × Field)},
      (∀ nf ∈ l, nf.2.has_self_dependency = none) →
      AnnouncementOptions.self_dep_check l = .ok () := by
  intro l
  induction l with
  | nil =>
    intro h
    rfl
  | cons q t ih =>
    intro h
    obtain ⟨n, fld⟩ := q
    simp only [AnnouncementOptions.self_dep_check]
    rw [h (n, fld) (List.mem_cons_self _ _)]
    exact ih (fun nf hnf => h nf (List.mem_cons_of_mem _ hnf))

theorem reserved_check_ok :
    ∀ {ks : List Str}, (∀ k ∈ ks, is_reserved k = false) →
      AnnouncementOptions.reserved_check ks = .ok () := by
  intro ks
  induction ks with
  | nil =>
    intro h
    rfl
  | cons k t ih =>
    intro h
    simp only [AnnouncementOptions.reserved_check,
      h k (List.mem_cons_self _ _), Bool.false_eq_true, if_false]
    exact ih (fun k2 hk2 => h k2 (List.mem_cons_of_mem _ hk2))

theorem delimiter_check_ok :
    ∀ {ws : List (Str × Str × Bool × Str)},
      (∀ x ∈ ws, ∃ b, is_field_name x.2.2.2 = .ok b) →
      AnnouncementOptions.delimiter_check ws = .ok () := by
  intro ws
  induction ws with
  | nil =>
    intro h
    rfl
  | cons x t ih =>
    intro h
    obtain ⟨name, frag, u, w⟩ := x
    obtain ⟨b, hb⟩ := h _ (List.mem_cons_self _ _)
    simp only [AnnouncementOptions.delimiter_check]
    rw [hb]
    exact ih (fun y hy => h y (List.mem_cons_of_mem _ hy))

theorem missing_check_ok {neutral : AList Field}
    {tense : AList TensedUserField} :
    ∀ {ws : List (Str × Str × Bool × Str)},
      (∀ x ∈ ws, ∃ b, is_field_name x.2.2.2 = .ok b ∧
        (b = true → mcontains (strip_delimiters x.2.2.2) neutral = true)) →
      AnnouncementOptions.missing_check neutral tense ws = .ok () := by
  intro ws
  induction ws with
  | nil =>
    intro h
    rfl
  | cons x t ih =>
    intro h
    obtain ⟨name, frag, u, w⟩ := x
    obtain ⟨b, hb, hcont⟩ := h _ (List.mem_cons_self _ _)
    simp only [AnnouncementOptions.missing_check]
    rw [hb]
    dsimp only
    cases b with
    | false =>
      simp only [Bool.false_eq_true, if_false]
      exact ih (fun y hy => h y (List.mem_cons_of_mem _ hy))
    | true =>
      simp only [if_true]
      rw [hcont rfl]
      simp only [Bool.not_true, Bool.false_and, Bool.false_eq_true, if_false]
      exact ih (fun y hy => h y (List.mem_cons_of_mem _ hy))

theorem fragment_resolved_lits {keys : List Str} :
    ∀ ws : List Str, (∀ w ∈ ws, FIELD_DELIMITER ∉ w) →
      fragment_resolved_against keys ws = .ok true := by
  intro ws
  induction ws with
  | nil =>
    intro _
    rfl
  | cons w t ih =>
    intro h
    simp only [fragment_resolved_against, word_unresolved_against, bind,
      Except.bind]
    rw [is_field_name_no_delim (h w (List.mem_cons_self _ _))]
    dsimp only
    have ht := ih (fun w2 hw2 => h w2 (List.mem_cons_of_mem _ hw2))
    simp only [fragment_resolved_against, bind, Except.bind] at ht
    rw [ht]
    simp [pure, Except.pure]

theorem fragment_resolved_wf {keys : List Str} :
    ∀ ws : List Str, (∀ w ∈ ws, ∃ b, is_field_name w = .ok b) →
      ∃ b, fragment_resolved_against keys ws = .ok b := by
  intro ws
  induction ws with
  | nil =>
    intro _
    exact ⟨true, rfl⟩
  | cons w t ih =>
    intro h
    obtain ⟨b0, hb0⟩ := h w (List.mem_cons_self _ _)
    obtain ⟨br, hbr⟩ := ih (fun w2 hw2 => h w2 (List.mem_cons_of_mem _ hw2))
    cases hq : fragment_resolved_against keys (w :: t) with
    | ok b => exact ⟨b, rfl⟩
    | error e =>
      exfalso
      simp only [fragment_resolved_against, word_unresolved_against, bind,
        Except.bind] at hq
      rw [hb0] at hq
      dsimp only at hq
      rw [hbr] at hq
      simp [pure, Except.pure] at hq

theorem frags_resolved_once_true {keys : List Str} :
    ∀ (l : List (Str × Bool)) (acc : Bool),
      (∀ p ∈ l, ∃ b, fragment_resolved_against keys (splitWS p.1) = .ok b) →
      ((∃ p ∈ l, fragment_resolved_against keys (splitWS p.1) = .ok true) ∨
        acc = true) →
      frags_resolved_once keys l acc = .ok true := by
  intro l
  induction l with
  | nil =>
    intro acc hwf hex
    rcases hex with ⟨p, hp, -⟩ | ha
    · simp at hp
    · subst ha
      rfl
  | cons p t ih =>
    intro acc hwf hex
    obtain ⟨frag, u⟩ := p
    obtain ⟨b, hb⟩ := hwf (frag, u) (List.mem_cons_self _ _)
    simp only [frags_resolved_once, bind, Except.bind]
    rw [hb]
    dsimp only
    refine ih (acc || b) (fun r hr => hwf r (List.mem_cons_of_mem _ hr)) ?_
    rcases hex with ⟨p0, hp0, hres⟩ | ha
    · rcases List.mem_cons.mp hp0 with rfl | hp1
      · right
        rw [hres] at hb
        have hbt : b = true := by injection hb with h1; exact h1.symm
        simp [hbt]
      · exact Or.inl ⟨p0, hp1, hres⟩
    · right
      simp [ha]

theorem each_field_check_ok {keys : List Str} {d : Nat} :
    ∀ {l : List (Str × Field)},
      (∀ p ∈ l, p.2.each_fragment_is_resolved_once keys = .ok true) →
      AnnouncementOptions.each_field_check keys d l = .ok () := by
  intro l
  induction l with
  | nil =>
    intro _
    rfl
  | cons q t ih =>
    intro h
    obtain ⟨n, fld⟩ := q
    simp only [AnnouncementOptions.each_field_check, bind, Except.bind]
    rw [h (n, fld) (List.mem_cons_self _ _)]
    dsimp only
    simp only [Bool.not_true, Bool.false_eq_true, if_false]
    exact ih (fun p hp => h p (List.mem_cons_of_mem _ hp))

theorem collect_unresolved_chain {d : Nat} :
    ∀ {ws : List (Str × Str × Bool × Str)},
      (∀ x ∈ ws, ∃ b, is_field_name x.2.2.2 = .ok b) →
      (∀ x ∈ ws, is_field_name x.2.2.2 = .ok true → x.2.2.1 = true) →
      ∃ rm, AnnouncementOptions.collect_unresolved d ws = .ok rm := by
  intro ws
  induction ws with
  | nil =>
    intro _ _
    exact ⟨[], rfl⟩
  | cons x t ih =>
    intro hwf hflags
    obtain ⟨name, frag, used, w⟩ := x
    obtain ⟨b, hb⟩ := hwf _ (List.mem_cons_self _ _)
    obtain ⟨rm, hrm⟩ := ih (fun y hy => hwf y (List.mem_cons_of_mem _ hy))
      (fun y hy => hflags y (List.mem_cons_of_mem _ hy))
    simp only [AnnouncementOptions.collect_unresolved]
    rw [hb]
    dsimp only
    by_cases hc : (b && !is_reserved (strip_delimiters w)) = true
    · rw [if_pos hc]
      have hbt : b = true := by
        cases b
        · simp at hc
        · rfl
      have hu : used = true := hflags _ (List.mem_cons_self _ _)
        (by rw [← hbt]; exact hb)
      rw [hu]
      simp only [Bool.not_true, Bool.false_eq_true, if_false, bind,
        Except.bind]
      rw [hrm]
      exact ⟨(name, frag) :: rm, rfl⟩
    · rw [if_neg hc]
      exact ⟨rm, hrm⟩

theorem frag_has_unresolved_wf :
    ∀ {ws : List Str}, (∀ w ∈ ws, ∃ b, is_field_name w = .ok b) →
      ∃ b, AnnouncementOptions.frag_has_unresolved ws = .ok b := by
  intro ws
  induction ws with
  | nil =>
    intro _
    exact ⟨false, rfl⟩
  | cons w t ih =>
    intro h
    obtain ⟨b0, hb0⟩ := h w (List.mem_cons_self _ _)
    obtain ⟨br, hbr⟩ := ih (fun w2 hw2 => h w2 (List.mem_cons_of_mem _ hw2))
    simp only [AnnouncementOptions.frag_has_unresolved]
    rw [hb0]
    dsimp only
    by_cases hc : (b0 && !is_reserved (strip_delimiters w)) = true
    · rw [if_pos hc]
      exact ⟨true, rfl⟩
    · rw [if_neg hc]
      exact ⟨br, hbr⟩

theorem frags_unresolved_wf {name : Str} :
    ∀ {frs : List (Str × Bool)},
      (∀ fr ∈ frs, ∀ w ∈ splitWS fr.1, ∃ b, is_field_name w = .ok b) →
      ∃ rm, AnnouncementOptions.frags_unresolved name frs = .ok rm ∧
        ∀ p ∈ rm, p.1 = name := by
  intro frs
  induction frs with
  | nil =>
    intro _
    exact ⟨[], rfl, fun p hp => by simp at hp⟩
  | cons fr t ih =>
    intro h
    obtain ⟨frag, u⟩ := fr
    obtain ⟨b, hb⟩ := frag_has_unresolved_wf (h (frag, u) (List.mem_cons_self _ _))
    obtain ⟨rm, hrm, hnames⟩ := ih (fun fr2 hfr2 => h fr2 (List.mem_cons_of_mem _ hfr2))
    refine ⟨if b then (name, frag) :: rm else rm, ?_, ?_⟩
    · simp only [AnnouncementOptions.frags_unresolved, bind, Except.bind]
      rw [hb]
      dsimp only
      rw [hrm]
      dsimp only
      rfl
    · intro p hp
      by_cases hbc : b = true
      · rw [hbc] at hp
        simp only [if_true] at hp
        rcases List.mem_cons.mp hp with rfl | hp2
        · rfl
        · exact hnames p hp2
      · rw [Bool.of_not_eq_true hbc] at hp
        simp only [Bool.false_eq_true, if_false] at hp
        exact hnames p hp

theorem get_unresolved_wf :
    ∀ {l : List (Str × Field)},
      (∀ nf ∈ l, ∀ fr ∈ nf.2.fragments, ∀ w ∈ splitWS fr.1,
        ∃ b, is_field_name w = .ok b) →
      ∃ rm, AnnouncementOptions.get_unresolved l = .ok rm ∧
        ∀ p ∈ rm, ∃ nf ∈ l, p.1 = nf.1 := by
  intro l
  induction l with
  | nil =>
    intro _
    exact ⟨[], rfl, fun p hp => by simp at hp⟩
  | cons q t ih =>
    intro h
    obtain ⟨name, fld⟩ := q
    obtain ⟨here, hhere, hhn⟩ :=
      @frags_unresolved_wf name fld.fragments (h (name, fld) (List.mem_cons_self _ _))
    obtain ⟨rest, hrest, hrn⟩ := ih (fun nf hnf => h nf (List.mem_cons_of_mem _ hnf))
    refine ⟨here ++ rest, ?_, ?_⟩
    · simp only [AnnouncementOptions.get_unresolved, bind, Except.bind]
      rw [hhere]
      dsimp only
      rw [hrest]
      dsimp only
      rfl
    · intro p hp
      rcases List.mem_append.mp hp with hp1 | hp1
      · exact ⟨(name, fld), List.mem_cons_self _ _, hhn p hp1⟩
      · obtain ⟨nf, hnf, he⟩ := hrn p hp1
        exact ⟨nf, List.mem_cons_of_mem _ hnf, he⟩

theorem remove_internal_ok :
    ∀ (rm : List (Str × Str)) (m : AList Field),
      (∀ p ∈ rm, mcontains p.1 m = true) →
      ∃ m', AnnouncementOptions.remove_internal rm m = .ok m' := by
  intro rm
  induction rm with
  | nil =>
    intro m _
    exact ⟨m, rfl⟩
  | cons p t ih =>
    intro m h
    obtain ⟨name, frag⟩ := p
    obtain ⟨fld, hfld⟩ :=
      Option.isSome_iff_exists.mp (h (name, frag) (List.mem_cons_self _ _))
    simp only [AnnouncementOptions.remove_internal]
    rw [hfld]
    dsimp only
    refine ih _ ?_
    intro p2 hp2
    have h2 := h p2 (List.mem_cons_of_mem _ hp2)
    by_cases he : p2.1 = name
    · rw [he]
      show (mget? name (AnnouncementOptions.mset name _ m)).isSome = true
      rw [mget?_mset_self name _ fld m hfld]
      rfl
    · show (mget? p2.1 (AnnouncementOptions.mset name _ m)).isSome = true
      rw [mget?_mset_ne p2.1 name _ m he]
      exact h2

theorem allFrags_mem_inv {m : AList Field} {p : Str × Str}
    (h : p ∈ AnnouncementOptions.allFrags m) :
    ∃ nf ∈ m, ∃ fr ∈ nf.2.fragments, p = (nf.1, fr.1) := by
  simp only [AnnouncementOptions.allFrags, List.mem_flatMap,
    List.mem_map] at h
  obtain ⟨nf, hnf, fr, hfr, rfl⟩ := h
  exact ⟨nf, hnf, fr, hfr, rfl⟩

theorem add_and_insert_texts {P : Str → Prop} {m : AList Field}
    {name fragment : Str} {fld : Field}
    (hfr : P fragment)
    (hm : ∀ nf ∈ m, ∀ pp ∈ nf.2.fragments, P pp.1) :
    ∀ nf ∈ AnnouncementOptions.add_and_insert m name fragment fld,
      ∀ pp ∈ nf.2.fragments, P pp.1 := by
  have hm2 : ∀ nf ∈ (if mcontains name m then m
      else minsert name
        ⟨fld.delimited_name, fld.whole, []⟩ m),
      ∀ pp ∈ nf.2.fragments, P pp.1 := by
    by_cases hc : mcontains name m
    · rw [if_pos hc]
      exact hm
    · rw [if_neg hc]
      intro nf hnf pp hpp
      rcases mem_minsert hnf with rfl | hnf2
      · simp at hpp
      · exact hm nf hnf2 pp hpp
  intro nf hnf pp hpp
  simp only [AnnouncementOptions.add_and_insert] at hnf
  obtain ⟨q0, hq0, rfl⟩ := List.mem_map.mp hnf
  by_cases hq : (q0.1 == name) = true
  · rw [if_pos hq] at hpp
    dsimp only at hpp
    rcases mem_minsert hpp with rfl | hpp2
    · exact hfr
    · exact hm2 q0 hq0 _ hpp2
  · rw [if_neg hq] at hpp
    exact hm2 q0 hq0 pp hpp

theorem add_all_chain {neutral : AList Field} {P : Str → Prop} :
    ∀ (ps : List (Str × Str)) (m : AList Field),
      (∀ p ∈ ps, mcontains p.1 neutral = true) →
      (∀ p ∈ ps, P p.2) →
      (∀ nf ∈ m, ∀ pp ∈ nf.2.fragments, P pp.1) →
      ∃ m', AnnouncementOptions.add_all neutral ps m = .ok m' ∧
        ∀ nf ∈ m', ∀ pp ∈ nf.2.fragments, P pp.1 := by
  intro ps
  induction ps with
  | nil =>
    intro m _ _ hm
    exact ⟨m, rfl, hm⟩
  | cons p t ih =>
    intro m hk hP hm
    obtain ⟨name, fragment⟩ := p
    obtain ⟨fld, hfld⟩ :=
      Option.isSome_iff_exists.mp (hk (name, fragment) (List.mem_cons_self _ _))
    simp only [AnnouncementOptions.add_all]
    rw [hfld]
    dsimp only
    exact ih _ (fun p2 hp2 => hk p2 (List.mem_cons_of_mem _ hp2))
      (fun p2 hp2 => hP p2 (List.mem_cons_of_mem _ hp2))
      (add_and_insert_texts (hP (name, fragment) (List.mem_cons_self _ _)) hm)

theorem build_map_none {u : UserAnnouncementOptions}
    {st : AnnouncementOptions} {n : AList Field}
    (hn : AnnouncementOptions.build_patterns u.patterns st.neutral = .ok n)
    (ht : u.tense_patterns = none) :
    AnnouncementOptions.build_map u st = .ok { st with neutral := n } := by
  simp only [AnnouncementOptions.build_map, bind, Except.bind]
  rw [hn]
  dsimp only
  rw [ht]
  rfl

theorem deflate_tense_none {st : AnnouncementOptions} (ht : st.tense = [])
    {past2 present2 : AList Field}
    (hp : AnnouncementOptions.add_all st.neutral
      (AnnouncementOptions.allFrags st.neutral) st.past = .ok past2)
    (hq : AnnouncementOptions.add_all st.neutral
      (AnnouncementOptions.allFrags st.neutral) st.present = .ok present2) :
    AnnouncementOptions.deflate_tense st =
      .ok { st with past := past2, present := present2 } := by
  simp only [AnnouncementOptions.deflate_tense, bind, Except.bind]
  rw [ht, tense_collect_nil]
  dsimp only
  simp only [AnnouncementOptions.mark_used]
  rw [hp]
  dsimp only
  rw [hq]
  rfl

theorem remove_unresolved_eq {d : Nat} {st : AnnouncementOptions}
    {rm pastRm presentRm : List (Str × Str)} {past2 present2 : AList Field}
    (h1 : AnnouncementOptions.collect_unresolved d
      (AnnouncementOptions.allWords st.neutral) = .ok rm)
    (h2 : AnnouncementOptions.get_unresolved st.past = .ok pastRm)
    (h3 : AnnouncementOptions.remove_internal pastRm st.past = .ok past2)
    (h4 : AnnouncementOptions.get_unresolved st.present = .ok presentRm)
    (h5 : AnnouncementOptions.remove_internal presentRm st.present =
      .ok present2) :
    AnnouncementOptions.remove_unresolved d st =
      .ok { st with
        neutral := AnnouncementOptions.apply_removals rm st.neutral,
        past := past2, present := present2 } := by
  simp only [AnnouncementOptions.remove_unresolved, bind, Except.bind]
  rw [h1]
  dsimp only
  rw [h2]
  dsimp only
  rw [h3]
  dsimp only
  rw [h4]
  dsimp only
  rw [h5]
  rfl

theorem from_user_eq {u : UserAnnouncementOptions} {d : Nat}
    {st1 : AnnouncementOptions} {n2 : AList Field}
    {st3 opts : AnnouncementOptions}
    (h1 : AnnouncementOptions.build_map u
      (AnnouncementOptions.init_state u) = .ok st1)
    (h2 : AnnouncementOptions.self_dep_check st1.neutral = .ok ())
    (h3 : AnnouncementOptions.reserved_check (mkeys st1.neutral) = .ok ())
    (h4 : AnnouncementOptions.reserved_check (mkeys st1.tense) = .ok ())
    (h5 : AnnouncementOptions.delimiter_check
      (AnnouncementOptions.allWords st1.neutral) = .ok ())
    (h6 : AnnouncementOptions.missing_check st1.neutral st1.tense
      (AnnouncementOptions.allWords st1.neutral) = .ok ())
    (h7 : AnnouncementOptions.deflate d st1.neutral = .ok n2)
    (h8 : AnnouncementOptions.deflate_tense { st1 with neutral := n2 } =
      .ok st3)
    (h9 : AnnouncementOptions.each_field_check (mkeys st3.tense) d
      st3.neutral = .ok ())
    (h10 : AnnouncementOptions.remove_unresolved d st3 = .ok opts) :
    AnnouncementOptions.from_user u d = .ok opts := by
  simp only [AnnouncementOptions.from_user, bind, Except.bind]
  rw [h1]
  dsimp only
  rw [h2]
  dsimp only
  rw [h3]
  dsimp only
  rw [h4]
  dsimp only
  rw [h5]
  dsimp only
  rw [h6]
  dsimp only
  rw [h7]
  dsimp only
  rw [h8]
  dsimp only
  rw [h9]
  dsimp only
  exact h10

theorem chain_deflate_total {ns : List Str} {lit : Str}
    (hne : ns ≠ []) (hnd : ns.Nodup)
    (hhyg : ∀ n ∈ ns, FIELD_DELIMITER ∉ n ∧ byteLen n = n.length ∧
      (∀ c ∈ n, isWS c = false) ∧ is_reserved n = false)
    (hlit : FIELD_DELIMITER ∉ lit)
    {m0 : AList Field} (hm : ChainInv ns lit m0)
    (hfb : FlagBound ns lit 1 m0) (hlf : LitFrom ns lit (ns.length - 1) m0) :
    ∃ m2, AnnouncementOptions.deflate (ns.length - 1) m0 = .ok m2 ∧
      ChainInv ns lit m2 ∧ LitFrom ns lit 0 m2 ∧
      (∀ nf ∈ m2, ∀ p ∈ nf.2.fragments, p.2 = false → p.1 = lit) := by
  have hpos : 0 < ns.length := List.length_pos.mpr hne
  by_cases h2 : 2 ≤ ns.length
  · exact deflate_chain hnd hhyg hlit h2 (ns.length - 1) m0 1 (ns.length - 1)
      hm hfb hlf (by omega) (by omega) (by omega)
  · have hl1 : ns.length = 1 := by omega
    have h0 : ns.length - 1 = 0 := by omega
    refine ⟨m0, ?_, hm, ?_, ?_⟩
    · rw [h0]
      rfl
    · rw [h0] at hlf
      exact hlf
    · intro nf hnf p hp hpf
      rcases hfb nf hnf p hp hpf with he | ⟨j, n, hqj, hgj, he⟩
      · exact he
      · exfalso
        obtain ⟨hjb, -⟩ := List.get?_eq_some.mp hgj
        omega

/-- **Claim C5** (amended).  For every acyclic chain of fields, each
referencing the next by delimited name and the last bottoming out in a
literal (`chain_model`, with distinct, hygienic, non-reserved names and a
delimiter-free literal), compile SUCCEEDS at depth limit `d` when the chain
is exactly `d` hops deep.  The claim's second half is false: compile can
also succeed when the chain is one hop deeper than the depth limit, because
a single deflation pass substitutes through every field and can collapse
several hops — the 2-hop chain `a → b → c → "x"` already compiles at depth
limit 1. -/
theorem C5_chain_depth (ns : List Str) (lit : Str)
    (hne : ns ≠ [])
    (hnd : ns.Nodup)
    (hhyg : ∀ n ∈ ns, FIELD_DELIMITER ∉ n ∧ byteLen n = n.length ∧
      (∀ c ∈ n, isWS c = false) ∧ is_reserved n = false)
    (hlit : FIELD_DELIMITER ∉ lit) :
    failed (AnnouncementOptions.from_user (chain_model lit ns)
      (ns.length - 1)) = false ∧
    failed (AnnouncementOptions.from_user
      (chain_model "x".data ["a".data, "b".data, "c".data]) 1) = false := by
  refine ⟨?_, by rfl⟩
  obtain ⟨m0, hbuild, hm0, hfb0, hlf0⟩ := chain_build hnd hhyg hlit
  -- facts about the keys of the built map
  have hkeys_ns : ∀ k ∈ mkeys m0, k ∈ ns := by
    intro k hk
    simp only [mkeys, List.mem_map] at hk
    obtain ⟨nf, hnf, rfl⟩ := hk
    obtain ⟨i, hgi, -, -, -⟩ := hm0.2.2.1 nf hnf
    exact List.get?_mem hgi
  have hwords0 := chain_words hhyg hlit hm0
  -- the deflation runs to completion
  obtain ⟨m2, hdef, hm2, hlf2, hnfl2⟩ :=
    chain_deflate_total hne hnd hhyg hlit hm0 hfb0 hlf0
  -- all-literal word facts on the final neutral map
  have hwords2 := chain_words hhyg hlit hm2
  have hflags2 := chain_words_flags hhyg hlit hm2 hnfl2
  -- the fragment-text property carried into past and present
  have hP2 : ∀ nf ∈ m2, ∀ pp ∈ nf.2.fragments,
      ∀ w ∈ splitWS pp.1, ∃ b, is_field_name w = .ok b := by
    intro nf hnf pp hpp w hw
    obtain ⟨i, hgi, -, -, hcf⟩ := hm2.2.2.1 nf hnf
    rcases chainfrag_cases hhyg (hcf pp hpp) with hfr | ⟨j, n, -, hgj, hfr, htok⟩
    · refine ⟨false, is_field_name_no_delim ?_⟩
      intro hd
      rw [hfr] at hw
      exact hlit (splitWS_chars_subset hw FIELD_DELIMITER hd)
    · have hn := hhyg n (List.get?_mem hgj)
      rw [hfr, splitWS_gdn hn.2.2.1] at hw
      obtain rfl : w = get_delimited_name n := List.mem_singleton.mp hw
      exact ⟨true, htok⟩
  -- build the past/present maps of deflate_tense
  have hkfr : ∀ p ∈ AnnouncementOptions.allFrags m2,
      mcontains p.1 m2 = true := by
    intro p hp
    obtain ⟨nf, hnf, fr, hfr, rfl⟩ := allFrags_mem_inv hp
    show (mget? nf.1 m2).isSome = true
    rw [msorted_mem_mget? hm2.1 hnf]
    rfl
  have hPfr : ∀ p ∈ AnnouncementOptions.allFrags m2,
      ∀ w ∈ splitWS p.2, ∃ b, is_field_name w = .ok b := by
    intro p hp
    obtain ⟨nf, hnf, fr, hfr, rfl⟩ := allFrags_mem_inv hp
    exact hP2 nf hnf fr hfr
  obtain ⟨past2, hpast, hPpast⟩ :=
    @add_all_chain m2 (fun s => ∀ w ∈ splitWS s, ∃ b, is_field_name w = .ok b)
      (AnnouncementOptions.allFrags m2) [] hkfr hPfr
      (fun nf hnf => by simp at hnf)
  obtain ⟨present2, hpresent, hPpresent⟩ :=
    @add_all_chain m2 (fun s => ∀ w ∈ splitWS s, ∃ b, is_field_name w = .ok b)
      (AnnouncementOptions.allFrags m2) [] hkfr hPfr
      (fun nf hnf => by simp at hnf)
  -- the stages of remove_unresolved
  obtain ⟨rm, hcoll⟩ := collect_unresolved_chain
    (fun x hx => (hwords2 x hx).1) hflags2
  obtain ⟨pastRm, hgup, hgupn⟩ := get_unresolved_wf
    (fun nf hnf fr hfr => hPpast nf hnf fr hfr)
  have hpastk : ∀ p ∈ pastRm, mcontains p.1 past2 = true := by
    intro p hp
    obtain ⟨nf, hnf, he⟩ := hgupn p hp
    rw [he]
    exact mcontains_iff_mem.mpr ⟨nf.2, hnf⟩
  obtain ⟨past3, hrip⟩ := remove_internal_ok pastRm past2 hpastk
  obtain ⟨presentRm, hguq, hguqn⟩ := get_unresolved_wf
    (fun nf hnf fr hfr => hPpresent nf hnf fr hfr)
  have hpresk : ∀ p ∈ presentRm, mcontains p.1 present2 = true := by
    intro p hp
    obtain ⟨nf, hnf, he⟩ := hguqn p hp
    rw [he]
    exact mcontains_iff_mem.mpr ⟨nf.2, hnf⟩
  obtain ⟨present3, hriq⟩ := remove_internal_ok presentRm present2 hpresk
  -- assemble the pipeline
  have hbm : AnnouncementOptions.build_map (chain_model lit ns)
      (AnnouncementOptions.init_state (chain_model lit ns)) =
      .ok { AnnouncementOptions.init_state (chain_model lit ns) with
        neutral := m0 } :=
    build_map_none hbuild rfl
  have hfu := from_user_eq
    hbm
    (self_dep_check_ok (chain_no_self_dep hnd hhyg hlit hm0))
    (reserved_check_ok (fun k hk => (hhyg k (hkeys_ns k hk)).2.2.2))
    rfl
    (delimiter_check_ok (fun x hx => (hwords0 x hx).1))
    (missing_check_ok (fun x hx => by
      obtain ⟨⟨b, hb⟩, hrefs⟩ := hwords0 x hx
      refine ⟨b, hb, ?_⟩
      intro hbt
      obtain ⟨j, n, hgj, -, -, hstrip⟩ := hrefs (hbt ▸ hb)
      obtain ⟨f, hgf, -⟩ := hm0.2.2.2 j n hgj
      rw [hstrip]
      show (mget? n m0).isSome = true
      rw [hgf]
      rfl))
    hdef
    (deflate_tense_none rfl hpast hpresent)
    (each_field_check_ok (fun p hp => by
      show frags_resolved_once _ p.2.fragments false = .ok true
      obtain ⟨i, hgi, -, -, -⟩ := hm2.2.2.1 p hp
      have hcl : mcontains lit p.2.fragments = true :=
        hlf2 i p.1 hgi (Nat.zero_le i) p.2 (msorted_mem_mget? hm2.1 hp)
      obtain ⟨b, hbm⟩ := Option.isSome_iff_exists.mp hcl
      refine frags_resolved_once_true p.2.fragments false
        (fun pp hpp => fragment_resolved_wf _ (hP2 p hp pp hpp)) ?_
      refine Or.inl ⟨(lit, b), mget?_mem hbm, ?_⟩
      refine fragment_resolved_lits _ ?_
      intro w hw hd
      exact hlit (splitWS_chars_subset hw FIELD_DELIMITER hd)))
    (remove_unresolved_eq hcoll hgup hrip hguq hriq)
  rw [hfu]
  rfl

/-- **Claim C5**, counterexample: the 2-hop chain `a → b → c → "x"` is one
hop deeper than depth limit 1, yet compile SUCCEEDS — a deflation pass
substitutes every temp field in order, so one pass can collapse several
hops; this refutes "fails when the chain is d+1 hops deep". -/
theorem C5_counterexample :
    failed (AnnouncementOptions.from_user
      ⟨[⟨"a".data, true, ["^b^".data]⟩, ⟨"b".data, true, ["^c^".data]⟩,
        ⟨"c".data, true, ["x".data]⟩], none, none, none⟩ 1) = false := rfl

/-- Witness for `C5_chain_depth`: the 2-hop descending-name chain
`c → b → a → "x"` (which genuinely needs both passes) at depth limit 2. -/
theorem C5_witness :
    failed (AnnouncementOptions.from_user
      (chain_model "x".data ["c".data, "b".data, "a".data])
      (["c".data, "b".data, "a".data].length - 1)) = false ∧
    failed (AnnouncementOptions.from_user
      (chain_model "x".data ["a".data, "b".data, "c".data]) 1) = false :=
  C5_chain_depth ["c".data, "b".data, "a".data] "x".data
    (by decide) (by decide) (by decide) (by decide)

end Rj
